import Mathlib

/-!
# Verification of the turing-lang definition language, engine and composers

This file gives a shallow embedding of `src/turing.rs`:

* the string utilities of `std` that the parser relies on
  (`split_whitespace`, `lines`, `split`, `split_once`, `replace`,
  `trim_end`, `ends_with`, `to_ascii_lowercase`),
* `extract_tokens`, `TuringRules::parse_file`, `Direction::from`,
* the execution engine (`TuringMachine::input`, `get_string`,
  `Iterator::next`),
* the composition subsystem (`chain`, `branch`, `loop_while`,
  `merge_tokens`, `write_to_file`),

and proves resp. refutes the specification claims about them.

Machine text is modelled as `List Char` (named `Str` below); `HashMap`s
are modelled as association lists with insert-overwrite, which keeps keys
unique and makes `len()` the list length; `HashSet`s as lists with
insert-if-absent (all downstream uses are membership tests, so iteration
order never matters).  Code that can `panic!` or `expect` is modelled
with `Option`, `none` being the abort.
-/

set_option maxHeartbeats 1000000
set_option maxRecDepth 10000

/-- Characters treated as whitespace by the model.  The Rust source uses
Unicode `char::is_whitespace`; machine definitions are ASCII, and all
theorems below only constrain these characters. -/
def isWsChar (c : Char) : Bool :=
  c = ' ' || c = '\t' || c = '\n' || c = '\r' ||
  c = Char.ofNat 11 || c = Char.ofNat 12

/-- Text (and tokens) of a machine definition. -/
abbrev Str := List Char

/-- Characters of a string literal, the bridge from Lean literals to `Str`. -/
def s2l (s : String) : Str := s.data

/-- Fuel-based helper for `splitWs`; `fuel ≥ s.length` makes the first
branch unreachable (fuel keeps the recursion structural, so that concrete
instances evaluate inside the kernel). -/
def splitWsF : Nat → Str → List Str
  | 0, _ => []
  | _ + 1, [] => []
  | fuel + 1, c :: rest =>
    if isWsChar c then splitWsF fuel rest
    else (c :: rest.takeWhile (fun d => ¬ isWsChar d)) ::
      splitWsF fuel (rest.dropWhile (fun d => ¬ isWsChar d))

/-- `str::split_whitespace`: maximal runs of non-whitespace characters. -/
def splitWs (s : Str) : List Str := splitWsF s.length s

/-- `str::split(c)`: the pieces between occurrences of `c` (keeps empties,
always at least one piece). -/
def splitChar (c : Char) : Str → List Str
  | [] => [[]]
  | a :: rest =>
    if a = c then [] :: splitChar c rest
    else
      match splitChar c rest with
      | [] => [[a]]      -- unreachable: splitChar never returns []
      | h :: t => (a :: h) :: t

/-- `str::split_once(c)`: text before and after the first occurrence. -/
def splitOnceChar (c : Char) : Str → Option (Str × Str)
  | [] => none
  | a :: rest =>
    if a = c then some ([], rest)
    else (splitOnceChar c rest).map (fun p => (a :: p.1, p.2))

/-- A trailing `'\r'` is stripped from each line by `str::lines`. -/
def stripCR (l : Str) : Str :=
  if l.getLast? = some '\r' then l.dropLast else l

/-- `str::lines`: split on `'\n'`, dropping one trailing empty segment
(terminator semantics) and any final `'\r'` per line. -/
def rustLines (s : Str) : List Str :=
  if s = [] then []
  else
    (let parts := splitChar '\n' s
     if parts.getLast? = some [] then parts.dropLast else parts).map stripCR

/-- Fuel-based helper for `strReplace`; `fuel ≥ s.length` makes the first
branch unreachable. -/
def strReplaceF (pat rep : Str) : Nat → Str → Str
  | 0, s => s
  | _ + 1, [] => []
  | fuel + 1, c :: rest =>
    if ¬ pat.isEmpty ∧ pat.isPrefixOf (c :: rest) then
      rep ++ strReplaceF pat rep fuel ((c :: rest).drop pat.length)
    else
      c :: strReplaceF pat rep fuel rest

/-- `str::replace(pat, rep)`: left-to-right, non-overlapping.  All call
sites have a non-empty pattern; an empty pattern is returned unchanged. -/
def strReplace (s pat rep : Str) : Str := strReplaceF pat rep s.length s

/-- `str::trim_end`: drop trailing whitespace. -/
def trimEnd (s : Str) : Str :=
  (s.reverse.dropWhile isWsChar).reverse

/-- `str::ends_with(suffix)`. -/
def strEndsWith (suffix s : Str) : Bool :=
  suffix.isSuffixOf s

/-- Does `pat` occur anywhere in `s` as a contiguous substring? -/
def containsSub (s pat : Str) : Bool :=
  match s with
  | [] => pat.isPrefixOf ([] : Str)
  | _ :: rest => pat.isPrefixOf s || containsSub rest pat

/-- `char::to_ascii_lowercase`. -/
def lowerChar (c : Char) : Char :=
  if 'A' ≤ c ∧ c ≤ 'Z' then Char.ofNat (c.toNat + 32) else c

/-- `str::to_ascii_lowercase`. -/
def toLowerStr (s : Str) : Str := s.map lowerChar

/-- `Vec::join(sep)` on token lists. -/
def joinSep (sep : Char) : List Str → Str
  | [] => []
  | [t] => t
  | t :: rest => t ++ sep :: joinSep sep rest

/-- Lookup in an association-list model of `HashMap` (keys are unique). -/
def alGet {κ α : Type} [DecidableEq κ] (m : List (κ × α)) (k : κ) : Option α :=
  (m.find? (fun p => p.1 = k)).map (fun p => p.2)

/-- `HashMap::insert`: overwrite an existing key, else append.  Starting
from `[]`, keys stay unique, so `m.length` models `HashMap::len`. -/
def alInsert {κ α : Type} [DecidableEq κ] (m : List (κ × α)) (k : κ) (v : α) :
    List (κ × α) :=
  if (alGet m k).isSome then
    m.map (fun p => if p.1 = k then (k, v) else p)
  else m ++ [(k, v)]

/-- `HashSet::insert` on a list model: add if absent (membership is the
only observation made of these sets downstream). -/
def slInsert {κ : Type} [DecidableEq κ] (m : List κ) (k : κ) : List κ :=
  if k ∈ m then m else m ++ [k]

example : splitWs (s2l "  a bc  d ") = [s2l "a", s2l "bc", s2l "d"] := by decide
example : splitChar ',' (s2l "a,,b") = [s2l "a", [], s2l "b"] := by decide
example : splitOnceChar '-' (s2l "a-b-c") = some (s2l "a", s2l "b-c") := by decide
example : rustLines (s2l "a\n\nb\n") = [s2l "a", [], s2l "b"] := by decide
example : rustLines (s2l "") = [] := by decide
example : strReplace (s2l "xHALTyHALT") (s2l "HALT") (s2l "q0") = s2l "xq0yq0" := by decide
example : trimEnd (s2l "ab \n") = s2l "ab" := by decide
example : joinSep ',' [s2l "x", s2l "y"] = s2l "x,y" := by decide
example : toLowerStr (s2l "LeFt") = s2l "left" := by decide

/-! ## `extract_tokens` (source lines 487-553)

Returns declared state names, symbol tokens, final-state names, the
initial-state name and the comment-stripped raw table text. -/

/-- The quintuple returned by `extract_tokens`. -/
structure Extracted where
  states : List Str
  syms : List Str
  finals : List Str
  init : Str
  table : Str
deriving DecidableEq

/-- A `#` comment marker truncates a line (`line.split_once("#")`). -/
def stripComment (l : Str) : Str :=
  match splitOnceChar '#' l with
  | some p => p.1
  | none => l

/-- The table text: every remaining line, comment-stripped, re-joined with
a `'\n'` after each, then `trim_end`ed. -/
def tableText (ls : List Str) : Str :=
  trimEnd ((ls.map stripComment).foldr (fun l acc => l ++ '\n' :: acc) [])

/-- The prologue loop of `extract_tokens`: fold over the lines until a
`table` line breaks; `initstate` with no argument panics (`none`).
Multiple `initstate` lines concatenate (`push_str`), mirroring the
source. -/
def exLoop : List Str →
    List Str × List Str × List Str × Str → Option Extracted
  | [], (st, sy, fi, ini) => some ⟨st, sy, fi, ini, tableText []⟩
  | line :: rest, (st, sy, fi, ini) =>
    match splitWs (stripComment line) with
    | [] => exLoop rest (st, sy, fi, ini)
    | tok :: args =>
      if tok = s2l "states" then exLoop rest (st ++ args, sy, fi, ini)
      else if tok = s2l "syms" then exLoop rest (st, sy ++ args, fi, ini)
      else if tok = s2l "initstate" then
        match args with
        | [] => none
        | a :: _ => exLoop rest (st, sy, fi, ini ++ a)
      else if tok = s2l "finalstates" then
        exLoop rest (st, sy, args.foldl slInsert fi, ini)
      else if tok = s2l "table" then
        some ⟨st, sy, fi, ini, tableText rest⟩
      else exLoop rest (st, sy, fi, ini)

/-- `extract_tokens`, minus the file I/O: from definition text to the
token quintuple. -/
def extractTokens (text : Str) : Option Extracted :=
  exLoop (rustLines text) ([], [], [], [])

/-! ## `Direction` (source lines 111-127) -/

inductive Direction where
  | Left
  | Right
  | Stay
deriving DecidableEq, Repr

/-- `Direction::from`, on the ASCII-lowercased token.  The explicit
`{n,v,stay}` arm and the default arm both give `Stay`. -/
def dirFromStr (s : Str) : Direction :=
  let t := toLowerStr s
  if t = s2l "l" ∨ t = s2l "<" ∨ t = s2l "left" then .Left
  else if t = s2l "r" ∨ t = s2l ">" ∨ t = s2l "right" then .Right
  else if t = s2l "n" ∨ t = s2l "v" ∨ t = s2l "stay" then .Stay
  else .Stay

/-! ## `TuringRules::parse_file` (source lines 139-294) -/

/-- A transition-table entry `(new state, symbol to write, direction)`. -/
structure Move where
  ns : Nat
  w : Nat
  d : Direction
deriving DecidableEq, Repr

/-- The resolved transition table. -/
abbrev TMap := List ((Nat × Nat) × Move)

structure Rules where
  initialState : Nat
  finalStates : List Nat
  idx2sym : List (Nat × Str)
  sym2idx : List (Str × Nat)
  transitionMap : TMap
deriving DecidableEq

/-- `format!("{}::{}", machineName, s)` — the namespace prefix applied
uniformly to every `state2idx` key and query. -/
def qual (mname s : Str) : Str := mname ++ ':' :: ':' :: s

/-- `state2idx`: `HALT ↦ 0`, then the declared states at `i + 1`. -/
def buildState2idx (mname : Str) (states : List Str) : List (Str × Nat) :=
  states.enum.foldl (fun m p => alInsert m (qual mname p.2) (p.1 + 1))
    (alInsert [] (qual mname (s2l "HALT")) 0)

/-- `sym2idx`: `_ ↦ 0`, then the declared symbols at `i + 1`. -/
def buildSym2idx (syms : List Str) : List (Str × Nat) :=
  syms.enum.foldl (fun m p => alInsert m p.2 (p.1 + 1))
    (alInsert [] (s2l "_") 0)

/-- `idx2sym`: `0 ↦ _`, then `i + 1 ↦` declared symbol `i`. -/
def buildIdx2sym (syms : List Str) : List (Nat × Str) :=
  syms.enum.foldl (fun m p => alInsert m (p.1 + 1) p.2)
    (alInsert [] 0 (s2l "_"))

/-- `first..last + 1`. -/
def rangeIncl (first last : Nat) : List Nat :=
  (List.range (last + 1 - first)).map (fun i => first + i)

/-- One comma-piece of a selector: a `first-last` range (panic when the
first index exceeds the last), else — when the *whole* selector token is
`*` — the full domain `0..len`, else a single lookup. -/
def expandPiece (wildLen : Nat) (whole : Str) (lookup : Str → Option Nat)
    (s : Str) : Option (List Nat) :=
  match splitOnceChar '-' s with
  | some p => do
    let first ← lookup p.1
    let last ← lookup p.2
    if first > last then none else pure (rangeIncl first last)
  | none =>
    if whole = s2l "*" then pure (List.range wildLen)
    else do
      let i ← lookup s
      pure [i]

/-- A whole selector token: concatenation of its comma-pieces. -/
def expandSel (wildLen : Nat) (lookup : Str → Option Nat) (whole : Str) :
    Option (List Nat) :=
  (splitChar ',' whole).foldlM
    (fun acc s => do pure (acc ++ (← expandPiece wildLen whole lookup s))) []

/-- The insertion loops (source lines 268-284): for every expanded
`(state, symbol)` pair, insert *only if that pair has no prior entry*;
`.` in the next-state/write field resolves to the pair's own
state/symbol. -/
def applyRow (sts sys : List Nat) (nso wso : Option Nat) (d : Direction)
    (m : TMap) : TMap :=
  sts.foldl (fun m si =>
    sys.foldl (fun m yi =>
      if (alGet m (si, yi)).isSome then m
      else m ++ [((si, yi), ⟨nso.getD si, wso.getD yi, d⟩)]) m) m

/-- The next-state field: `None` when the token ends with `.` (stay in
the current state), else a (panicking) `state2idx` lookup. -/
def nsoOf (mname : Str) (st2i : List (Str × Nat)) (t2 : Str) :
    Option (Option Nat) :=
  if strEndsWith (s2l ".") t2 then pure none
  else (alGet st2i (qual mname t2)).map some

/-- The write field: `None` when the token ends with `.` (retain the
current symbol), else a (panicking) `sym2idx` lookup. -/
def wsoOf (sy2i : List (Str × Nat)) (t3 : Str) : Option (Option Nat) :=
  if strEndsWith (s2l ".") t3 then pure none
  else (alGet sy2i t3).map some

/-- One table row (exactly five whitespace tokens, else panic). -/
def procRow (mname : Str) (st2i sy2i : List (Str × Nat)) (m : TMap)
    (toks : List Str) : Option TMap :=
  match toks with
  | [t0, t1, t2, t3, t4] => do
    let sts ← expandSel st2i.length
      (fun s => alGet st2i (qual mname s)) t0
    let sys ← expandSel sy2i.length (fun s => alGet sy2i s) t1
    let nso ← nsoOf mname st2i t2
    let wso ← wsoOf sy2i t3
    pure (applyRow sts sys nso wso (dirFromStr t4) m)
  | _ => none

/-- The table lines that are parsed: empty lines are skipped, all others
split into whitespace tokens. -/
def tableRows (t : Str) : List (List Str) :=
  ((rustLines t).filter (fun l => l ≠ [])).map splitWs

/-- `parse_file` after `extract_tokens`: build the interning tables,
resolve the initial and final states, then fold the table rows. -/
def parseRules (mname : Str) (e : Extracted) : Option Rules := do
  let st2i := buildState2idx mname e.states
  let sy2i := buildSym2idx e.syms
  let i2s := buildIdx2sym e.syms
  let ini ← alGet st2i (qual mname e.init)
  let fin ← e.finals.foldlM
    (fun acc f => do pure (slInsert acc (← alGet st2i (qual mname f)))) []
  let tm ← (tableRows e.table).foldlM (procRow mname st2i sy2i) []
  pure ⟨ini, fin, i2s, sy2i, tm⟩

/-- `TuringRules::parse_file` end to end (file text to rules); `mname` is
the path basename with `.tur` trimmed. -/
def parseFile (mname : Str) (text : Str) : Option Rules :=
  (extractTokens text).bind (parseRules mname)

/-! ## The execution engine (source lines 11-95)

The sparse tape `HashMap<i64, usize>` is modelled as a total function
`Int → Nat`: absent cells read as `BLANK_ID = 0` (`unwrap_or_else`), and
the only observation distinguishing an absent cell from a stored `0` is
`get_string`, which renders both as `"_"` because `idx2sym` always maps
`0` to `"_"`. -/

structure Config where
  tape : Int → Nat
  state : Nat
  pointer : Int

/-- `TuringRules::get_move`. -/
def getMove (R : Rules) (st sym : Nat) : Option Move :=
  alGet R.transitionMap (st, sym)

/-- The head move of one step (`match dir` of `next`). -/
def movePtr (p : Int) : Direction → Int
  | .Left => p - 1
  | .Right => p + 1
  | .Stay => p

/-- One applied transition: write at the head, change state, move. -/
def applyMove (c : Config) (mv : Move) : Config :=
  ⟨fun j => if j = c.pointer then mv.w else c.tape j, mv.ns,
    movePtr c.pointer mv.d⟩

/-- One engine step; `none` when no transition exists (the machine
halts). -/
def stepOpt (R : Rules) (c : Config) : Option Config :=
  (getMove R c.state (c.tape c.pointer)).map (applyMove c)

/-- `t` engine steps; `none` once the machine has halted earlier. -/
def runN (R : Rules) (c : Config) : Nat → Option Config
  | 0 => some c
  | t + 1 => (runN R c t).bind (stepOpt R)

/-- Does the current configuration halt (no matching transition)? -/
def haltedAt (R : Rules) (c : Config) : Bool :=
  (getMove R c.state (c.tape c.pointer)).isNone

/-- The accept test of `next` (source line 81):
`final_states.contains(&state)`. -/
def verdict (R : Rules) (st : Nat) : Bool :=
  R.finalStates.contains st

/-- The insertion loop of `input`: for each `(i, token)`, intern the
token (an undefined symbol panics, i.e. `none`) and write its index at
cell `-i`. -/
def inputFoldF (R : Rules) (start : Int → Nat) (l : List (Nat × Str)) :
    Option (Int → Nat) :=
  l.foldlM
    (fun tape p => do
      let idx ← alGet R.sym2idx p.2
      pure (fun j => if j = -(p.1 : Int) then idx else tape j))
    start

/-- `TuringMachine::input` on the fresh (empty) tape from `from_file`:
whitespace tokens, reversed and enumerated, written at cells
`0, -1, -2, …`. -/
def inputTape (R : Rules) (s : Str) : Option (Int → Nat) :=
  inputFoldF R (fun _ => 0) (splitWs s).reverse.enum

/-- The fresh machine of `from_file` composed with `input`. -/
def machineFromInput (R : Rules) (s : Str) : Option Config :=
  (inputTape R s).map (fun tp => ⟨tp, R.initialState, 0⟩)

/-! ### `get_string` (source lines 44-60) -/

/-- `(pointer + 40) as usize`: a negative `i64` wraps modulo `2 ^ 64`. -/
def usizeCast (i : Int) : Nat := (i % (2 ^ 64 : Int)).toNat

/-- `format!("{:>w$}\n", "v")`: `w - 1` spaces, a `v`, a newline. -/
def markerLine (w : Nat) : Str :=
  List.replicate (w - 1) ' ' ++ ['v', '\n']

/-- The marker width `(pointer + width / 2) as usize + 1`. -/
def markerWidth (p : Int) : Nat := usizeCast (p + 40) + 1

/-- The cells rendered by `get_string`: tape positions `-40..39`,
regardless of the head position. -/
def windowCells (R : Rules) (c : Config) : List (Option Str) :=
  (List.range 80).map (fun (j : Nat) => alGet R.idx2sym (c.tape ((j : Int) - 40)))

/-- `get_string`: the marker line followed by the rendered window; `none`
models the `expect` panic on a symbol index missing from `idx2sym`. -/
def getString (R : Rules) (c : Config) : Option Str := do
  let cells ← (windowCells R c).mapM id
  pure (markerLine (markerWidth c.pointer) ++ cells.foldr (· ++ ·) [])

/-- The verdict text appended to the terminal snapshot. -/
def verdictSuffix (R : Rules) (st : Nat) : Str :=
  if verdict R st then s2l "\n    ACCEPTED" else s2l "\n    REJECTED"

/-- The `t`-th snapshot yielded by the `Iterator`: `get_string` of the
`t`-th configuration, with the verdict appended exactly when that call
found no transition (after which the iterator yields `None` forever, so
`runN … = none` past the halt). -/
def snapAt (R : Rules) (c0 : Config) (t : Nat) : Option Str :=
  (runN R c0 t).bind (fun c =>
    (getString R c).map (fun g =>
      if haltedAt R c then g ++ verdictSuffix R c.state else g))

/-! ## The composition subsystem (source lines 297-479) -/

/-- The collision loop `while states.contains(&s) { s = pfx::s }`.  Each
round strictly lengthens `s` and successive values are distinct, so at
most `taken.length` rounds fire; the fuel `taken.length + 1` keeps the
recursion structural and is never exhausted. -/
def uniquifyF (pfx : Str) (taken : List Str) : Nat → Str → Str
  | 0, s => s
  | fuel + 1, s =>
    if s ∈ taken then uniquifyF pfx taken fuel (qual pfx s) else s

def uniquify (pfx : Str) (taken : List Str) (s : Str) : Str :=
  uniquifyF pfx taken (taken.length + 1) s

/-- The collision loop of `merge_tokens`, which renames `init_state` in
lockstep when the renamed state is the initial state. -/
def uniquifyInitF (pfx : Str) (taken : List Str) :
    Nat → Str × Str → Str × Str
  | 0, si => si
  | fuel + 1, (s, ini) =>
    if s ∈ taken then
      uniquifyInitF pfx taken fuel
        (qual pfx s, if s = ini then qual pfx ini else ini)
    else (s, ini)

def uniquifyInit (pfx : Str) (taken : List Str) (s ini : Str) : Str × Str :=
  uniquifyInitF pfx taken (taken.length + 1) (s, ini)

/-- `chain`'s serialization (the five `write!` calls, lines 345-365). -/
def chainSerialize (states syms finals : List Str) (ini t1 t2 : Str) : Str :=
  s2l "states " ++ joinSep ' ' states ++ '\n' ::
  (s2l "syms " ++ joinSep ' ' syms ++ '\n' ::
  (s2l "initstate " ++ ini ++ '\n' ::
  (s2l "finalstates " ++ joinSep ' ' finals ++ '\n' ::
  (s2l "table" ++ '\n' :: (t1 ++ '\n' :: t2)))))

/-- `chain(filepath1, filepath2, outpath)`: the text written to `outpath`,
given the extractions of the two inputs and the basename prefix of the
second. -/
def chainText (m2pfx : Str) (e1 e2 : Extracted) : Str :=
  let m2init := uniquify m2pfx e1.states e2.init
  let sm := e2.states.foldl
    (fun (p : List Str × Str) state =>
      let s := uniquify m2pfx p.1 state
      (p.1 ++ [s], strReplace p.2 state s))
    (e1.states, e2.table)
  let m1table := strReplace e1.table (s2l "HALT") m2init
  let syms := e2.syms.foldl slInsert e1.syms
  let finals := e2.finals.map
    (fun f => if strEndsWith (s2l "HALT") f then s2l "HALT" else f)
  chainSerialize sm.1 syms finals e1.init m1table sm.2

/-- `merge_tokens`: rename colliding incoming states (rewriting the table
with the three delimiter-suffixed replaces), union the symbols; returns
the new state pool, symbol pool, rewritten table and (renamed) initial
state. -/
def mergeTokens (states syms : List Str) (m2 : Extracted) (pfx : Str) :
    List Str × List Str × Str × Str :=
  let r := m2.states.foldl
    (fun (p : List Str × Str × Str) state =>
      let si := uniquifyInit pfx p.1 state p.2.2
      let table :=
        strReplace
          (strReplace
            (strReplace p.2.1 (state ++ [' ']) (si.1 ++ [' ']))
            (state ++ [',']) (si.1 ++ [',']))
          (state ++ ['-']) (si.1 ++ ['-'])
      (p.1 ++ [si.1], table, si.2))
    (states, m2.table, m2.init)
  let syms := m2.syms.foldl slInsert syms
  (r.1, syms, r.2.1, r.2.2)

/-- `write_to_file`: the serialization shared by `branch` and
`loop_while` (`finalstates HALT`, no newline after the table). -/
def writeToFileText (states syms : List Str) (ini table : Str) : Str :=
  s2l "states " ++ joinSep ' ' states ++ '\n' ::
  (s2l "syms " ++ joinSep ' ' syms ++ '\n' ::
  (s2l "initstate " ++ ini ++ '\n' ::
  (s2l "finalstates HALT" ++ '\n' ::
  (s2l "table" ++ '\n' :: table))))

/-- `branch(entry, syms, machines, outpath)`: the text written to
`outpath`.  Each machine comes with its basename prefix.  Note the
dispatch rows: the first is appended *without* a leading newline. -/
def branchText (entry : Extracted) (syms : List Str)
    (machines : List (Str × Extracted)) : Str :=
  let table0 := strReplace entry.table (s2l "HALT") (s2l "BRANCH")
  let states0 := entry.states ++ [s2l "BRANCH"]
  let acc := machines.foldl
    (fun (p : List Str × List Str × Str × List Str) m =>
      let r := mergeTokens p.1 p.2.1 m.2 m.1
      (r.1, r.2.1, p.2.2.1 ++ '\n' :: r.2.2.1, p.2.2.2 ++ [r.2.2.2]))
    (states0, entry.syms, table0, [])
  let table := (syms.zip acc.2.2.2).foldl
    (fun t p =>
      t ++ (s2l "BRANCH " ++ p.1 ++ ' ' :: (p.2 ++ s2l " . R") ++ ['\n']))
    acc.2.2.1
  writeToFileText acc.1 acc.2.1 entry.init table

/-- `loop_while(entry, loop_syms, outpath)`: the text written to
`outpath`. -/
def loopWhileText (entry : Extracted) (loopSyms : List Str) : Str :=
  let states := entry.states ++ [s2l "CHECK"]
  let table := strReplace entry.table (s2l "HALT") (s2l "CHECK")
  let table := table ++ '\n' ::
    (s2l "CHECK " ++ joinSep ',' loopSyms ++ ' ' :: (entry.init ++ s2l " . N"))
  let table := table ++ '\n' :: s2l "CHECK * HALT . N"
  writeToFileText states entry.syms entry.init table

/-! ## Association-list lemmas -/

theorem alGet_nil {κ α : Type} [DecidableEq κ] (k : κ) :
    alGet ([] : List (κ × α)) k = none := rfl

theorem alGet_cons {κ α : Type} [DecidableEq κ] (k' k : κ) (v : α)
    (m : List (κ × α)) :
    alGet ((k', v) :: m) k = if k' = k then some v else alGet m k := by
  by_cases h : k' = k <;> simp [alGet, List.find?_cons, h]

theorem alGet_append_none {κ α : Type} [DecidableEq κ] {m1 : List (κ × α)}
    {k : κ} (m2 : List (κ × α)) (h : alGet m1 k = none) :
    alGet (m1 ++ m2) k = alGet m2 k := by
  induction m1 with
  | nil => simp
  | cons p m1 ih =>
    rw [List.cons_append, show p = (p.1, p.2) from rfl, alGet_cons] at *
    by_cases hp : p.1 = k
    · simp [hp] at h
    · simp only [hp, if_false] at h ⊢
      exact ih h

theorem alGet_append_some {κ α : Type} [DecidableEq κ] {m1 : List (κ × α)}
    {k : κ} {v : α} (m2 : List (κ × α)) (h : alGet m1 k = some v) :
    alGet (m1 ++ m2) k = some v := by
  induction m1 with
  | nil => simp [alGet_nil] at h
  | cons p m1 ih =>
    rw [List.cons_append, show p = (p.1, p.2) from rfl, alGet_cons] at *
    by_cases hp : p.1 = k
    · simpa [hp] using h
    · simp only [hp, if_false] at h ⊢
      exact ih h

theorem alInsert_fresh {κ α : Type} [DecidableEq κ] {m : List (κ × α)}
    {k : κ} (v : α) (h : alGet m k = none) :
    alInsert m k v = m ++ [(k, v)] := by
  simp [alInsert, h]

theorem alGet_overwrite_isSome {κ α : Type} [DecidableEq κ]
    (m : List (κ × α)) (k k' : κ) (v : α) :
    (alGet (m.map (fun p => if p.1 = k then (k, v) else p)) k').isSome
      ↔ (alGet m k').isSome := by
  induction m with
  | nil => simp
  | cons p m ih =>
    obtain ⟨pk, pv⟩ := p
    by_cases hp : pk = k
    · subst hp
      by_cases hk : pk = k' <;>
        simp [List.map_cons, alGet_cons, hk, ih]
    · by_cases hk : pk = k'
      · subst hk
        simp [List.map_cons, alGet_cons, hp, ih]
      · simp [List.map_cons, alGet_cons, hp, hk, ih]

theorem alGet_alInsert_isSome {κ α : Type} [DecidableEq κ] (m : List (κ × α))
    (k k' : κ) (v : α) :
    (alGet (alInsert m k v) k').isSome ↔ k' = k ∨ (alGet m k').isSome := by
  unfold alInsert
  by_cases h : (alGet m k).isSome
  · simp only [h, if_true, alGet_overwrite_isSome]
    constructor
    · exact fun hs => Or.inr hs
    · rintro (rfl | hs)
      · exact h
      · exact hs
  · rw [if_neg h]
    cases hm : alGet m k' with
    | none =>
      rw [alGet_append_none [(k, v)] hm, alGet_cons]
      by_cases hk : k = k'
      · subst hk
        simp
      · simp only [if_neg hk, alGet_nil, hm]
        simp only [Option.isSome_none, Bool.false_eq_true, false_iff, or_false]
        exact fun hc => hk hc.symm
    | some w =>
      rw [alGet_append_some [(k, v)] hm]
      simp [hm]

/-- Position of the first occurrence of `k`. -/
def posOf? {α : Type} [DecidableEq α] (k : α) : List α → Option Nat
  | [] => none
  | a :: l => if a = k then some 0 else (posOf? k l).map (fun i => i + 1)

theorem posOf?_mem {α : Type} [DecidableEq α] {k : α} {l : List α} :
    (posOf? k l).isSome ↔ k ∈ l := by
  induction l with
  | nil => simp [posOf?]
  | cons a l ih =>
    by_cases h : a = k
    · subst h
      simp [posOf?]
    · simp only [posOf?, if_neg h, Option.isSome_map', ih, List.mem_cons]
      constructor
      · exact Or.inr
      · rintro (hc | hc)
        · exact absurd hc.symm h
        · exact hc

theorem posOf?_lt_length {α : Type} [DecidableEq α] {k : α} {l : List α}
    {i : Nat} (h : posOf? k l = some i) : i < l.length := by
  induction l generalizing i with
  | nil => simp [posOf?] at h
  | cons a l ih =>
    simp only [posOf?] at h
    by_cases ha : a = k
    · rw [if_pos ha] at h
      injection h with h
      simp only [List.length_cons]
      omega
    · rw [if_neg ha] at h
      simp only [Option.map_eq_some'] at h
      obtain ⟨j, hj, rfl⟩ := h
      have := ih hj
      simp only [List.length_cons]
      omega

theorem posOf?_get {α : Type} [DecidableEq α] {k : α} {l : List α}
    {i : Nat} (h : posOf? k l = some i) :
    l.get ⟨i, posOf?_lt_length h⟩ = k := by
  induction l generalizing i with
  | nil => simp [posOf?] at h
  | cons a l ih =>
    by_cases ha : a = k
    · have h0 : i = 0 := by
        simp only [posOf?, if_pos ha] at h
        injection h with h
        omega
      subst h0
      simpa using ha
    · have hx : posOf? k (a :: l) = (posOf? k l).map (fun i => i + 1) := by
        simp [posOf?, ha]
      rw [hx] at h
      simp only [Option.map_eq_some'] at h
      obtain ⟨j, hj, rfl⟩ := h
      simpa using ih hj

theorem posOf?_of_nodup_get {α : Type} [DecidableEq α] {l : List α}
    (hnd : l.Nodup) (i : Nat) (h : i < l.length) :
    posOf? (l.get ⟨i, h⟩) l = some i := by
  induction l generalizing i with
  | nil => simp at h
  | cons a l ih =>
    rcases List.nodup_cons.mp hnd with ⟨ha, hl⟩
    cases i with
    | zero => simp [posOf?]
    | succ j =>
      have hj : j < l.length := by simpa using h
      have hne : a ≠ l.get ⟨j, hj⟩ := fun hc => ha (hc ▸ List.get_mem l j hj)
      have hrec := ih hl j hj
      simp only [posOf?, List.get_cons_succ]
      rw [if_neg (by simpa using hne)]
      simp only [List.get_eq_getElem] at hrec ⊢
      rw [hrec]
      rfl

/-! ## Characterizing the interning tables -/

theorem qual_inj {m a b : Str} (h : qual m a = qual m b) : a = b := by
  unfold qual at h
  have := List.append_cancel_left h
  simpa using this

/-- Folding fresh inserts just appends the key-value pairs. -/
theorem foldl_alInsert_fresh {κ α β : Type} [DecidableEq κ]
    (kf : β → κ) (vf : β → α) :
    ∀ (xs : List β) (acc : List (κ × α)),
    (∀ x ∈ xs, alGet acc (kf x) = none) → (xs.map kf).Nodup →
    xs.foldl (fun m x => alInsert m (kf x) (vf x)) acc
      = acc ++ xs.map (fun x => (kf x, vf x)) := by
  intro xs
  induction xs with
  | nil => simp
  | cons x xs ih =>
    intro acc hfresh hnd
    have hx : alGet acc (kf x) = none := hfresh x (List.mem_cons_self x xs)
    rw [List.foldl_cons, alInsert_fresh (vf x) hx]
    rw [List.map_cons, List.nodup_cons] at hnd
    have hres := ih (acc ++ [(kf x, vf x)])
      (fun y hy => by
        rw [alGet_append_none [(kf x, vf x)] (hfresh y (List.mem_cons_of_mem x hy))]
        rw [alGet_cons]
        have : kf x ≠ kf y := fun hc => hnd.1 (hc ▸ List.mem_map_of_mem kf hy)
        simp [this, alGet_nil])
      hnd.2
    rw [hres, List.append_assoc]
    rfl

/-- `isSome` of a fold of inserts: the key is one of the inserted keys or
was already present (no freshness needed). -/
theorem foldl_alInsert_isSome {κ α β : Type} [DecidableEq κ]
    (kf : β → κ) (vf : β → α) (k : κ) :
    ∀ (xs : List β) (acc : List (κ × α)),
    (alGet (xs.foldl (fun m x => alInsert m (kf x) (vf x)) acc) k).isSome
      ↔ (∃ x ∈ xs, kf x = k) ∨ (alGet acc k).isSome := by
  intro xs
  induction xs with
  | nil => simp
  | cons x xs ih =>
    intro acc
    rw [List.foldl_cons, ih]
    rw [alGet_alInsert_isSome]
    constructor
    · rintro (⟨y, hy, hk⟩ | hk | h)
      · exact Or.inl ⟨y, List.mem_cons_of_mem x hy, hk⟩
      · exact Or.inl ⟨x, List.mem_cons_self x xs, hk.symm⟩
      · exact Or.inr h
    · rintro (⟨y, hy, hk⟩ | h)
      · rcases List.mem_cons.mp hy with rfl | hy
        · exact Or.inr (Or.inl hk.symm)
        · exact Or.inl ⟨y, hy, hk⟩
      · exact Or.inr (Or.inr h)

theorem buildState2idx_eq (mname : Str) (states : List Str)
    (hnd : states.Nodup) (hh : s2l "HALT" ∉ states) :
    buildState2idx mname states
      = (qual mname (s2l "HALT"), 0)
        :: states.enum.map (fun p => (qual mname p.2, p.1 + 1)) := by
  unfold buildState2idx
  have h0 : alInsert ([] : List (Str × Nat)) (qual mname (s2l "HALT")) 0
      = [(qual mname (s2l "HALT"), 0)] := alInsert_fresh 0 rfl
  rw [h0]
  rw [foldl_alInsert_fresh (fun p : Nat × Str => qual mname p.2)
    (fun p => p.1 + 1) states.enum [(qual mname (s2l "HALT"), 0)]
    (fun x hx => by
      rw [alGet_cons]
      have hxs : x.2 ∈ states := by
        have := List.mem_map_of_mem Prod.snd hx
        rwa [List.enum_map_snd] at this
      have : qual mname (s2l "HALT") ≠ qual mname x.2 :=
        fun hc => hh (qual_inj hc ▸ hxs)
      simp [this, alGet_nil])
    (by
      have hmap : states.enum.map (fun p : Nat × Str => qual mname p.2)
          = states.map (qual mname) := by
        rw [show (fun p : Nat × Str => qual mname p.2)
            = (qual mname) ∘ Prod.snd from rfl]
        rw [← List.map_map, List.enum_map_snd]
      rw [hmap]
      exact hnd.map (fun a b h => qual_inj h))]
  rfl

theorem buildSym2idx_eq (syms : List Str) (hnd : syms.Nodup)
    (hb : s2l "_" ∉ syms) :
    buildSym2idx syms
      = (s2l "_", 0) :: syms.enum.map (fun p => (p.2, p.1 + 1)) := by
  unfold buildSym2idx
  have h0 : alInsert ([] : List (Str × Nat)) (s2l "_") 0
      = [(s2l "_", 0)] := alInsert_fresh 0 rfl
  rw [h0]
  rw [foldl_alInsert_fresh (fun p : Nat × Str => p.2)
    (fun p => p.1 + 1) syms.enum [(s2l "_", 0)]
    (fun x hx => by
      rw [alGet_cons]
      have hxs : x.2 ∈ syms := by
        have := List.mem_map_of_mem Prod.snd hx
        rwa [List.enum_map_snd] at this
      have : s2l "_" ≠ x.2 := fun hc => hb (hc ▸ hxs)
      simp [this, alGet_nil])
    (by rw [List.enum_map_snd]; exact hnd)]
  rfl

theorem buildIdx2sym_eq (syms : List Str) :
    buildIdx2sym syms
      = (0, s2l "_") :: syms.enum.map (fun p => (p.1 + 1, p.2)) := by
  unfold buildIdx2sym
  have h0 : alInsert ([] : List (Nat × Str)) 0 (s2l "_")
      = [(0, s2l "_")] := alInsert_fresh (s2l "_") rfl
  rw [h0]
  rw [foldl_alInsert_fresh (fun p : Nat × Str => p.1 + 1)
    (fun p => p.2) syms.enum [(0, s2l "_")]
    (fun x hx => by rw [alGet_cons]; simp [alGet_nil])
    (by
      have hmap : syms.enum.map (fun p : Nat × Str => p.1 + 1)
          = (List.range syms.length).map (fun i => i + 1) := by
        rw [show (fun p : Nat × Str => p.1 + 1)
            = (fun i => i + 1) ∘ Prod.fst from rfl]
        rw [← List.map_map, List.enum_map_fst]
      rw [hmap]
      exact (List.nodup_range _).map (fun a b h => by omega))]
  rfl

/-! ## Lookups in the explicit interning tables -/

/-- Lookup of a symbol in the enumerated list: position of its first
occurrence, shifted by the enumeration offset plus one. -/
theorem alGet_enumFrom_syms (l : List Str) (off : Nat) (k : Str) :
    alGet ((List.enumFrom off l).map (fun p => (p.2, p.1 + 1))) k
      = (posOf? k l).map (fun i => i + (off + 1)) := by
  induction l generalizing off with
  | nil => simp [posOf?, alGet_nil]
  | cons a l ih =>
    rw [List.enumFrom_cons, List.map_cons, alGet_cons]
    by_cases ha : a = k
    · simp [posOf?, ha]
    · rw [if_neg ha]
      rw [ih (off + 1)]
      simp only [posOf?, if_neg ha, Option.map_map]
      congr 1
      funext i
      simp
      omega

/-- The qualified variant, for `state2idx`. -/
theorem alGet_enumFrom_states (mname : Str) (l : List Str) (off : Nat)
    (k : Str) :
    alGet ((List.enumFrom off l).map (fun p => (qual mname p.2, p.1 + 1)))
        (qual mname k)
      = (posOf? k l).map (fun i => i + (off + 1)) := by
  induction l generalizing off with
  | nil => simp [posOf?, alGet_nil]
  | cons a l ih =>
    rw [List.enumFrom_cons, List.map_cons, alGet_cons]
    by_cases ha : a = k
    · simp [posOf?, ha]
    · have hq : qual mname a ≠ qual mname k := fun hc => ha (qual_inj hc)
      rw [if_neg hq]
      rw [ih (off + 1)]
      simp only [posOf?, if_neg ha, Option.map_map]
      congr 1
      funext i
      simp
      omega

/-- Values not of the form `qual mname _` are absent from `state2idx`. -/
theorem alGet_enumFrom_states_notqual (mname : Str) (l : List Str)
    (off : Nat) (k : Str) (hk : ∀ s, k ≠ qual mname s) :
    alGet ((List.enumFrom off l).map (fun p => (qual mname p.2, p.1 + 1))) k
      = none := by
  induction l generalizing off with
  | nil => simp [alGet_nil]
  | cons a l ih =>
    rw [List.enumFrom_cons, List.map_cons, alGet_cons]
    rw [if_neg (fun hc => hk a hc.symm)]
    exact ih (off + 1)

/-- Lookup by index in `idx2sym`. -/
theorem alGet_enumFrom_idx (l : List Str) (off i : Nat) (h : i < l.length) :
    alGet ((List.enumFrom off l).map (fun p => (p.1 + 1, p.2)))
        (off + 1 + i)
      = some (l.get ⟨i, h⟩) := by
  induction l generalizing off i with
  | nil => simp at h
  | cons a l ih =>
    rw [List.enumFrom_cons, List.map_cons, alGet_cons]
    cases i with
    | zero => simp
    | succ j =>
      have hj : j < l.length := by simpa using h
      rw [if_neg (by omega)]
      have := ih (off + 1) j hj
      rw [show off + 1 + (j + 1) = off + 1 + 1 + j by omega]
      rw [this]
      simp

/-- The concrete lookup lemma for `state2idx` under the well-formedness
hypotheses (`Nodup`, no state named `HALT`). -/
theorem alGet_buildState2idx (mname : Str) (states : List Str)
    (hnd : states.Nodup) (hh : s2l "HALT" ∉ states) (k : Str) :
    alGet (buildState2idx mname states) (qual mname k)
      = if k = s2l "HALT" then some 0
        else (posOf? k states).map (fun i => i + 1) := by
  rw [buildState2idx_eq mname states hnd hh, alGet_cons]
  by_cases hk : k = s2l "HALT"
  · subst hk
    simp
  · rw [if_neg (fun hc => hk (qual_inj hc).symm), if_neg hk]
    exact alGet_enumFrom_states mname states 0 k

/-- The concrete lookup lemma for `sym2idx` under the well-formedness
hypotheses. -/
theorem alGet_buildSym2idx (syms : List Str) (hnd : syms.Nodup)
    (hb : s2l "_" ∉ syms) (k : Str) :
    alGet (buildSym2idx syms) k
      = if k = s2l "_" then some 0
        else (posOf? k syms).map (fun i => i + 1) := by
  rw [buildSym2idx_eq syms hnd hb, alGet_cons]
  by_cases hk : k = s2l "_"
  · subst hk
    simp
  · rw [if_neg (fun hc => hk hc.symm), if_neg hk]
    exact alGet_enumFrom_syms syms 0 k

/-- Membership in `sym2idx` (no well-formedness needed): the key is the
blank or a declared symbol. -/
theorem alGet_buildSym2idx_isSome (syms : List Str) (k : Str) :
    (alGet (buildSym2idx syms) k).isSome ↔ k = s2l "_" ∨ k ∈ syms := by
  unfold buildSym2idx
  rw [foldl_alInsert_isSome]
  constructor
  · rintro (⟨x, hx, rfl⟩ | h)
    · right
      have := List.mem_map_of_mem Prod.snd hx
      rwa [List.enum_map_snd] at this
    · left
      rw [alInsert_fresh 0 (alGet_nil _), List.nil_append, alGet_cons] at h
      by_cases hk : s2l "_" = k
      · exact hk.symm
      · simp [hk, alGet_nil] at h
  · rintro (rfl | h)
    · right
      rw [alInsert_fresh 0 (alGet_nil _), List.nil_append, alGet_cons]
      simp
    · left
      obtain ⟨i, rfl⟩ := List.mem_iff_get.mp h
      refine ⟨(i.1, syms.get i), ?_, rfl⟩
      have : syms.get? i.1 = some (syms.get i) := List.get?_eq_get i.2
      exact List.mk_mem_enum_iff_get?.mpr this

/-! ## Inverting a successful parse -/

theorem parseRules_inv (mname : Str) (e : Extracted) (R : Rules)
    (h : parseRules mname e = some R) :
    alGet (buildState2idx mname e.states) (qual mname e.init)
        = some R.initialState ∧
    e.finals.foldlM
        (fun acc f => do
          pure (slInsert acc
            (← alGet (buildState2idx mname e.states) (qual mname f)))) []
      = some R.finalStates ∧
    R.idx2sym = buildIdx2sym e.syms ∧
    R.sym2idx = buildSym2idx e.syms ∧
    (tableRows e.table).foldlM
        (procRow mname (buildState2idx mname e.states) (buildSym2idx e.syms))
        []
      = some R.transitionMap := by
  unfold parseRules at h
  simp only [Option.bind_eq_bind, Option.bind_eq_some] at h
  obtain ⟨ini, hini, fin, hfin, tm, htm, hR⟩ := h
  cases R
  injection hR with hR
  cases hR
  exact ⟨hini, hfin, rfl, rfl, htm⟩

/-! ## Claim C8: direction parsing -/

/-- C8, counterexample: the claim says every token other than
`l`/`left`/`r`/`right` maps to `Stay`, but the source also accepts `"<"`
(and `">"`): `Direction::from("<")` is `Left`, not `Stay`. -/
theorem c8_direction_cex :
    dirFromStr (s2l "<") = Direction.Left ∧ Direction.Left ≠ Direction.Stay := by
  decide

/-- C8 (amended): case-insensitively, `l`, `<` and `left` map to `Left`;
`r`, `>` and `right` map to `Right`; every other token (including `n`,
`v`, `stay`) maps to `Stay`. -/
theorem c8_direction_amended (s : Str) :
    ((toLowerStr s = s2l "l" ∨ toLowerStr s = s2l "<" ∨
        toLowerStr s = s2l "left") → dirFromStr s = Direction.Left) ∧
    ((toLowerStr s = s2l "r" ∨ toLowerStr s = s2l ">" ∨
        toLowerStr s = s2l "right") → dirFromStr s = Direction.Right) ∧
    (¬ (toLowerStr s = s2l "l" ∨ toLowerStr s = s2l "<" ∨
        toLowerStr s = s2l "left") →
      ¬ (toLowerStr s = s2l "r" ∨ toLowerStr s = s2l ">" ∨
        toLowerStr s = s2l "right") →
      dirFromStr s = Direction.Stay) := by
  refine ⟨fun h => ?_, fun h => ?_, fun h1 h2 => ?_⟩
  · rcases h with h | h | h <;> simp only [dirFromStr, h] <;> decide
  · rcases h with h | h | h <;> simp only [dirFromStr, h] <;> decide
  · simp only [dirFromStr]
    rw [if_neg h1, if_neg h2]
    exact ite_self _

/-- Witness for C8: both a `Left` case and the `Stay` default fire. -/
theorem c8_direction_witness :
    dirFromStr (s2l "LEFT") = Direction.Left ∧
    dirFromStr (s2l "v") = Direction.Stay :=
  ⟨(c8_direction_amended (s2l "LEFT")).1 (by decide),
   (c8_direction_amended (s2l "v")).2.2 (by decide) (by decide)⟩

/-! ## Claim C5: `syms` declarations -/

/-- C5, counterexample: `syms 1-3` does *not* expand to `1`, `2`, `3`.
`extract_tokens` pushes the raw token and `parse_file` interns it
literally, so the parsed machine has exactly two symbols: `_` at 0 and
the literal symbol `1-3` at 1, and no symbol `2`. -/
theorem c5_syms_range_cex :
    (parseFile (s2l "m") (s2l "states q0\nsyms 1-3\ninitstate q0\ntable")).map
        (fun R => (alGet R.sym2idx (s2l "2"), alGet R.sym2idx (s2l "1-3"),
          R.sym2idx.length))
      = some (none, some 1, 2) := by
  decide

/-- C5 (amended): `syms` tokens are interned literally, in declaration
order, starting at index 1 (range syntax `N-M` is only interpreted inside
table selectors, not in `syms` declarations): the `i`-th declared token
maps to index `i + 1` in `sym2idx` and back in `idx2sym`. -/
theorem c5_syms_literal (mname : Str) (e : Extracted) (R : Rules)
    (hR : parseRules mname e = some R)
    (hnd : e.syms.Nodup) (hb : s2l "_" ∉ e.syms)
    (i : Nat) (h : i < e.syms.length) :
    alGet R.sym2idx (e.syms.get ⟨i, h⟩) = some (i + 1) ∧
    alGet R.idx2sym (i + 1) = some (e.syms.get ⟨i, h⟩) := by
  obtain ⟨-, -, hi2s, hs2i, -⟩ := parseRules_inv mname e R hR
  constructor
  · rw [hs2i, alGet_buildSym2idx e.syms hnd hb,
      if_neg (fun hc => hb (by rw [← hc]; exact List.get_mem e.syms i h)),
      posOf?_of_nodup_get hnd i h]
    rfl
  · rw [hi2s, buildIdx2sym_eq, alGet_cons, if_neg (by omega),
      show i + 1 = 0 + 1 + i by omega]
    exact alGet_enumFrom_idx e.syms 0 i h

/-- Witness for C5: a machine declaring `syms a b` has `b ↦ 2` and
`2 ↦ b`. -/
theorem c5_syms_literal_witness :
    alGet (Rules.mk 1 [] [(0, s2l "_"), (1, s2l "a"), (2, s2l "b")]
        [(s2l "_", 0), (s2l "a", 1), (s2l "b", 2)] []).sym2idx (s2l "b")
      = some 2 ∧
    alGet (Rules.mk 1 [] [(0, s2l "_"), (1, s2l "a"), (2, s2l "b")]
        [(s2l "_", 0), (s2l "a", 1), (s2l "b", 2)] []).idx2sym 2
      = some (s2l "b") :=
  c5_syms_literal (s2l "m")
    ⟨[s2l "q0"], [s2l "a", s2l "b"], [], s2l "q0", []⟩ _
    (by decide) (by decide) (by decide) 1 (by decide)

/-! ## Claim C4: the accept/reject verdict -/

/-- C4, counterexample: with no `finalstates` declaration the parsed
final-state set is *empty*, so halting in the reserved HALT state (index
0) is REJECTED — the claim says it would be ACCEPTED.  The machine below
starts in HALT with an empty table and halts immediately. -/
theorem c4_verdict_cex :
    (parseFile (s2l "m") (s2l "states q0\ninitstate HALT\ntable")).map
        (fun R => (R.finalStates, verdict R 0,
          (snapAt R ⟨fun _ => 0, R.initialState, 0⟩ 0).map
            (fun snap => strEndsWith (s2l "ACCEPTED") snap)))
      = some ([], false, some false) := by
  decide

/-- Membership in `HashSet::insert` modelled by `slInsert`. -/
theorem mem_slInsert {κ : Type} [DecidableEq κ] (acc : List κ) (v i : κ) :
    i ∈ slInsert acc v ↔ i ∈ acc ∨ i = v := by
  unfold slInsert
  by_cases hv : v ∈ acc
  · rw [if_pos hv]
    constructor
    · exact Or.inl
    · rintro (h | rfl)
      · exact h
      · exact hv
  · rw [if_neg hv]
    rw [List.mem_append, List.mem_singleton]

/-- The final-state insertion loop of `parse_file`: the resulting set
holds exactly the accumulator's members and the (panicking) lookups of
the declared names. -/
theorem foldlM_slInsert_mem (look : Str → Option Nat) :
    ∀ (l : List Str) (acc out : List Nat),
    l.foldlM (fun acc f => do pure (slInsert acc (← look f))) acc
      = some out →
    ∀ i, i ∈ out ↔ i ∈ acc ∨ ∃ f ∈ l, look f = some i := by
  intro l
  induction l with
  | nil =>
    intro acc out h i
    simp only [List.foldlM_nil] at h
    injection h with h
    subst h
    simp
  | cons f l ih =>
    intro acc out h i
    rw [List.foldlM_cons] at h
    simp only [Option.pure_def, Option.bind_eq_bind,
      Option.bind_eq_some] at h
    obtain ⟨a, ⟨v, hv, ha⟩, hrest⟩ := h
    injection ha with ha
    subst ha
    rw [ih (slInsert acc v) out hrest i, mem_slInsert]
    constructor
    · rintro ((h | rfl) | ⟨u, hu, hlu⟩)
      · exact Or.inl h
      · exact Or.inr ⟨f, List.mem_cons_self f l, hv⟩
      · exact Or.inr ⟨u, List.mem_cons_of_mem f hu, hlu⟩
    · rintro (h | ⟨u, hu, hlu⟩)
      · exact Or.inl (Or.inl h)
      · rcases List.mem_cons.mp hu with rfl | hu
        · rw [hv] at hlu
          injection hlu with hlu
          exact Or.inl (Or.inr hlu.symm)
        · exact Or.inr ⟨u, hu, hlu⟩

/-- C4 (amended): for every halting configuration, the terminal snapshot
carries ACCEPTED exactly when the halting state is in the parsed
final-state set, and that set holds exactly the states interned from the
`finalstates` declaration — so with no declaration it is empty and every
halt (including in the reserved `HALT` state, index 0) is REJECTED. -/
theorem c4_verdict_iff (mname : Str) (e : Extracted) (R : Rules)
    (c : Config) (g : Str) (hR : parseRules mname e = some R)
    (hhalt : haltedAt R c = true) (hg : getString R c = some g) :
    (∀ i : Nat, i ∈ R.finalStates ↔
      ∃ f ∈ e.finals,
        alGet (buildState2idx mname e.states) (qual mname f) = some i) ∧
    snapAt R c 0
      = some (g ++ (if c.state ∈ R.finalStates then s2l "\n    ACCEPTED"
          else s2l "\n    REJECTED")) := by
  obtain ⟨-, hfin, -, -, -⟩ := parseRules_inv mname e R hR
  have hmem := foldlM_slInsert_mem
    (fun f => alGet (buildState2idx mname e.states) (qual mname f))
    e.finals [] R.finalStates hfin
  have hv : verdict R c.state = true ↔ c.state ∈ R.finalStates := by
    rw [verdict]
    exact List.elem_iff
  refine ⟨fun i => by simpa using hmem i, ?_⟩
  unfold snapAt runN
  simp only [Option.some_bind, hg, Option.map_some', hhalt, if_true]
  rw [verdictSuffix]
  by_cases hmemc : c.state ∈ R.finalStates
  · rw [if_pos (hv.mpr hmemc), if_pos hmemc]
  · rw [if_neg (fun hc => hmemc (hv.mp hc)), if_neg hmemc]

/-- Witness for C4: the machine `states q0 / finalstates q0` halts
immediately in `q0` (index 1), a declared final state, and its terminal
snapshot is ACCEPTED; the final-state set is exactly the interned
declaration. -/
theorem c4_verdict_iff_witness :
    ((1 : Nat) ∈ (Rules.mk 1 [1] [(0, s2l "_")] [(s2l "_", 0)] []).finalStates
      ↔ ∃ f ∈ [s2l "q0"],
          alGet (buildState2idx (s2l "m") [s2l "q0"]) (qual (s2l "m") f)
            = some 1) ∧
    snapAt (Rules.mk 1 [1] [(0, s2l "_")] [(s2l "_", 0)] [])
        (Config.mk (fun _ => 0) 1 0) 0
      = some ((markerLine 41 ++ List.replicate 80 '_')
          ++ s2l "\n    ACCEPTED") := by
  have h := c4_verdict_iff (s2l "m")
    ⟨[s2l "q0"], [], [s2l "q0"], s2l "q0", []⟩
    (Rules.mk 1 [1] [(0, s2l "_")] [(s2l "_", 0)] [])
    (Config.mk (fun _ => 0) 1 0) (markerLine 41 ++ List.replicate 80 '_')
    (by decide) (by decide) (by decide)
  refine ⟨h.1 1, ?_⟩
  have h2 := h.2
  rw [if_pos (by decide)] at h2
  exact h2


/-! ## Claim C10: input loading -/

/-- The insertion loop succeeds iff every token is interned; on success
cell `-(off + i)` holds the `i`-th token's index and every other cell
keeps its previous content. -/
theorem inputFoldF_spec (R : Rules) (toks : List Str) :
    ∀ (off : Nat) (start : Int → Nat),
    ((inputFoldF R start (List.enumFrom off toks)).isSome
      ↔ ∀ t ∈ toks, (alGet R.sym2idx t).isSome) ∧
    (∀ tp, inputFoldF R start (List.enumFrom off toks) = some tp →
      (∀ i (h : i < toks.length),
        alGet R.sym2idx (toks.get ⟨i, h⟩)
          = some (tp (-((off + i : Nat) : Int)))) ∧
      (∀ j : Int,
        (∀ i : Nat, i < toks.length → j ≠ -((off + i : Nat) : Int)) →
        tp j = start j)) := by
  induction toks with
  | nil =>
    intro off start
    refine ⟨by simp [inputFoldF], fun tp htp => ?_⟩
    simp only [inputFoldF, List.enumFrom_nil, List.foldlM_nil] at htp
    injection htp with htp
    subst htp
    exact ⟨fun i h => by simp at h, fun j _ => rfl⟩
  | cons t ts ih =>
    intro off start
    rw [show List.enumFrom off (t :: ts) = (off, t) :: List.enumFrom (off + 1) ts
      from rfl]
    unfold inputFoldF
    rw [List.foldlM_cons]
    cases hl : alGet R.sym2idx t with
    | none =>
      simp only [hl, Option.none_bind]
      refine ⟨by simp [hl], fun tp htp => by simp at htp⟩
    | some idx =>
      simp only [hl, Option.pure_def, Option.bind_eq_bind, Option.some_bind]
      have hrec := ih (off + 1)
        (fun j => if j = -((off : Nat) : Int) then idx else start j)
      rw [inputFoldF] at hrec
      simp only [Option.pure_def, Option.bind_eq_bind] at hrec
      constructor
      · rw [hrec.1]
        constructor
        · intro hall u hu
          rcases List.mem_cons.mp hu with rfl | hu
          · simp [hl]
          · exact hall u hu
        · intro hall u hu
          exact hall u (List.mem_cons_of_mem t hu)
      · intro tp htp
        obtain ⟨hval, huntouched⟩ := hrec.2 tp htp
        constructor
        · intro i h
          cases i with
          | zero =>
            have h0 := huntouched (-((off + 0 : Nat) : Int))
              (fun i hi hc => by
                have h1 : -((off + 0 : Nat) : Int)
                    = -((off + 1 + i : Nat) : Int) := hc
                push_cast at h1
                omega)
            simp only [Nat.add_zero] at h0
            simp at h0
            simp [hl, h0, Nat.add_zero]
          | succ i' =>
            have h' : i' < ts.length := by simpa using h
            have := hval i' h'
            rwa [show off + 1 + i' = off + (i' + 1) by omega] at this
        · intro j hj
          have hrecj : tp j = (fun j' => if j' = -((off : Nat) : Int) then idx
              else start j') j := by
            apply huntouched
            intro i hi hc
            apply hj (i + 1) (by simpa using hi)
            rw [hc]
            congr 1
            push_cast
            ring
          rw [hrecj]
          have hne : j ≠ -((off : Nat) : Int) := by
            have := hj 0 (by simp)
            simpa using this
          simp only [if_neg hne]

/-- C10: loading an input succeeds iff every whitespace token is a symbol
of the parsed symbol table (a declared symbol or the blank `_`);
otherwise construction aborts (`none`), and on success the tokens are
written right-aligned: the `i`-th token from the end lands on cell `-i`
(so the last token is at cell 0) and all other cells stay blank. -/
theorem c10_input_load (mname : Str) (e : Extracted) (R : Rules) (s : Str)
    (hR : parseRules mname e = some R) :
    ((inputTape R s).isSome
      ↔ ∀ tok ∈ splitWs s, tok = s2l "_" ∨ tok ∈ e.syms) ∧
    (∀ tp, inputTape R s = some tp →
      (∀ i (h : i < (splitWs s).reverse.length),
        alGet R.sym2idx ((splitWs s).reverse.get ⟨i, h⟩)
          = some (tp (-(i : Int)))) ∧
      (∀ j : Int,
        (∀ i : Nat, i < (splitWs s).length → j ≠ -(i : Int)) → tp j = 0)) := by
  obtain ⟨-, -, -, hs2i, -⟩ := parseRules_inv mname e R hR
  have hspec := inputFoldF_spec R (splitWs s).reverse 0 (fun _ => 0)
  constructor
  · rw [inputTape, List.enum, hspec.1]
    constructor
    · intro hall tok htok
      have := hall tok (List.mem_reverse.mpr htok)
      rw [hs2i] at this
      exact (alGet_buildSym2idx_isSome e.syms tok).mp this
    · intro hall tok htok
      rw [hs2i]
      exact (alGet_buildSym2idx_isSome e.syms tok).mpr
        (hall tok (List.mem_reverse.mp htok))
  · intro tp htp
    rw [inputTape, List.enum] at htp
    obtain ⟨hval, huntouched⟩ := hspec.2 tp htp
    constructor
    · intro i h
      have := hval i h
      simpa using this
    · intro j hj
      apply huntouched
      intro i hi
      simp only [List.length_reverse] at hi
      simpa using hj i hi

/-- Witness for C10: with symbols `a`, `b`, the input `"a b"` loads; `b`
(the last token) sits at cell 0, `a` at cell `-1`, and cell 5 is blank. -/
theorem c10_input_load_witness :
    (inputTape (Rules.mk 1 [] [(0, s2l "_"), (1, s2l "a"), (2, s2l "b")]
        [(s2l "_", 0), (s2l "a", 1), (s2l "b", 2)] []) (s2l "a b")).map
        (fun tp => (tp 0, tp (-1), tp 5))
      = some (2, 1, 0) := by
  have h := c10_input_load (s2l "m")
    ⟨[s2l "q0"], [s2l "a", s2l "b"], [], s2l "q0", []⟩
    (Rules.mk 1 [] [(0, s2l "_"), (1, s2l "a"), (2, s2l "b")]
      [(s2l "_", 0), (s2l "a", 1), (s2l "b", 2)] [])
    (s2l "a b") (by decide)
  have hsome := h.1.mpr (by decide)
  cases htp : inputTape (Rules.mk 1 [] [(0, s2l "_"), (1, s2l "a"), (2, s2l "b")]
      [(s2l "_", 0), (s2l "a", 1), (s2l "b", 2)] []) (s2l "a b") with
  | none => rw [htp] at hsome; simp at hsome
  | some tp =>
    obtain ⟨hval, huntouched⟩ := h.2 tp htp
    have h0 := hval 0 (by decide)
    have h1 := hval 1 (by decide)
    have h5 := huntouched 5 (by
      intro i hi
      have h2 : i < 2 := by simpa using hi
      interval_cases i <;> decide)
    simp only [Option.map_some']
    have hb : tp 0 = 2 := by
      have : some 2 = some (tp (-(0 : Nat) : Int)) := h0
      injection this with h'
      simpa using h'.symm
    have ha : tp (-1) = 1 := by
      have : some 1 = some (tp (-(1 : Nat) : Int)) := h1
      injection this with h'
      simpa using h'.symm
    rw [hb, ha, h5]

/-! ## Claim C9: trace snapshots -/

theorem runN_add (R : Rules) (c0 : Config) (a b : Nat) :
    runN R c0 (a + b) = (runN R c0 a).bind (fun c => runN R c b) := by
  induction b with
  | zero => simp [runN]
  | succ b ih =>
    rw [show a + (b + 1) = (a + b) + 1 by omega]
    rw [runN, ih]
    cases runN R c0 a with
    | none => simp
    | some c => simp [runN]

/-- C9, counterexample: the window is *not* centered near the head — it
always renders tape cells `-40..39` — and with the head at cell 40 the
marker column is 81, beyond the 80-cell window, so it cannot point at the
head's cell.  The window contents for head positions 40 and 0 coincide. -/
theorem c9_window_cex :
    (parseFile (s2l "m") (s2l "states q0\ninitstate q0\ntable")).map
        (fun R =>
          (markerWidth (Config.mk (fun _ => 0) R.initialState 40).pointer,
           (windowCells R (Config.mk (fun _ => 0) R.initialState 40)).length,
           decide (windowCells R (Config.mk (fun _ => 0) R.initialState 40)
             = windowCells R (Config.mk (fun _ => 0) R.initialState 0))))
      = some (81, 80, true) := by
  decide

/-- C9 (amended): each snapshot renders the fixed cell window `-40..39`
(centered at the tape origin, not at the head) plus a marker line; the
marker column is `pointer + 41`, which indexes the head's cell in the
window exactly when `-40 ≤ pointer ≤ 39` (columns coincide with cells
when symbols render one character wide); the terminal snapshot, and only
it, carries the verdict marker. -/
theorem c9_snapshots (R : Rules) (c0 : Config) (t : Nat) (c : Config)
    (g : Str) (hrun : runN R c0 t = some c) (hg : getString R c = some g) :
    (∀ c' : Config, c'.tape = c.tape → windowCells R c' = windowCells R c) ∧
    (-40 ≤ c.pointer → c.pointer ≤ 39 →
      markerWidth c.pointer = (c.pointer + 40).toNat + 1 ∧
      (windowCells R c).get? ((c.pointer + 40).toNat)
        = some (alGet R.idx2sym (c.tape c.pointer))) ∧
    (haltedAt R c = false → snapAt R c0 t = some g) ∧
    (haltedAt R c = true →
      snapAt R c0 t = some (g ++ verdictSuffix R c.state) ∧
      ∀ u, t < u → snapAt R c0 u = none) := by
  refine ⟨?_, ?_, ?_, ?_⟩
  · intro c' hc'
    unfold windowCells
    rw [hc']
  · intro h1 h2
    constructor
    · unfold markerWidth usizeCast
      congr 1
      have h3 : (0 : Int) ≤ c.pointer + 40 := by omega
      have h4 : c.pointer + 40 < (2 : Int) ^ 64 := by
        have : c.pointer + 40 < 80 := by omega
        calc c.pointer + 40 < 80 := this
        _ < (2 : Int) ^ 64 := by norm_num
      rw [Int.emod_eq_of_lt h3 h4]
    · unfold windowCells
      have hlt : (c.pointer + 40).toNat < 80 := by omega
      rw [List.get?_map, List.get?_range hlt]
      simp only [Option.map_some']
      have harg : (((c.pointer + 40).toNat : Int) - 40) = c.pointer := by omega
      rw [harg]
  · intro hhalt
    unfold snapAt
    rw [hrun]
    simp [hg, hhalt]
  · intro hhalt
    constructor
    · unfold snapAt
      rw [hrun]
      simp [hg, hhalt]
    · intro u hu
      have hnone : runN R c0 (t + 1) = none := by
        rw [runN, hrun]
        simp only [Option.some_bind]
        unfold stepOpt
        unfold haltedAt at hhalt
        rw [Option.isNone_iff_eq_none] at hhalt
        rw [hhalt]
        rfl
      have : runN R c0 u = none := by
        rw [show u = (t + 1) + (u - (t + 1)) by omega, runN_add, hnone]
        rfl
      unfold snapAt
      rw [this]
      rfl

/-- Witness for C9 at an immediately halting machine: marker column 41
indexes cell 0, the terminal snapshot carries the verdict, and no
snapshot follows it. -/
theorem c9_snapshots_witness :
    markerWidth (Config.mk (fun _ => 0) 0 0).pointer = 41 ∧
    (windowCells (Rules.mk 0 [] [(0, s2l "_")] [(s2l "_", 0)] [])
        (Config.mk (fun _ => 0) 0 0)).get? 40 = some (some (s2l "_")) ∧
    snapAt (Rules.mk 0 [] [(0, s2l "_")] [(s2l "_", 0)] [])
        (Config.mk (fun _ => 0) 0 0) 0
      = some ((markerLine 41 ++ List.replicate 80 '_') ++
          verdictSuffix (Rules.mk 0 [] [(0, s2l "_")] [(s2l "_", 0)] []) 0) ∧
    snapAt (Rules.mk 0 [] [(0, s2l "_")] [(s2l "_", 0)] [])
        (Config.mk (fun _ => 0) 0 0) 1 = none := by
  have h := c9_snapshots (Rules.mk 0 [] [(0, s2l "_")] [(s2l "_", 0)] [])
    (Config.mk (fun _ => 0) 0 0) 0 (Config.mk (fun _ => 0) 0 0)
    (markerLine 41 ++ List.replicate 80 '_') rfl (by decide)
  obtain ⟨-, hmark, -, hterm⟩ := h
  obtain ⟨hm1, hm2⟩ := hmark (by decide) (by decide)
  obtain ⟨hsnap, hafter⟩ := hterm (by decide)
  exact ⟨hm1, hm2, hsnap, hafter 1 (by omega)⟩


/-! ## Claim C1: first-declared rule wins

`rowCovers` and `rowMove` restate, for one row and one `(state, symbol)`
pair, which pairs the row's selector expansion reaches and which `Move`
the insertion loop would store there. -/

/-- Does a (five-token) row's selector expansion cover the pair `p`? -/
def rowCovers (mname : Str) (st2i sy2i : List (Str × Nat))
    (toks : List Str) (p : Nat × Nat) : Bool :=
  match toks with
  | [t0, t1, _, _, _] =>
    match expandSel st2i.length (fun s => alGet st2i (qual mname s)) t0 with
    | some sts =>
      match expandSel sy2i.length (fun s => alGet sy2i s) t1 with
      | some sys => decide (p.1 ∈ sts) && decide (p.2 ∈ sys)
      | none => false
    | none => false
  | _ => false

/-- The `Move` a row stores at the pair `p` (the `.` fields resolve to
the pair's own state resp. symbol). -/
def rowMove (mname : Str) (st2i sy2i : List (Str × Nat))
    (toks : List Str) (p : Nat × Nat) : Option Move :=
  match toks with
  | [_, _, t2, t3, t4] => do
    let nso ← nsoOf mname st2i t2
    let wso ← wsoOf sy2i t3
    pure (Move.mk (nso.getD p.1) (wso.getD p.2) (dirFromStr t4))
  | _ => none

/-- Existing entries survive the inner symbol loop. -/
theorem innerFold_mono (si : Nat) (nso wso : Option Nat) (d : Direction)
    (p : Nat × Nat) (v : Move) :
    ∀ (sys : List Nat) (m : TMap), alGet m p = some v →
    alGet (sys.foldl (fun m yi =>
      if (alGet m (si, yi)).isSome then m
      else m ++ [((si, yi), ⟨nso.getD si, wso.getD yi, d⟩)]) m) p
      = some v := by
  intro sys
  induction sys with
  | nil => exact fun m h => h
  | cons y sys ih =>
    intro m h
    rw [List.foldl_cons]
    apply ih
    by_cases hs : (alGet m (si, y)).isSome
    · rwa [if_pos hs]
    · rw [if_neg hs]
      exact alGet_append_some _ h

/-- Pairs outside the inserted column/row are untouched by the inner
loop. -/
theorem innerFold_off (si : Nat) (nso wso : Option Nat) (d : Direction)
    (p : Nat × Nat) :
    ∀ (sys : List Nat) (m : TMap), (si ≠ p.1 ∨ p.2 ∉ sys) →
    alGet (sys.foldl (fun m yi =>
      if (alGet m (si, yi)).isSome then m
      else m ++ [((si, yi), ⟨nso.getD si, wso.getD yi, d⟩)]) m) p
      = alGet m p := by
  intro sys
  induction sys with
  | nil => exact fun m _ => rfl
  | cons y sys ih =>
    intro m hmiss
    rw [List.foldl_cons]
    have hstep : alGet (if (alGet m (si, y)).isSome then m
        else m ++ [((si, y), ⟨nso.getD si, wso.getD y, d⟩)]) p = alGet m p := by
      by_cases hs : (alGet m (si, y)).isSome
      · rw [if_pos hs]
      · rw [if_neg hs]
        have hy : (si, y) ≠ p := by
          rcases hmiss with h | h
          · exact fun hc => h (by rw [← hc])
          · exact fun hc => h (by rw [← hc]; exact List.mem_cons_self y sys)
        cases hget : alGet m p with
        | none =>
          rw [alGet_append_none _ hget, alGet_cons, if_neg hy]
          rfl
        | some v => rw [alGet_append_some _ hget]
    rw [ih _ (by
      rcases hmiss with h | h
      · exact Or.inl h
      · exact Or.inr (fun hc => h (List.mem_cons_of_mem y hc))), hstep]

/-- A previously absent pair in the inserted row gets the row's value. -/
theorem innerFold_ins (si : Nat) (nso wso : Option Nat) (d : Direction)
    (p : Nat × Nat) :
    ∀ (sys : List Nat) (m : TMap), si = p.1 → p.2 ∈ sys →
    alGet m p = none →
    alGet (sys.foldl (fun m yi =>
      if (alGet m (si, yi)).isSome then m
      else m ++ [((si, yi), ⟨nso.getD si, wso.getD yi, d⟩)]) m) p
      = some ⟨nso.getD p.1, wso.getD p.2, d⟩ := by
  intro sys
  induction sys with
  | nil => exact fun m _ h => by simp at h
  | cons y sys ih =>
    intro m hsi hmem hnone
    rw [List.foldl_cons]
    by_cases hy : y = p.2
    · have hkey : (si, y) = p := by
        rcases p with ⟨p1, p2⟩
        simp only at hsi hy
        rw [hsi, hy]
      have hs : ¬ (alGet m (si, y)).isSome := by
        rw [hkey, hnone]
        simp
      rw [if_neg hs]
      apply innerFold_mono
      rw [alGet_append_none _ hnone, alGet_cons, if_pos hkey, hsi, hy]
    · have hmem' : p.2 ∈ sys := by
        rcases List.mem_cons.mp hmem with hc | hc
        · exact absurd hc.symm hy
        · exact hc
      have hstep : alGet (if (alGet m (si, y)).isSome then m
          else m ++ [((si, y), ⟨nso.getD si, wso.getD y, d⟩)]) p = none := by
        by_cases hs : (alGet m (si, y)).isSome
        · rwa [if_pos hs]
        · rw [if_neg hs, alGet_append_none _ hnone, alGet_cons,
            if_neg (fun hc : (si, y) = p => hy (by rw [← hc]))]
          rfl
      exact ih _ hsi hmem' hstep

/-- Existing entries survive a whole row insertion. -/
theorem applyRow_mono (sts sys : List Nat) (nso wso : Option Nat)
    (d : Direction) (p : Nat × Nat) (v : Move) :
    ∀ m : TMap, alGet m p = some v →
    alGet (applyRow sts sys nso wso d m) p = some v := by
  induction sts with
  | nil => exact fun m h => h
  | cons si sts ih =>
    intro m h
    unfold applyRow
    rw [List.foldl_cons]
    exact ih _ (innerFold_mono si nso wso d p v sys m h)

/-- A pair the row does not cover keeps its previous (absent or present)
entry. -/
theorem applyRow_off (sts sys : List Nat) (nso wso : Option Nat)
    (d : Direction) (p : Nat × Nat) :
    ∀ m : TMap, (p.1 ∉ sts ∨ p.2 ∉ sys) →
    alGet (applyRow sts sys nso wso d m) p = alGet m p := by
  induction sts with
  | nil => exact fun m _ => rfl
  | cons si sts ih =>
    intro m hmiss
    unfold applyRow
    rw [List.foldl_cons]
    have hstep := innerFold_off si nso wso d p sys m (by
      rcases hmiss with h | h
      · exact Or.inl (fun hc => h (hc ▸ List.mem_cons_self si sts))
      · exact Or.inr h)
    have hrest := ih (sys.foldl (fun m yi =>
      if (alGet m (si, yi)).isSome then m
      else m ++ [((si, yi), ⟨nso.getD si, wso.getD yi, d⟩)]) m) (by
      rcases hmiss with h | h
      · exact Or.inl (fun hc => h (List.mem_cons_of_mem si hc))
      · exact Or.inr h)
    unfold applyRow at hrest
    rw [hrest, hstep]

/-- A previously absent pair the row covers receives the row's value. -/
theorem applyRow_ins (sts sys : List Nat) (nso wso : Option Nat)
    (d : Direction) (p : Nat × Nat) :
    ∀ m : TMap, alGet m p = none → p.1 ∈ sts → p.2 ∈ sys →
    alGet (applyRow sts sys nso wso d m) p
      = some ⟨nso.getD p.1, wso.getD p.2, d⟩ := by
  induction sts with
  | nil => exact fun m _ h => by simp at h
  | cons si sts ih =>
    intro m hnone hsts hsys
    unfold applyRow
    rw [List.foldl_cons]
    by_cases hsi : si = p.1
    · have hins := innerFold_ins si nso wso d p sys m hsi hsys hnone
      exact applyRow_mono sts sys nso wso d p _ _ hins
    · have hoff := innerFold_off si nso wso d p sys m (Or.inl hsi)
      have hsts' : p.1 ∈ sts := by
        rcases List.mem_cons.mp hsts with hc | hc
        · exact absurd hc.symm hsi
        · exact hc
      have := ih (sys.foldl (fun m yi =>
        if (alGet m (si, yi)).isSome then m
        else m ++ [((si, yi), ⟨nso.getD si, wso.getD yi, d⟩)]) m)
        (by rw [hoff]; exact hnone) hsts' hsys
      unfold applyRow at this
      exact this

/-- One `procRow` characterized through `rowCovers` / `rowMove`. -/
theorem procRow_get (mname : Str) (st2i sy2i : List (Str × Nat))
    (m m' : TMap) (toks : List Str) (p : Nat × Nat)
    (h : procRow mname st2i sy2i m toks = some m') :
    (∀ v, alGet m p = some v → alGet m' p = some v) ∧
    (alGet m p = none → rowCovers mname st2i sy2i toks p = true →
      alGet m' p = rowMove mname st2i sy2i toks p ∧
      (rowMove mname st2i sy2i toks p).isSome) ∧
    (alGet m p = none → rowCovers mname st2i sy2i toks p = false →
      alGet m' p = none) := by
  match toks with
  | [] | [_] | [_, _] | [_, _, _] | [_, _, _, _]
  | _ :: _ :: _ :: _ :: _ :: _ :: _ => simp [procRow] at h
  | [t0, t1, t2, t3, t4] =>
    simp only [procRow, Option.pure_def, Option.bind_eq_bind,
      Option.bind_eq_some] at h
    obtain ⟨sts, hsts, sys, hsys, nso, hnso, wso, hwso, hm'⟩ := h
    injection hm' with hm'
    subst hm'
    have hcov : rowCovers mname st2i sy2i [t0, t1, t2, t3, t4] p
        = (decide (p.1 ∈ sts) && decide (p.2 ∈ sys)) := by
      simp only [rowCovers, hsts, hsys]
    have hmv : rowMove mname st2i sy2i [t0, t1, t2, t3, t4] p
        = some ⟨nso.getD p.1, wso.getD p.2, dirFromStr t4⟩ := by
      simp only [rowMove, Option.pure_def, Option.bind_eq_bind, hnso, hwso,
        Option.some_bind]
    refine ⟨fun v hv => applyRow_mono sts sys nso wso (dirFromStr t4) p v m hv,
      fun hnone hc => ?_, fun hnone hc => ?_⟩
    · rw [hcov] at hc
      simp only [Bool.and_eq_true, decide_eq_true_eq] at hc
      rw [applyRow_ins sts sys nso wso (dirFromStr t4) p m hnone hc.1 hc.2, hmv]
      simp
    · rw [hcov] at hc
      simp only [Bool.and_eq_false_iff, decide_eq_false_iff_not] at hc
      rw [applyRow_off sts sys nso wso (dirFromStr t4) p m (by
        rcases hc with h | h
        · exact Or.inl h
        · exact Or.inr h)]
      exact hnone

/-- Existing entries survive the whole table fold (insert-if-absent is
monotone). -/
theorem procRows_mono (mname : Str) (st2i sy2i : List (Str × Nat))
    (p : Nat × Nat) (v : Move) :
    ∀ (rows : List (List Str)) (m M : TMap),
    rows.foldlM (procRow mname st2i sy2i) m = some M →
    alGet m p = some v → alGet M p = some v := by
  intro rows
  induction rows with
  | nil =>
    intro m M h hv
    simp only [List.foldlM_nil] at h
    injection h with h
    exact h ▸ hv
  | cons r rows ih =>
    intro m M h hv
    rw [List.foldlM_cons] at h
    simp only [Option.bind_eq_bind, Option.bind_eq_some] at h
    obtain ⟨m1, hm1, hrest⟩ := h
    exact ih m1 M hrest ((procRow_get mname st2i sy2i m m1 r p hm1).1 v hv)

/-- The first-match law of the table fold: the entry stored at a pair is
the one of the first row that covers it. -/
theorem procRows_first (mname : Str) (st2i sy2i : List (Str × Nat))
    (p : Nat × Nat) :
    ∀ (rows : List (List Str)) (m M : TMap),
    rows.foldlM (procRow mname st2i sy2i) m = some M →
    alGet m p = none →
    ∀ (i : Nat) (hi : i < rows.length),
    rowCovers mname st2i sy2i (rows.get ⟨i, hi⟩) p = true →
    (∀ (j : Nat) (hj : j < i),
      rowCovers mname st2i sy2i (rows.get ⟨j, by omega⟩) p = false) →
    alGet M p = rowMove mname st2i sy2i (rows.get ⟨i, hi⟩) p := by
  intro rows
  induction rows with
  | nil =>
    intro m M h hnone i hi
    simp at hi
  | cons r rows ih =>
    intro m M h hnone i hi hcov hfirst
    rw [List.foldlM_cons] at h
    simp only [Option.bind_eq_bind, Option.bind_eq_some] at h
    obtain ⟨m1, hm1, hrest⟩ := h
    cases i with
    | zero =>
      obtain ⟨hval, hsome⟩ :=
        (procRow_get mname st2i sy2i m m1 r p hm1).2.1 hnone hcov
      obtain ⟨v, hv⟩ := Option.isSome_iff_exists.mp hsome
      show alGet M p = rowMove mname st2i sy2i r p
      rw [hv] at hval ⊢
      exact procRows_mono mname st2i sy2i p v rows m1 M hrest hval
    | succ i' =>
      have h0 : rowCovers mname st2i sy2i r p = false :=
        hfirst 0 (by omega)
      have hnone1 : alGet m1 p = none :=
        (procRow_get mname st2i sy2i m m1 r p hm1).2.2 hnone h0
      have hi' : i' < rows.length := by simpa using hi
      exact ih m1 M hrest hnone1 i' hi' hcov
        (fun j hj => hfirst (j + 1) (by omega))

/-- C1: during table construction each expanded pair is inserted only if
absent, so the transition stored at any `(state, symbol)` pair is the one
of the earliest row whose selector expansion covers it; a later
overlapping row never overrides it. -/
theorem c1_first_match (mname : Str) (e : Extracted) (R : Rules)
    (hR : parseRules mname e = some R)
    (i : Nat) (hi : i < (tableRows e.table).length) (p : Nat × Nat)
    (hcov : rowCovers mname (buildState2idx mname e.states)
      (buildSym2idx e.syms) ((tableRows e.table).get ⟨i, hi⟩) p = true)
    (hfirst : ∀ (j : Nat) (hj : j < i),
      rowCovers mname (buildState2idx mname e.states) (buildSym2idx e.syms)
        ((tableRows e.table).get ⟨j, by omega⟩) p = false) :
    alGet R.transitionMap p
      = rowMove mname (buildState2idx mname e.states) (buildSym2idx e.syms)
          ((tableRows e.table).get ⟨i, hi⟩) p := by
  obtain ⟨-, -, -, -, htm⟩ := parseRules_inv mname e R hR
  exact procRows_first mname (buildState2idx mname e.states)
    (buildSym2idx e.syms) p (tableRows e.table) [] R.transitionMap htm
    (alGet_nil p) i hi hcov hfirst

/-- Witness for C1: in a table whose rows `q0 a HALT b R` and
`q0 * HALT c R` overlap on `(q0, a)`, the stored transition writes `b`
(the earlier row), not `c`. -/
theorem c1_first_match_witness :
    (parseFile (s2l "m")
        (s2l "states q0\nsyms a b c\ninitstate q0\ntable\nq0 a HALT b R\nq0 * HALT c R")).map
        (fun R => alGet R.transitionMap (1, 1))
      = some (some (Move.mk 0 2 Direction.Right)) := by
  have h := c1_first_match (s2l "m")
    ⟨[s2l "q0"], [s2l "a", s2l "b", s2l "c"], [], s2l "q0",
      s2l "q0 a HALT b R\nq0 * HALT c R"⟩
    ⟨1, [], [(0, s2l "_"), (1, s2l "a"), (2, s2l "b"), (3, s2l "c")],
      [(s2l "_", 0), (s2l "a", 1), (s2l "b", 2), (s2l "c", 3)],
      [((1, 1), Move.mk 0 2 Direction.Right),
       ((1, 0), Move.mk 0 3 Direction.Right),
       ((1, 2), Move.mk 0 3 Direction.Right),
       ((1, 3), Move.mk 0 3 Direction.Right)]⟩
    (by decide) 0 (by decide) (1, 1) (by decide)
    (fun j hj => by omega)
  rw [show parseFile (s2l "m")
      (s2l "states q0\nsyms a b c\ninitstate q0\ntable\nq0 a HALT b R\nq0 * HALT c R")
    = some ⟨1, [], [(0, s2l "_"), (1, s2l "a"), (2, s2l "b"), (3, s2l "c")],
      [(s2l "_", 0), (s2l "a", 1), (s2l "b", 2), (s2l "c", 3)],
      [((1, 1), Move.mk 0 2 Direction.Right),
       ((1, 0), Move.mk 0 3 Direction.Right),
       ((1, 2), Move.mk 0 3 Direction.Right),
       ((1, 3), Move.mk 0 3 Direction.Right)]⟩ from by decide]
  rw [Option.map_some']
  rw [h]
  decide

/-! ## Claim C6: `branch` dispatch rules -/

/-- C6 (code bug): the first dispatch row of `branch` is appended
*without* a leading newline (`format!("BRANCH {} {} . R\n", …)` after a
trim-ended table), so it is glued onto the last row of the preceding
machine's table.  For `branch(entry, ["a"], [B])` the output's second
table line is `b0 a HALT . NBRANCH a b0 . R` — nine tokens — and parsing
the composed machine panics (`none`) instead of yielding any dispatch
rule.  (`loop_while` appends its synthetic rows with a leading `"\n"`;
the missing newline here is the slip.) -/
theorem c6_branch_glued_dispatch :
    branchText
        ⟨[s2l "q0"], [s2l "a", s2l "b"], [], s2l "q0", s2l "q0 a HALT b R"⟩
        [s2l "a"]
        [(s2l "B",
          ⟨[s2l "b0"], [s2l "a"], [s2l "HALT"], s2l "b0",
            s2l "b0 a HALT . N"⟩)]
      = s2l "states q0 BRANCH b0\nsyms a b\ninitstate q0\nfinalstates HALT\ntable\nq0 a BRANCH b R\nb0 a HALT . NBRANCH a b0 . R\n" ∧
    (extractTokens (branchText
        ⟨[s2l "q0"], [s2l "a", s2l "b"], [], s2l "q0", s2l "q0 a HALT b R"⟩
        [s2l "a"]
        [(s2l "B",
          ⟨[s2l "b0"], [s2l "a"], [s2l "HALT"], s2l "b0",
            s2l "b0 a HALT . N"⟩)])).map
        (fun ex => (tableRows ex.table).map List.length)
      = some [5, 9] ∧
    parseFile (s2l "out") (branchText
        ⟨[s2l "q0"], [s2l "a", s2l "b"], [], s2l "q0", s2l "q0 a HALT b R"⟩
        [s2l "a"]
        [(s2l "B",
          ⟨[s2l "b0"], [s2l "a"], [s2l "HALT"], s2l "b0",
            s2l "b0 a HALT . N"⟩)])
      = none := by
  refine ⟨by decide, by decide, by decide⟩

/-! ## String-processing lemmas for the composers -/

theorem strReplaceF_fuelInv (pat rep : Str) (f g : Nat) :
    ∀ (s : Str), s.length ≤ f → s.length ≤ g →
    strReplaceF pat rep f s = strReplaceF pat rep g s := by
  induction f generalizing g with
  | zero =>
    intro s h1 h2
    have hs : s = [] := by
      cases s with
      | nil => rfl
      | cons c r => simp at h1
    subst hs
    cases g <;> rfl
  | succ f ih =>
    intro s h1 h2
    cases s with
    | nil => cases g <;> rfl
    | cons c rest =>
      cases g with
      | zero => simp at h2
      | succ g =>
        have e1 : strReplaceF pat rep (f + 1) (c :: rest)
            = if ¬ pat.isEmpty ∧ pat.isPrefixOf (c :: rest) then
                rep ++ strReplaceF pat rep f ((c :: rest).drop pat.length)
              else c :: strReplaceF pat rep f rest := rfl
        have e2 : strReplaceF pat rep (g + 1) (c :: rest)
            = if ¬ pat.isEmpty ∧ pat.isPrefixOf (c :: rest) then
                rep ++ strReplaceF pat rep g ((c :: rest).drop pat.length)
              else c :: strReplaceF pat rep g rest := rfl
        rw [e1, e2]
        by_cases h : ¬ pat.isEmpty ∧ pat.isPrefixOf (c :: rest)
        · rw [if_pos h, if_pos h]
          congr 1
          have hplen : 1 ≤ pat.length := by
            rcases h with ⟨hne, -⟩
            cases pat with
            | nil => simp [List.isEmpty] at hne
            | cons a l => simp
          refine ih g _ ?_ ?_ <;>
            (simp only [List.length_drop, List.length_cons] at *; omega)
        · rw [if_neg h, if_neg h]
          congr 1
          refine ih g rest ?_ ?_ <;> (simp only [List.length_cons] at *; omega)

theorem strReplace_nil (pat rep : Str) : strReplace [] pat rep = [] := rfl

theorem strReplace_cons (c : Char) (rest pat rep : Str) :
    strReplace (c :: rest) pat rep
      = if ¬ pat.isEmpty ∧ pat.isPrefixOf (c :: rest) then
          rep ++ strReplace ((c :: rest).drop pat.length) pat rep
        else c :: strReplace rest pat rep := by
  have hstep : strReplace (c :: rest) pat rep
      = if ¬ pat.isEmpty ∧ pat.isPrefixOf (c :: rest) then
          rep ++ strReplaceF pat rep rest.length ((c :: rest).drop pat.length)
        else c :: strReplaceF pat rep rest.length rest := rfl
  rw [hstep]
  by_cases h : ¬ pat.isEmpty ∧ pat.isPrefixOf (c :: rest)
  · rw [if_pos h, if_pos h]
    congr 1
    apply strReplaceF_fuelInv
    · rcases h with ⟨hne, -⟩
      have : 1 ≤ pat.length := by
        cases pat with
        | nil => simp [List.isEmpty] at hne
        | cons a l => simp
      simp only [List.length_drop, List.length_cons]
      omega
    · exact Nat.le_refl _
  · rw [if_neg h, if_neg h]
    rfl

/-- Text without an occurrence of the pattern is left unchanged. -/
theorem strReplace_of_not_contains (pat rep : Str) :
    ∀ s : Str, containsSub s pat = false → strReplace s pat rep = s := by
  intro s
  induction s with
  | nil => exact fun _ => rfl
  | cons c rest ih =>
    intro h
    unfold containsSub at h
    simp only [Bool.or_eq_false_iff] at h
    rw [strReplace_cons, if_neg (by
      rintro ⟨-, hpre⟩
      rw [h.1] at hpre
      exact Bool.false_ne_true hpre)]
    rw [ih h.2]

/-- An occurrence at the front is replaced and the scan continues after
it. -/
theorem strReplace_patHead (pat rep t : Str) (hne : pat ≠ []) :
    strReplace (pat ++ t) pat rep = rep ++ strReplace t pat rep := by
  cases hp : pat with
  | nil => exact absurd hp hne
  | cons a l =>
    rw [← hp]
    have hcons : pat ++ t = a :: (l ++ t) := by rw [hp]; rfl
    rw [hcons, strReplace_cons, if_pos ⟨by simp [hp], by
      rw [← hcons, List.isPrefixOf_iff_prefix]
      exact List.prefix_append pat t⟩]
    congr 1
    rw [← hcons, List.drop_left' rfl]

/-- A region without any occurrence starting inside it is copied
verbatim. -/
theorem strReplace_skip (pat rep : Str) :
    ∀ (a b : Str),
    (∀ u v : Str, a = u ++ v → v ≠ [] → ¬ pat.isPrefixOf (v ++ b)) →
    strReplace (a ++ b) pat rep = a ++ strReplace b pat rep := by
  intro a
  induction a with
  | nil => exact fun b _ => rfl
  | cons c a ih =>
    intro b hnocc
    rw [List.cons_append, strReplace_cons, if_neg (by
      rintro ⟨-, hpre⟩
      exact hnocc [] (c :: a) rfl (by simp) (by simpa using hpre))]
    rw [show a ++ b = a ++ b from rfl]
    congr 1
    exact ih b (fun u v huv hv => hnocc (c :: u) v (by rw [huv]; rfl) hv)

theorem splitWsF_fuelInv (f g : Nat) :
    ∀ (s : Str), s.length ≤ f → s.length ≤ g →
    splitWsF f s = splitWsF g s := by
  induction f generalizing g with
  | zero =>
    intro s h1 h2
    have hs : s = [] := by
      cases s with
      | nil => rfl
      | cons c r => simp at h1
    subst hs
    cases g <;> rfl
  | succ f ih =>
    intro s h1 h2
    cases s with
    | nil => cases g <;> rfl
    | cons c rest =>
      cases g with
      | zero => simp at h2
      | succ g =>
        show (if isWsChar c then splitWsF f rest
            else (c :: rest.takeWhile (fun d => ¬ isWsChar d)) ::
              splitWsF f (rest.dropWhile (fun d => ¬ isWsChar d)))
          = (if isWsChar c then splitWsF g rest
            else (c :: rest.takeWhile (fun d => ¬ isWsChar d)) ::
              splitWsF g (rest.dropWhile (fun d => ¬ isWsChar d)))
        by_cases h : isWsChar c
        · rw [if_pos h, if_pos h]
          refine ih g rest ?_ ?_ <;> (simp only [List.length_cons] at *; omega)
        · rw [if_neg h, if_neg h]
          congr 1
          have hd := (List.dropWhile_sublist (l := rest)
            (fun d => ¬ isWsChar d)).length_le
          refine ih g _ ?_ ?_ <;> (simp only [List.length_cons] at *; omega)

theorem splitWs_nil : splitWs [] = [] := rfl

theorem splitWs_cons (c : Char) (rest : Str) :
    splitWs (c :: rest)
      = if isWsChar c then splitWs rest
        else (c :: rest.takeWhile (fun d => ¬ isWsChar d)) ::
          splitWs (rest.dropWhile (fun d => ¬ isWsChar d)) := by
  show (if isWsChar c then splitWsF rest.length rest
      else (c :: rest.takeWhile (fun d => ¬ isWsChar d)) ::
        splitWsF rest.length (rest.dropWhile (fun d => ¬ isWsChar d))) = _
  by_cases h : isWsChar c
  · rw [if_pos h, if_pos h]
    rfl
  · rw [if_neg h, if_neg h]
    congr 1
    have hd := (List.dropWhile_sublist (l := rest)
      (fun d => ¬ isWsChar d)).length_le
    exact splitWsF_fuelInv rest.length _ _ (by omega) (by omega)

theorem takeWhile_append_stop (p : Char → Bool) (a : Str) (c : Char)
    (b : Str) (ha : ∀ x ∈ a, p x = true) (hc : p c = false) :
    (a ++ c :: b).takeWhile p = a := by
  induction a with
  | nil => simp [List.takeWhile, hc]
  | cons x a ih =>
    rw [List.cons_append, List.takeWhile_cons,
      if_pos (ha x (List.mem_cons_self x a))]
    rw [ih (fun y hy => ha y (List.mem_cons_of_mem x hy))]

theorem dropWhile_append_stop (p : Char → Bool) (a : Str) (c : Char)
    (b : Str) (ha : ∀ x ∈ a, p x = true) (hc : p c = false) :
    (a ++ c :: b).dropWhile p = c :: b := by
  induction a with
  | nil => simp [List.dropWhile, hc]
  | cons x a ih =>
    rw [List.cons_append, List.dropWhile_cons,
      if_pos (ha x (List.mem_cons_self x a))]
    exact ih (fun y hy => ha y (List.mem_cons_of_mem x hy))

theorem takeWhile_all (p : Char → Bool) (a : Str)
    (ha : ∀ x ∈ a, p x = true) : a.takeWhile p = a := by
  induction a with
  | nil => rfl
  | cons x a ih =>
    rw [List.takeWhile_cons, if_pos (ha x (List.mem_cons_self x a))]
    rw [ih (fun y hy => ha y (List.mem_cons_of_mem x hy))]

theorem dropWhile_all (p : Char → Bool) (a : Str)
    (ha : ∀ x ∈ a, p x = true) : a.dropWhile p = [] := by
  induction a with
  | nil => rfl
  | cons x a ih =>
    rw [List.dropWhile_cons, if_pos (ha x (List.mem_cons_self x a))]
    exact ih (fun y hy => ha y (List.mem_cons_of_mem x hy))

/-- A non-empty whitespace-free token followed by a space splits off. -/
theorem splitWs_token (tok rest : Str) (h1 : tok ≠ [])
    (h2 : ∀ c ∈ tok, isWsChar c = false) :
    splitWs (tok ++ ' ' :: rest) = tok :: splitWs rest := by
  cases tok with
  | nil => exact absurd rfl h1
  | cons c t =>
    rw [List.cons_append, splitWs_cons,
      if_neg (by simp [h2 c (List.mem_cons_self c t)])]
    rw [takeWhile_append_stop _ t ' ' rest
      (fun x hx => by simp [h2 x (List.mem_cons_of_mem c hx)]) (by simp [isWsChar])]
    rw [dropWhile_append_stop _ t ' ' rest
      (fun x hx => by simp [h2 x (List.mem_cons_of_mem c hx)]) (by simp [isWsChar])]
    rw [splitWs_cons, if_pos (by simp [isWsChar])]

/-- A lone non-empty whitespace-free token is one token. -/
theorem splitWs_single (tok : Str) (h1 : tok ≠ [])
    (h2 : ∀ c ∈ tok, isWsChar c = false) :
    splitWs tok = [tok] := by
  cases tok with
  | nil => exact absurd rfl h1
  | cons c t =>
    rw [splitWs_cons, if_neg (by simp [h2 c (List.mem_cons_self c t)])]
    rw [takeWhile_all _ t
      (fun x hx => by simp [h2 x (List.mem_cons_of_mem c hx)])]
    rw [dropWhile_all _ t
      (fun x hx => by simp [h2 x (List.mem_cons_of_mem c hx)])]
    rfl

theorem splitChar_ne_nil (c : Char) (s : Str) : splitChar c s ≠ [] := by
  cases s with
  | nil => simp [splitChar]
  | cons a rest =>
    unfold splitChar
    by_cases h : a = c
    · simp [h]
    · rw [if_neg h]
      cases splitChar c rest <;> simp

theorem splitChar_not_mem (c : Char) (a : Str) (h : c ∉ a) :
    splitChar c a = [a] := by
  induction a with
  | nil => rfl
  | cons x a ih =>
    have hx : x ≠ c := fun hc => h (List.mem_cons.mpr (Or.inl hc.symm))
    show (if x = c then [] :: splitChar c a
        else match splitChar c a with
          | [] => [[x]]
          | h :: t => (x :: h) :: t) = [x :: a]
    rw [if_neg hx, ih (fun hc => h (List.mem_cons_of_mem x hc))]

theorem splitChar_append (c : Char) (a b : Str) (h : c ∉ a) :
    splitChar c (a ++ c :: b) = a :: splitChar c b := by
  induction a with
  | nil => simp [splitChar]
  | cons x a ih =>
    have hx : x ≠ c := fun hc => h (List.mem_cons.mpr (Or.inl hc.symm))
    rw [List.cons_append]
    show (if x = c then [] :: splitChar c (a ++ c :: b)
        else match splitChar c (a ++ c :: b) with
          | [] => [[x]]
          | h :: t => (x :: h) :: t) = (x :: a) :: splitChar c b
    rw [if_neg hx, ih (fun hc => h (List.mem_cons_of_mem x hc))]

theorem joinSep_splitChar (c : Char) (s : Str) :
    joinSep c (splitChar c s) = s := by
  induction s with
  | nil => rfl
  | cons x s ih =>
    unfold splitChar
    by_cases h : x = c
    · rw [if_pos h, h]
      cases hs : splitChar c s with
      | nil => exact absurd hs (splitChar_ne_nil c s)
      | cons l t =>
        have ihs := ih
        rw [hs] at ihs
        show [] ++ c :: joinSep c (l :: t) = c :: s
        rw [List.nil_append, ihs]
    · rw [if_neg h]
      cases hs : splitChar c s with
      | nil => exact absurd hs (splitChar_ne_nil c s)
      | cons l t =>
        cases t with
        | nil =>
          show x :: l = x :: s
          have := ih
          rw [hs] at this
          simpa [joinSep] using this
        | cons l2 t2 =>
          show x :: (l ++ c :: joinSep c (l2 :: t2)) = x :: s
          have := ih
          rw [hs] at this
          simpa [joinSep] using this

theorem mem_splitChar_sub (c : Char) (s : Str) (l : Str)
    (hl : l ∈ splitChar c s) : ∀ x ∈ l, x ∈ s := by
  induction s generalizing l with
  | nil =>
    simp [splitChar] at hl
    subst hl
    simp
  | cons a s ih =>
    unfold splitChar at hl
    by_cases h : a = c
    · rw [if_pos h] at hl
      rcases List.mem_cons.mp hl with rfl | hl
      · simp
      · exact fun x hx => List.mem_cons_of_mem a (ih l hl x hx)
    · rw [if_neg h] at hl
      cases hs : splitChar c s with
      | nil => exact absurd hs (splitChar_ne_nil c s)
      | cons h0 t =>
        rw [hs] at hl
        rcases List.mem_cons.mp hl with rfl | hl
        · intro x hx
          rcases List.mem_cons.mp hx with rfl | hx
          · simp
          · exact List.mem_cons_of_mem a (ih h0 (hs ▸ List.mem_cons_self h0 t) x hx)
        · exact fun x hx =>
            List.mem_cons_of_mem a (ih l (hs ▸ List.mem_cons_of_mem h0 hl) x hx)

theorem splitOnceChar_none (c : Char) (s : Str) (h : c ∉ s) :
    splitOnceChar c s = none := by
  induction s with
  | nil => rfl
  | cons a s ih =>
    unfold splitOnceChar
    rw [if_neg (fun hc => h (List.mem_cons.mpr (Or.inl hc.symm)))]
    rw [ih (fun hc => h (List.mem_cons_of_mem a hc))]
    rfl

theorem stripComment_id (l : Str) (h : '#' ∉ l) : stripComment l = l := by
  unfold stripComment
  rw [splitOnceChar_none '#' l h]

theorem stripCR_id (l : Str) (h : '\r' ∉ l) : stripCR l = l := by
  unfold stripCR
  rw [if_neg (fun hc : l.getLast? = some '\r' =>
    h (List.mem_of_mem_getLast? (by rw [hc]; rfl)))]

theorem rustLines_nil : rustLines [] = [] := rfl

/-- Peeling one newline-terminated, newline- and CR-free line. -/
theorem rustLines_peel (a b : Str) (hn : '\n' ∉ a) (hr : '\r' ∉ a) :
    rustLines (a ++ '\n' :: b) = a :: rustLines b := by
  unfold rustLines
  rw [if_neg (by simp)]
  rw [splitChar_append '\n' a b hn]
  cases hb : b with
  | nil =>
    rw [show splitChar '\n' ([] : Str) = [[]] from rfl]
    simp [stripCR_id a hr]
  | cons x bs =>
    rw [← hb]
    have hbne : b ≠ [] := by rw [hb]; simp
    rw [if_neg hbne]
    cases hsb : splitChar '\n' b with
    | nil => exact absurd hsb (splitChar_ne_nil '\n' b)
    | cons l t =>
      show List.map stripCR
          (if (a :: l :: t).getLast? = some [] then (a :: l :: t).dropLast
            else a :: l :: t)
        = a :: List.map stripCR
          (if (l :: t).getLast? = some [] then (l :: t).dropLast else l :: t)
      rw [List.getLast?_cons_cons]
      by_cases hlast : (l :: t).getLast? = some []
      · rw [if_pos hlast, if_pos hlast]
        rw [show (a :: l :: t).dropLast = a :: (l :: t).dropLast from rfl]
        rw [List.map_cons, stripCR_id a hr]
      · rw [if_neg hlast, if_neg hlast]
        rw [List.map_cons, stripCR_id a hr]

/-- A single newline-free, CR-free, non-empty line. -/
theorem rustLines_singleLine (a : Str) (hn : '\n' ∉ a) (hr : '\r' ∉ a)
    (hne : a ≠ []) :
    rustLines a = [a] := by
  unfold rustLines
  rw [if_neg hne, splitChar_not_mem '\n' a hn]
  rw [if_neg (by
    simp only [List.getLast?_singleton, Option.some.injEq]
    exact fun hc => hne hc)]
  simp [stripCR_id a hr]

theorem trimEnd_nil : trimEnd [] = [] := rfl

theorem trimEnd_last_keep (s : Str) (c : Char) (hc : isWsChar c = false) :
    trimEnd (s ++ [c]) = s ++ [c] := by
  unfold trimEnd
  rw [List.reverse_append]
  simp only [List.reverse_cons, List.reverse_nil, List.nil_append,
    List.cons_append, List.nil_append]
  rw [List.dropWhile_cons, if_neg (by simp [hc])]
  simp

theorem trimEnd_last_ws (s : Str) (c : Char) (hc : isWsChar c = true) :
    trimEnd (s ++ [c]) = trimEnd s := by
  unfold trimEnd
  rw [List.reverse_append]
  simp only [List.reverse_cons, List.reverse_nil, List.nil_append,
    List.cons_append, List.nil_append]
  rw [List.dropWhile_cons, if_pos (by simp [hc])]

theorem splitOnceChar_some (c : Char) :
    ∀ (s a b : Str), splitOnceChar c s = some (a, b) →
    s = a ++ c :: b ∧ c ∉ a := by
  intro s
  induction s with
  | nil => intro a b h; simp [splitOnceChar] at h
  | cons x rest ih =>
    intro a b h
    unfold splitOnceChar at h
    by_cases hx : x = c
    · rw [if_pos hx] at h
      injection h with h
      have ha : a = [] := by
        have := congrArg Prod.fst h
        simpa using this.symm
      have hb : b = rest := by
        have := congrArg Prod.snd h
        simpa using this.symm
      subst ha
      subst hb
      simp [hx]
    · rw [if_neg hx] at h
      cases hres : splitOnceChar c rest with
      | none => rw [hres] at h; simp at h
      | some p =>
        obtain ⟨a2, b2⟩ := p
        rw [hres] at h
        simp only [Option.map_some', Option.some.injEq, Prod.mk.injEq] at h
        obtain ⟨ha, hb⟩ := h
        subst hb
        rw [← ha]
        obtain ⟨h1, h2⟩ := ih a2 b2 hres
        constructor
        · rw [List.cons_append, ← h1]
        · intro hc
          rcases List.mem_cons.mp hc with hc | hc
          · exact hx hc.symm
          · exact h2 hc

theorem splitOnceChar_none_mem (c : Char) :
    ∀ s : Str, splitOnceChar c s = none → c ∉ s := by
  intro s
  induction s with
  | nil => intro _; simp
  | cons x rest ih =>
    intro h
    unfold splitOnceChar at h
    by_cases hx : x = c
    · rw [if_pos hx] at h; simp at h
    · rw [if_neg hx] at h
      intro hc
      rcases List.mem_cons.mp hc with hc | hc
      · exact hx hc.symm
      · cases hres : splitOnceChar c rest with
        | none => exact ih hres hc
        | some p => rw [hres] at h; simp at h

theorem trimEnd_append (u v : Str) :
    trimEnd (u ++ v) = if trimEnd v = [] then trimEnd u else u ++ trimEnd v := by
  unfold trimEnd
  rw [List.reverse_append, List.dropWhile_append]
  by_cases h : (v.reverse.dropWhile isWsChar).isEmpty
  · rw [if_pos h]
    rw [if_pos (by
      rw [List.isEmpty_iff] at h
      rw [h]
      rfl)]
  · rw [if_neg h]
    rw [if_neg (by
      rw [List.isEmpty_iff] at h
      intro hc
      exact h (by
        have := congrArg List.reverse hc
        simpa using this))]
    rw [List.reverse_append, List.reverse_reverse]

/-- Re-assembling the table text: on comment-free, CR-free text the table
section of `extract_tokens` is the original text, trim-ended. -/
theorem tableText_rustLines (n : Nat) :
    ∀ T : Str, T.length ≤ n → '#' ∉ T → '\r' ∉ T →
    tableText (rustLines T) = trimEnd T := by
  induction n with
  | zero =>
    intro T hlen _ _
    have : T = [] := by
      cases T with
      | nil => rfl
      | cons c r => simp at hlen
    subst this
    rfl
  | succ n ih =>
    intro T hlen hh hr
    cases hT : T with
    | nil => rfl
    | cons c rest =>
      rw [← hT]
      cases hsp : splitOnceChar '\n' T with
      | none =>
        have hn : '\n' ∉ T := splitOnceChar_none_mem '\n' T hsp
        rw [rustLines_singleLine T hn hr (by rw [hT]; simp)]
        unfold tableText
        rw [List.map_cons, List.map_nil, stripComment_id T hh]
        rw [List.foldr_cons, List.foldr_nil]
        rw [show T ++ '\n' :: [] = T ++ ['\n'] from rfl]
        rw [trimEnd_last_ws T '\n' (by simp [isWsChar])]
      | some p =>
        obtain ⟨a, b⟩ := p
        obtain ⟨hTab, hna⟩ := splitOnceChar_some '\n' T a b hsp
        have hha : '#' ∉ a := fun hc => hh (by rw [hTab]; simp [hc])
        have hhb : '#' ∉ b := fun hc => hh (by rw [hTab]; simp [hc])
        have hra : '\r' ∉ a := fun hc => hr (by rw [hTab]; simp [hc])
        have hrb : '\r' ∉ b := fun hc => hr (by rw [hTab]; simp [hc])
        have hblen : b.length ≤ n := by
          rw [hTab] at hlen
          simp only [List.length_append, List.length_cons] at hlen
          omega
        have hib := ih b hblen hhb hrb
        rw [hTab, rustLines_peel a b hna hra]
        unfold tableText at hib ⊢
        rw [List.map_cons, List.foldr_cons, stripComment_id a hha]
        have hsplit : a ++ '\n' ::
            ((rustLines b).map stripComment).foldr
              (fun l acc => l ++ '\n' :: acc) []
            = (a ++ ['\n']) ++
              ((rustLines b).map stripComment).foldr
                (fun l acc => l ++ '\n' :: acc) [] := by
          simp
        have hsplit2 : a ++ '\n' :: b = (a ++ ['\n']) ++ b := by simp
        rw [hsplit, hsplit2]
        rw [trimEnd_append (a ++ ['\n'])
          (((rustLines b).map stripComment).foldr
            (fun l acc => l ++ '\n' :: acc) [])]
        rw [trimEnd_append (a ++ ['\n']) b]
        rw [hib]

/-- A name token that serializes and re-parses cleanly: non-empty, no
whitespace, no comment marker. -/
def tokOk (t : Str) : Bool :=
  (! t.isEmpty) && t.all (fun c => (! isWsChar c) && (! (c = '#')))

theorem tokOk_ne_nil {t : Str} (h : tokOk t = true) : t ≠ [] := by
  unfold tokOk at h
  simp only [Bool.and_eq_true, Bool.not_eq_true'] at h
  intro hc
  rw [hc] at h
  simp [List.isEmpty] at h

theorem tokOk_no_ws {t : Str} (h : tokOk t = true) :
    ∀ c ∈ t, isWsChar c = false := by
  unfold tokOk at h
  simp only [Bool.and_eq_true, List.all_eq_true, Bool.not_eq_true'] at h
  exact fun c hc => (h.2 c hc).1

theorem tokOk_no_hash {t : Str} (h : tokOk t = true) : '#' ∉ t := by
  unfold tokOk at h
  simp only [Bool.and_eq_true, List.all_eq_true, Bool.not_eq_true'] at h
  intro hc
  have := (h.2 '#' hc).2
  simp at this

theorem mem_joinSep (sep : Char) :
    ∀ (toks : List Str) (x : Char), x ∈ joinSep sep toks →
    x = sep ∨ ∃ t ∈ toks, x ∈ t := by
  intro toks
  induction toks with
  | nil => intro x hx; simp [joinSep] at hx
  | cons t rest ih =>
    intro x hx
    cases rest with
    | nil =>
      right
      exact ⟨t, List.mem_cons_self t [], by simpa [joinSep] using hx⟩
    | cons t2 r2 =>
      rw [show joinSep sep (t :: t2 :: r2) = t ++ sep :: joinSep sep (t2 :: r2)
        from rfl] at hx
      rcases List.mem_append.mp hx with hx | hx
      · exact Or.inr ⟨t, List.mem_cons_self t _, hx⟩
      · rcases List.mem_cons.mp hx with rfl | hx
        · exact Or.inl rfl
        · rcases ih x hx with h | ⟨u, hu, hxu⟩
          · exact Or.inl h
          · exact Or.inr ⟨u, List.mem_cons_of_mem t hu, hxu⟩

theorem splitWs_joinSep (toks : List Str)
    (h : ∀ t ∈ toks, tokOk t = true) :
    splitWs (joinSep ' ' toks) = toks := by
  induction toks with
  | nil => rfl
  | cons t rest ih =>
    cases rest with
    | nil =>
      rw [show joinSep ' ' [t] = t from rfl]
      exact splitWs_single t (tokOk_ne_nil (h t (List.mem_cons_self t [])))
        (tokOk_no_ws (h t (List.mem_cons_self t [])))
    | cons t2 r2 =>
      rw [show joinSep ' ' (t :: t2 :: r2) = t ++ ' ' :: joinSep ' ' (t2 :: r2)
        from rfl]
      rw [splitWs_token t _ (tokOk_ne_nil (h t (List.mem_cons_self t _)))
        (tokOk_no_ws (h t (List.mem_cons_self t _)))]
      rw [ih (fun u hu => h u (List.mem_cons_of_mem t hu))]

theorem exLoop_states_step (line : Str) (args : List Str) (rest : List Str)
    (st sy fi : List Str) (ini : Str)
    (h : splitWs (stripComment line) = s2l "states" :: args) :
    exLoop (line :: rest) (st, sy, fi, ini)
      = exLoop rest (st ++ args, sy, fi, ini) := by
  conv_lhs => rw [exLoop]
  rw [h]
  rfl

theorem exLoop_syms_step (line : Str) (args : List Str) (rest : List Str)
    (st sy fi : List Str) (ini : Str)
    (h : splitWs (stripComment line) = s2l "syms" :: args) :
    exLoop (line :: rest) (st, sy, fi, ini)
      = exLoop rest (st, sy ++ args, fi, ini) := by
  conv_lhs => rw [exLoop]
  rw [h]
  rfl

theorem exLoop_init_step (line : Str) (a : Str) (args : List Str)
    (rest : List Str) (st sy fi : List Str) (ini : Str)
    (h : splitWs (stripComment line) = s2l "initstate" :: a :: args) :
    exLoop (line :: rest) (st, sy, fi, ini)
      = exLoop rest (st, sy, fi, ini ++ a) := by
  conv_lhs => rw [exLoop]
  rw [h]
  rfl

theorem exLoop_finals_step (line : Str) (args : List Str) (rest : List Str)
    (st sy fi : List Str) (ini : Str)
    (h : splitWs (stripComment line) = s2l "finalstates" :: args) :
    exLoop (line :: rest) (st, sy, fi, ini)
      = exLoop rest (st, sy, args.foldl slInsert fi, ini) := by
  conv_lhs => rw [exLoop]
  rw [h]
  rfl

theorem exLoop_table_step (line : Str) (args : List Str) (rest : List Str)
    (st sy fi : List Str) (ini : Str)
    (h : splitWs (stripComment line) = s2l "table" :: args) :
    exLoop (line :: rest) (st, sy, fi, ini)
      = some ⟨st, sy, fi, ini, tableText rest⟩ := by
  conv_lhs => rw [exLoop]
  rw [h]
  rfl

/-- Characters that may not occur in a serialized header line. -/
theorem headerLine_notMem (kw : Str) (toks : List Str) (c : Char)
    (hc2 : c ∉ kw) (hcs : c = '\n' ∨ c = '\r' ∨ c = '#')
    (h : ∀ t ∈ toks, tokOk t = true) :
    c ∉ kw ++ joinSep ' ' toks := by
  intro hc
  rcases List.mem_append.mp hc with hk | hj
  · exact hc2 hk
  · rcases mem_joinSep ' ' toks c hj with rfl | ⟨t, ht, hct⟩
    · rcases hcs with h' | h' | h' <;> simp at h'
    · rcases hcs with rfl | rfl | rfl
      · have := tokOk_no_ws (h t ht) _ hct
        simp [isWsChar] at this
      · have := tokOk_no_ws (h t ht) _ hct
        simp [isWsChar] at this
      · exact tokOk_no_hash (h t ht) hct

/-- The extraction of a serialized definition: `extract_tokens` recovers
the written states, symbols, final states (deduplicated), initial state,
and the trim-ended table text. -/
theorem extract_serializeDef (states syms finals : List Str) (ini T : Str)
    (hst : ∀ t ∈ states, tokOk t = true) (hsy : ∀ t ∈ syms, tokOk t = true)
    (hfi : ∀ t ∈ finals, tokOk t = true) (hini : tokOk ini = true)
    (hTh : '#' ∉ T) (hTr : '\r' ∉ T) :
    extractTokens
      (s2l "states " ++ joinSep ' ' states ++ '\n' ::
      (s2l "syms " ++ joinSep ' ' syms ++ '\n' ::
      (s2l "initstate " ++ ini ++ '\n' ::
      (s2l "finalstates " ++ joinSep ' ' finals ++ '\n' ::
      (s2l "table" ++ '\n' :: T)))))
    = some ⟨states, syms, finals.foldl slInsert [], ini, trimEnd T⟩ := by
  have hini' : ∀ t ∈ [ini], tokOk t = true := by
    intro t ht
    rcases List.mem_cons.mp ht with rfl | ht
    · exact hini
    · simp at ht
  have hij : ini = joinSep ' ' [ini] := rfl
  unfold extractTokens
  rw [show s2l "states " ++ joinSep ' ' states ++ '\n' :: _
      = (s2l "states " ++ joinSep ' ' states) ++ '\n' ::
        (s2l "syms " ++ joinSep ' ' syms ++ '\n' ::
        (s2l "initstate " ++ ini ++ '\n' ::
        (s2l "finalstates " ++ joinSep ' ' finals ++ '\n' ::
        (s2l "table" ++ '\n' :: T))))
    from by rw [List.append_assoc]]
  rw [rustLines_peel _ _
    (headerLine_notMem (s2l "states ") states '\n' (by decide)
      (Or.inl rfl) hst)
    (headerLine_notMem (s2l "states ") states '\r' (by decide)
      (Or.inr (Or.inl rfl)) hst)]
  rw [show s2l "syms " ++ joinSep ' ' syms ++ '\n' :: _
      = (s2l "syms " ++ joinSep ' ' syms) ++ '\n' ::
        (s2l "initstate " ++ ini ++ '\n' ::
        (s2l "finalstates " ++ joinSep ' ' finals ++ '\n' ::
        (s2l "table" ++ '\n' :: T)))
    from by rw [List.append_assoc]]
  rw [rustLines_peel _ _
    (headerLine_notMem (s2l "syms ") syms '\n' (by decide) (Or.inl rfl) hsy)
    (headerLine_notMem (s2l "syms ") syms '\r' (by decide)
      (Or.inr (Or.inl rfl)) hsy)]
  rw [show s2l "initstate " ++ ini ++ '\n' :: _
      = (s2l "initstate " ++ ini) ++ '\n' ::
        (s2l "finalstates " ++ joinSep ' ' finals ++ '\n' ::
        (s2l "table" ++ '\n' :: T))
    from by rw [List.append_assoc]]
  rw [rustLines_peel _ _
    (by rw [hij]
        exact headerLine_notMem (s2l "initstate ") [ini] '\n' (by decide)
          (Or.inl rfl) hini')
    (by rw [hij]
        exact headerLine_notMem (s2l "initstate ") [ini] '\r' (by decide)
          (Or.inr (Or.inl rfl)) hini')]
  rw [show s2l "finalstates " ++ joinSep ' ' finals ++ '\n' :: _
      = (s2l "finalstates " ++ joinSep ' ' finals) ++ '\n' ::
        (s2l "table" ++ '\n' :: T)
    from by rw [List.append_assoc]]
  rw [rustLines_peel _ _
    (headerLine_notMem (s2l "finalstates ") finals '\n' (by decide)
      (Or.inl rfl) hfi)
    (headerLine_notMem (s2l "finalstates ") finals '\r' (by decide)
      (Or.inr (Or.inl rfl)) hfi)]
  rw [rustLines_peel (s2l "table") T (by decide) (by decide)]
  have hsplit1 : splitWs (stripComment (s2l "states " ++ joinSep ' ' states))
      = s2l "states" :: states := by
    rw [stripComment_id _ (headerLine_notMem (s2l "states ") states '#'
      (by decide) (Or.inr (Or.inr rfl)) hst)]
    rw [show s2l "states " ++ joinSep ' ' states
        = s2l "states" ++ ' ' :: joinSep ' ' states from rfl]
    rw [splitWs_token _ _ (by decide) (by decide), splitWs_joinSep states hst]
  have hsplit2 : splitWs (stripComment (s2l "syms " ++ joinSep ' ' syms))
      = s2l "syms" :: syms := by
    rw [stripComment_id _ (headerLine_notMem (s2l "syms ") syms '#'
      (by decide) (Or.inr (Or.inr rfl)) hsy)]
    rw [show s2l "syms " ++ joinSep ' ' syms
        = s2l "syms" ++ ' ' :: joinSep ' ' syms from rfl]
    rw [splitWs_token _ _ (by decide) (by decide), splitWs_joinSep syms hsy]
  have hsplit3 : splitWs (stripComment (s2l "initstate " ++ ini))
      = s2l "initstate" :: ini :: [] := by
    rw [stripComment_id _ (by
      rw [hij]
      exact headerLine_notMem (s2l "initstate ") [ini] '#' (by decide)
        (Or.inr (Or.inr rfl)) hini')]
    rw [show s2l "initstate " ++ ini = s2l "initstate" ++ ' ' :: ini from rfl]
    rw [splitWs_token _ _ (by decide) (by decide)]
    rw [splitWs_single ini (tokOk_ne_nil hini) (tokOk_no_ws hini)]
  have hsplit4 : splitWs (stripComment
        (s2l "finalstates " ++ joinSep ' ' finals))
      = s2l "finalstates" :: finals := by
    rw [stripComment_id _ (headerLine_notMem (s2l "finalstates ") finals '#'
      (by decide) (Or.inr (Or.inr rfl)) hfi)]
    rw [show s2l "finalstates " ++ joinSep ' ' finals
        = s2l "finalstates" ++ ' ' :: joinSep ' ' finals from rfl]
    rw [splitWs_token _ _ (by decide) (by decide), splitWs_joinSep finals hfi]
  have hsplit5 : splitWs (stripComment (s2l "table"))
      = s2l "table" :: [] := by
    rw [stripComment_id _ (by decide)]
    exact splitWs_single _ (by decide) (by decide)
  rw [exLoop_states_step _ _ _ _ _ _ _ hsplit1]
  rw [exLoop_syms_step _ _ _ _ _ _ _ hsplit2]
  rw [exLoop_init_step _ _ _ _ _ _ _ _ hsplit3]
  rw [exLoop_finals_step _ _ _ _ _ _ _ hsplit4]
  rw [exLoop_table_step _ _ _ _ _ _ _ hsplit5]
  rw [tableText_rustLines T.length T (Nat.le_refl _) hTh hTr]
  simp

theorem strReplace_mem_subAux (pat rep : Str) (n : Nat) :
    ∀ (s : Str), s.length ≤ n →
    ∀ (x : Char), x ∈ strReplace s pat rep → x ∈ s ∨ x ∈ rep := by
  induction n with
  | zero =>
    intro s hs x hx
    have : s = [] := by
      cases s with
      | nil => rfl
      | cons c r => simp at hs
    subst this
    simp [strReplace_nil] at hx
  | succ n ih =>
    intro s hs x hx
    cases s with
    | nil => simp [strReplace_nil] at hx
    | cons c rest =>
      rw [strReplace_cons] at hx
      by_cases h : ¬ pat.isEmpty ∧ pat.isPrefixOf (c :: rest)
      · rw [if_pos h] at hx
        rcases List.mem_append.mp hx with hx | hx
        · exact Or.inr hx
        · have hlen : ((c :: rest).drop pat.length).length ≤ n := by
            rcases h with ⟨hne, -⟩
            have : 1 ≤ pat.length := by
              cases pat with
              | nil => simp [List.isEmpty] at hne
              | cons a l => simp
            simp only [List.length_drop, List.length_cons] at *
            omega
          rcases ih _ hlen x hx with hx | hx
          · exact Or.inl (List.mem_of_mem_drop hx)
          · exact Or.inr hx
      · rw [if_neg h] at hx
        rcases List.mem_cons.mp hx with rfl | hx
        · exact Or.inl (List.mem_cons_self x rest)
        · have hlen : rest.length ≤ n := by
            simp only [List.length_cons] at hs
            omega
          rcases ih rest hlen x hx with hx | hx
          · exact Or.inl (List.mem_cons_of_mem c hx)
          · exact Or.inr hx

theorem strReplace_mem_sub (pat rep s : Str) (x : Char)
    (hx : x ∈ strReplace s pat rep) : x ∈ s ∨ x ∈ rep :=
  strReplace_mem_subAux pat rep s.length s (Nat.le_refl _) x hx

theorem splitChar_joinSep (c : Char) :
    ∀ toks : List Str, toks ≠ [] → (∀ t ∈ toks, c ∉ t) →
    splitChar c (joinSep c toks) = toks := by
  intro toks
  induction toks with
  | nil => intro h; exact absurd rfl h
  | cons t rest ih =>
    intro _ hni
    cases rest with
    | nil =>
      rw [show joinSep c [t] = t from rfl]
      exact splitChar_not_mem c t (hni t (List.mem_cons_self t []))
    | cons t2 r2 =>
      rw [show joinSep c (t :: t2 :: r2) = t ++ c :: joinSep c (t2 :: r2)
        from rfl]
      rw [splitChar_append c t _ (hni t (List.mem_cons_self t _))]
      rw [ih (by simp) (fun u hu => hni u (List.mem_cons_of_mem t hu))]

theorem posOf?_append_self {α : Type} [DecidableEq α] (x : α) :
    ∀ l : List α, x ∉ l → posOf? x (l ++ [x]) = some l.length := by
  intro l
  induction l with
  | nil => intro _; simp [posOf?]
  | cons a l ih =>
    intro h
    rw [List.cons_append]
    unfold posOf?
    rw [if_neg (fun hc => h (List.mem_cons.mpr (Or.inl hc.symm)))]
    rw [ih (fun hc => h (List.mem_cons_of_mem a hc))]
    rfl

theorem posOf?_append_left {α : Type} [DecidableEq α] (x : α) :
    ∀ (l l2 : List α) (i : Nat), posOf? x l = some i →
    posOf? x (l ++ l2) = some i := by
  intro l
  induction l with
  | nil => intro l2 i h; simp [posOf?] at h
  | cons a l ih =>
    intro l2 i h
    rw [List.cons_append]
    unfold posOf? at h ⊢
    by_cases ha : a = x
    · rw [if_pos ha] at h ⊢
      exact h
    · rw [if_neg ha] at h ⊢
      simp only [Option.map_eq_some'] at h ⊢
      obtain ⟨j, hj, rfl⟩ := h
      exact ⟨j, ih l2 j hj, rfl⟩

/-- A pair covered by no row keeps no entry through the fold. -/
theorem procRows_nocover (mname : Str) (st2i sy2i : List (Str × Nat))
    (p : Nat × Nat) :
    ∀ (rows : List (List Str)) (m M : TMap),
    rows.foldlM (procRow mname st2i sy2i) m = some M →
    alGet m p = none →
    (∀ r ∈ rows, rowCovers mname st2i sy2i r p = false) →
    alGet M p = none := by
  intro rows
  induction rows with
  | nil =>
    intro m M h hnone _
    simp only [List.foldlM_nil] at h
    injection h with h
    exact h ▸ hnone
  | cons r rows ih =>
    intro m M h hnone hnc
    rw [List.foldlM_cons] at h
    simp only [Option.bind_eq_bind, Option.bind_eq_some] at h
    obtain ⟨m1, hm1, hrest⟩ := h
    exact ih m1 M hrest
      ((procRow_get mname st2i sy2i m m1 r p hm1).2.2 hnone
        (hnc r (List.mem_cons_self r rows)))
      (fun u hu => hnc u (List.mem_cons_of_mem r hu))

/-- State-selector-level coverage (used to state hypotheses that a row
reaches a given state at no symbol). -/
def rowCoversState (mname : Str) (st2i : List (Str × Nat))
    (toks : List Str) (s : Nat) : Bool :=
  match toks with
  | [t0, _, _, _, _] =>
    match expandSel st2i.length (fun u => alGet st2i (qual mname u)) t0 with
    | some sts => decide (s ∈ sts)
    | none => false
  | _ => false

theorem rowCovers_of_state (mname : Str) (st2i sy2i : List (Str × Nat))
    (toks : List Str) (s σ : Nat)
    (h : rowCoversState mname st2i toks s = false) :
    rowCovers mname st2i sy2i toks (s, σ) = false := by
  match toks with
  | [] | [_] | [_, _] | [_, _, _] | [_, _, _, _]
  | _ :: _ :: _ :: _ :: _ :: _ :: _ => rfl
  | [t0, t1, t2, t3, t4] =>
    simp only [rowCoversState] at h
    simp only [rowCovers]
    cases hsts : expandSel st2i.length
        (fun u => alGet st2i (qual mname u)) t0 with
    | none => rfl
    | some sts =>
      rw [hsts] at h
      simp only [decide_eq_false_iff_not] at h
      cases hsys : expandSel sy2i.length (fun u => alGet sy2i u) t1 with
      | none => rfl
      | some sys => simp [h]

theorem rustLines_append_nl (n : Nat) :
    ∀ (a b : Str), a.length ≤ n → '\r' ∉ a →
    rustLines (a ++ '\n' :: b) = splitChar '\n' a ++ rustLines b := by
  induction n with
  | zero =>
    intro a b hlen hr
    have : a = [] := by
      cases a with
      | nil => rfl
      | cons c r => simp at hlen
    subst this
    rw [List.nil_append, show splitChar '\n' ([] : Str) = [[]] from rfl]
    exact rustLines_peel [] b (by simp) (by simp)
  | succ n ih =>
    intro a b hlen hr
    cases hsp : splitOnceChar '\n' a with
    | none =>
      have hn : '\n' ∉ a := splitOnceChar_none_mem '\n' a hsp
      rw [rustLines_peel a b hn hr, splitChar_not_mem '\n' a hn]
      rfl
    | some p =>
      obtain ⟨a1, a2⟩ := p
      obtain ⟨ha, hna1⟩ := splitOnceChar_some '\n' a a1 a2 hsp
      have hra1 : '\r' ∉ a1 := fun hc => hr (by rw [ha]; simp [hc])
      have hra2 : '\r' ∉ a2 := fun hc => hr (by rw [ha]; simp [hc])
      have hlen2 : a2.length ≤ n := by
        rw [ha] at hlen
        simp only [List.length_append, List.length_cons] at hlen
        omega
      rw [ha]
      rw [show (a1 ++ '\n' :: a2) ++ '\n' :: b = a1 ++ '\n' :: (a2 ++ '\n' :: b)
        by simp]
      rw [rustLines_peel a1 _ hna1 hra1, ih a2 b hlen2 hra2]
      rw [splitChar_append '\n' a1 a2 hna1]
      rfl

theorem filter_splitChar_rustLines (a : Str) (hr : '\r' ∉ a) :
    (splitChar '\n' a).filter (fun l => l ≠ [])
      = (rustLines a).filter (fun l => l ≠ []) := by
  by_cases ha : a = []
  · subst ha
    rfl
  · unfold rustLines
    rw [if_neg ha]
    have hmap : ∀ segs : List Str, (∀ l ∈ segs, '\r' ∉ l) →
        segs.map stripCR = segs := by
      intro segs hsegs
      induction segs with
      | nil => rfl
      | cons l t iht =>
        rw [List.map_cons, stripCR_id l (hsegs l (List.mem_cons_self l t))]
        rw [iht (fun u hu => hsegs u (List.mem_cons_of_mem l hu))]
    have hsub : ∀ l ∈ splitChar '\n' a, '\r' ∉ l :=
      fun l hl hc => hr (mem_splitChar_sub '\n' a l hl '\r' hc)
    have hne : splitChar '\n' a ≠ [] := splitChar_ne_nil '\n' a
    by_cases hlast : (splitChar '\n' a).getLast? = some []
    · rw [if_pos hlast]
      rw [hmap _ (fun l hl => hsub l (List.mem_of_mem_dropLast hl))]
      have hgl : (splitChar '\n' a).getLast hne = [] := by
        have h2 := List.getLast?_eq_getLast (splitChar '\n' a) hne
        rw [h2] at hlast
        injection hlast with h3
      have hdecomp := List.dropLast_append_getLast hne
      rw [hgl] at hdecomp
      conv_lhs => rw [← hdecomp]
      rw [List.filter_append]
      simp
    · rw [if_neg hlast]
      rw [hmap _ hsub]

/-- Appending a fresh line splits the parsed table rows. -/
theorem tableRows_append_nl (a b : Str) (hr : '\r' ∉ a) :
    tableRows (a ++ '\n' :: b) = tableRows a ++ tableRows b := by
  unfold tableRows
  rw [rustLines_append_nl a.length a b (Nat.le_refl _) hr]
  rw [List.filter_append, List.map_append]
  congr 1
  rw [filter_splitChar_rustLines a hr]

theorem trimEnd_id_of_last (s : Str) (c : Char) (h : s.getLast? = some c)
    (hc : isWsChar c = false) : trimEnd s = s := by
  have hne : s ≠ [] := by
    intro h0
    rw [h0] at h
    simp at h
  have h2 := List.getLast?_eq_getLast s hne
  rw [h2] at h
  injection h with h3
  have hdecomp := List.dropLast_append_getLast hne
  rw [h3] at hdecomp
  conv_lhs => rw [← hdecomp]
  rw [trimEnd_last_keep _ _ hc, hdecomp]

theorem foldlM_append_opt {α β : Type} (f : α → β → Option α)
    (l1 l2 : List β) :
    ∀ a : α, (l1 ++ l2).foldlM f a
      = (l1.foldlM f a).bind (fun b => l2.foldlM f b) := by
  induction l1 with
  | nil => intro a; simp
  | cons x l1 ih =>
    intro a
    rw [List.cons_append, List.foldlM_cons, List.foldlM_cons]
    cases f a x with
    | none => simp
    | some a' => simp [ih a']

theorem expandPiece_plain (len : Nat) (whole : Str)
    (lookup : Str → Option Nat) (x : Str)
    (hx : splitOnceChar '-' x = none) (hw : whole ≠ s2l "*") :
    expandPiece len whole lookup x = (lookup x).map (fun i => [i]) := by
  unfold expandPiece
  rw [hx, if_neg hw]
  cases lookup x <;> rfl

theorem expandSel_one (len : Nat) (lookup : Str → Option Nat) (x : Str)
    (hx : splitOnceChar '-' x = none) (hne : ',' ∉ x) (hw : x ≠ s2l "*")
    (v : Nat) (hv : lookup x = some v) :
    expandSel len lookup x = some [v] := by
  unfold expandSel
  rw [splitChar_not_mem ',' x hne]
  rw [List.foldlM_cons]
  rw [expandPiece_plain len x lookup x hx hw, hv]
  rfl

theorem expandSel_wild (len : Nat) (lookup : Str → Option Nat) :
    expandSel len lookup (s2l "*") = some (List.range len) := by
  unfold expandSel
  rw [splitChar_not_mem ',' (s2l "*") (by decide)]
  rw [List.foldlM_cons]
  rw [show expandPiece len (s2l "*") lookup (s2l "*")
      = some (List.range len) from rfl]
  rfl

/-- A comma list of plain pieces expands to the lookups of its pieces. -/
theorem expandSel_pieces_mem (len : Nat) (whole : Str)
    (lookup : Str → Option Nat) (hw : whole ≠ s2l "*") :
    ∀ (xs : List Str) (acc sys : List Nat),
    (∀ x ∈ xs, splitOnceChar '-' x = none) →
    xs.foldlM
      (fun acc s => do pure (acc ++ (← expandPiece len whole lookup s))) acc
      = some sys →
    ∀ σ, σ ∈ sys ↔ σ ∈ acc ∨ ∃ x ∈ xs, lookup x = some σ := by
  intro xs
  induction xs with
  | nil =>
    intro acc sys _ h σ
    simp only [List.foldlM_nil] at h
    injection h with h
    subst h
    simp
  | cons x xs ih =>
    intro acc sys hplain h σ
    rw [List.foldlM_cons] at h
    rw [expandPiece_plain len whole lookup x
      (hplain x (List.mem_cons_self x xs)) hw] at h
    cases hv : lookup x with
    | none => rw [hv] at h; simp at h
    | some v =>
      rw [hv] at h
      simp only [Option.map_some', Option.pure_def, Option.bind_eq_bind,
        Option.some_bind] at h
      rw [ih (acc ++ [v]) sys
        (fun u hu => hplain u (List.mem_cons_of_mem x hu)) h σ]
      constructor
      · rintro (hm | ⟨u, hu, hlu⟩)
        · rcases List.mem_append.mp hm with hm | hm
          · exact Or.inl hm
          · refine Or.inr ⟨x, List.mem_cons_self x xs, ?_⟩
            have hsv : σ = v := by simpa using hm
            rw [hv, hsv]
        · exact Or.inr ⟨u, List.mem_cons_of_mem x hu, hlu⟩
      · rintro (hm | ⟨u, hu, hlu⟩)
        · exact Or.inl (List.mem_append.mpr (Or.inl hm))
        · rcases List.mem_cons.mp hu with rfl | hu
          · rw [hv] at hlu
            injection hlu with hlu
            exact Or.inl (List.mem_append.mpr (Or.inr (by simp [hlu])))
          · exact Or.inr ⟨u, hu, hlu⟩

/-! ## Claim C7: `loop_while` -/

/-- The table assembled by `loop_while` before serialization: the entry
table with `HALT` renamed to `CHECK`, then the loop-back row, then the
wildcard halt row (both appended with a leading newline). -/
def loopTable (entry : Extracted) (loopSyms : List Str) : Str :=
  (strReplace entry.table (s2l "HALT") (s2l "CHECK") ++ '\n' ::
    (s2l "CHECK " ++ joinSep ',' loopSyms ++ ' ' ::
      (entry.init ++ s2l " . N"))) ++ '\n' :: s2l "CHECK * HALT . N"

theorem loopWhileText_eq (entry : Extracted) (loopSyms : List Str) :
    loopWhileText entry loopSyms
      = writeToFileText (entry.states ++ [s2l "CHECK"]) entry.syms
          entry.init (loopTable entry loopSyms) := rfl

theorem loopTable_no_char (entry : Extracted) (loopSyms : List Str)
    (c : Char) (hc : c = '#' ∨ c = '\r')
    (hT : c ∉ entry.table) (hls : ∀ t ∈ loopSyms, tokOk t = true)
    (hini : tokOk entry.init = true) :
    c ∉ loopTable entry loopSyms := by
  intro h
  rcases List.mem_append.mp h with h | h
  · rcases List.mem_append.mp h with h | h
    · rcases strReplace_mem_sub (s2l "HALT") (s2l "CHECK") entry.table c h
        with h | h
      · exact hT h
      · rcases hc with rfl | rfl <;> exact absurd h (by decide)
    · rcases List.mem_cons.mp h with h | h
      · rcases hc with hc | hc <;> rw [h] at hc <;> exact absurd hc (by decide)
      · rcases List.mem_append.mp h with h | h
        · rcases List.mem_append.mp h with h | h
          · rcases hc with rfl | rfl <;> exact absurd h (by decide)
          · rcases mem_joinSep ',' loopSyms c h with h | ⟨t, ht, hct⟩
            · rcases hc with rfl | rfl <;> exact absurd h (by decide)
            · rcases hc with rfl | rfl
              · exact tokOk_no_hash (hls t ht) hct
              · have := tokOk_no_ws (hls t ht) _ hct
                simp [isWsChar] at this
        · rcases List.mem_cons.mp h with h | h
          · rcases hc with hc | hc <;> rw [h] at hc <;>
              exact absurd hc (by decide)
          · rcases List.mem_append.mp h with h | h
            · rcases hc with rfl | rfl
              · exact tokOk_no_hash hini h
              · have := tokOk_no_ws hini _ h
                simp [isWsChar] at this
            · rcases hc with rfl | rfl <;> exact absurd h (by decide)
  · rcases hc with rfl | rfl <;> exact absurd h (by decide)

theorem loopRow1_no_nlcr (entry : Extracted) (loopSyms : List Str)
    (c : Char) (hc : c = '\n' ∨ c = '\r')
    (hls : ∀ t ∈ loopSyms, tokOk t = true)
    (hini : tokOk entry.init = true) :
    c ∉ s2l "CHECK " ++ joinSep ',' loopSyms ++ ' ' ::
      (entry.init ++ s2l " . N") := by
  intro h
  rcases List.mem_append.mp h with h | h
  · rcases List.mem_append.mp h with h | h
    · rcases hc with rfl | rfl <;> exact absurd h (by decide)
    · rcases mem_joinSep ',' loopSyms c h with h | ⟨t, ht, hct⟩
      · rcases hc with rfl | rfl <;> exact absurd h (by decide)
      · have := tokOk_no_ws (hls t ht) _ hct
        rcases hc with rfl | rfl <;> simp [isWsChar] at this
  · rcases List.mem_cons.mp h with h | h
    · rcases hc with hc | hc <;> rw [h] at hc <;> exact absurd hc (by decide)
    · rcases List.mem_append.mp h with h | h
      · have := tokOk_no_ws hini _ h
        rcases hc with rfl | rfl <;> simp [isWsChar] at this
      · rcases hc with rfl | rfl <;> exact absurd h (by decide)

theorem joinSep_ne_nil (loopSyms : List Str)
    (hls : ∀ t ∈ loopSyms, tokOk t = true) (hlne : loopSyms ≠ []) :
    joinSep ',' loopSyms ≠ [] := by
  cases loopSyms with
  | nil => exact absurd rfl hlne
  | cons t rest =>
    cases rest with
    | nil => exact tokOk_ne_nil (hls t (List.mem_cons_self t []))
    | cons t2 r2 =>
      rw [show joinSep ',' (t :: t2 :: r2)
          = t ++ ',' :: joinSep ',' (t2 :: r2) from rfl]
      intro hcon
      simp at hcon

theorem splitWs_loopRow1 (entry : Extracted) (loopSyms : List Str)
    (hls : ∀ t ∈ loopSyms, tokOk t = true) (hlne : loopSyms ≠ [])
    (hini : tokOk entry.init = true) :
    splitWs (s2l "CHECK " ++ joinSep ',' loopSyms ++ ' ' ::
        (entry.init ++ s2l " . N"))
      = [s2l "CHECK", joinSep ',' loopSyms, entry.init, s2l ".", s2l "N"] := by
  have hJws : ∀ c ∈ joinSep ',' loopSyms, isWsChar c = false := by
    intro c hcJ
    rcases mem_joinSep ',' loopSyms c hcJ with rfl | ⟨t, ht, hct⟩
    · decide
    · exact tokOk_no_ws (hls t ht) c hct
  rw [show s2l "CHECK " ++ joinSep ',' loopSyms ++ ' ' ::
        (entry.init ++ s2l " . N")
      = s2l "CHECK" ++ ' ' :: (joinSep ',' loopSyms ++ ' ' ::
          (entry.init ++ ' ' :: s2l ". N")) from rfl]
  rw [splitWs_token _ _ (by decide) (by decide)]
  rw [splitWs_token _ _ (joinSep_ne_nil loopSyms hls hlne) hJws]
  rw [splitWs_token _ _ (tokOk_ne_nil hini) (tokOk_no_ws hini)]
  rfl

theorem tableRows_singleRow (a : Str) (hne : a ≠ []) (hn : '\n' ∉ a)
    (hr : '\r' ∉ a) : tableRows a = [splitWs a] := by
  unfold tableRows
  rw [rustLines_singleLine a hn hr hne]
  simp [List.filter, hne]

theorem tableRows_loopTable (entry : Extracted) (loopSyms : List Str)
    (hls : ∀ t ∈ loopSyms, tokOk t = true) (hlne : loopSyms ≠ [])
    (hini : tokOk entry.init = true) (hTr : '\r' ∉ entry.table) :
    tableRows (loopTable entry loopSyms)
      = tableRows (strReplace entry.table (s2l "HALT") (s2l "CHECK"))
        ++ [[s2l "CHECK", joinSep ',' loopSyms, entry.init, s2l ".", s2l "N"],
            [s2l "CHECK", s2l "*", s2l "HALT", s2l ".", s2l "N"]] := by
  have hrA : '\r' ∉ strReplace entry.table (s2l "HALT") (s2l "CHECK") := by
    intro h
    rcases strReplace_mem_sub (s2l "HALT") (s2l "CHECK") entry.table '\r' h
      with h | h
    · exact hTr h
    · exact absurd h (by decide)
  have hR1n : '\n' ∉ s2l "CHECK " ++ joinSep ',' loopSyms ++ ' ' ::
      (entry.init ++ s2l " . N") :=
    loopRow1_no_nlcr entry loopSyms '\n' (Or.inl rfl) hls hini
  have hR1r : '\r' ∉ s2l "CHECK " ++ joinSep ',' loopSyms ++ ' ' ::
      (entry.init ++ s2l " . N") :=
    loopRow1_no_nlcr entry loopSyms '\r' (Or.inr rfl) hls hini
  have hR1ne : s2l "CHECK " ++ joinSep ',' loopSyms ++ ' ' ::
      (entry.init ++ s2l " . N") ≠ [] := by
    intro h
    simp at h
  unfold loopTable
  rw [show (strReplace entry.table (s2l "HALT") (s2l "CHECK") ++ '\n' ::
        (s2l "CHECK " ++ joinSep ',' loopSyms ++ ' ' ::
          (entry.init ++ s2l " . N"))) ++ '\n' :: s2l "CHECK * HALT . N"
      = strReplace entry.table (s2l "HALT") (s2l "CHECK") ++ '\n' ::
        ((s2l "CHECK " ++ joinSep ',' loopSyms ++ ' ' ::
          (entry.init ++ s2l " . N")) ++ '\n' :: s2l "CHECK * HALT . N")
    from by simp]
  rw [tableRows_append_nl _ _ hrA]
  congr 1
  rw [tableRows_append_nl _ _ hR1r]
  rw [tableRows_singleRow _ hR1ne hR1n hR1r]
  rw [splitWs_loopRow1 entry loopSyms hls hlne hini]
  rfl

theorem extract_loopWhile (entry : Extracted) (loopSyms : List Str)
    (hst : ∀ t ∈ entry.states, tokOk t = true)
    (hsy : ∀ t ∈ entry.syms, tokOk t = true)
    (hini : tokOk entry.init = true)
    (hls : ∀ t ∈ loopSyms, tokOk t = true)
    (hTh : '#' ∉ entry.table) (hTr : '\r' ∉ entry.table) :
    extractTokens (loopWhileText entry loopSyms)
      = some ⟨entry.states ++ [s2l "CHECK"], entry.syms, [s2l "HALT"],
          entry.init, loopTable entry loopSyms⟩ := by
  have hst' : ∀ t ∈ entry.states ++ [s2l "CHECK"], tokOk t = true := by
    intro t ht
    rcases List.mem_append.mp ht with ht | ht
    · exact hst t ht
    · rcases List.mem_cons.mp ht with rfl | ht
      · decide
      · simp at ht
  have hfi : ∀ t ∈ [s2l "HALT"], tokOk t = true := by
    intro t ht
    rcases List.mem_cons.mp ht with rfl | ht
    · decide
    · simp at ht
  rw [loopWhileText_eq]
  rw [show writeToFileText (entry.states ++ [s2l "CHECK"]) entry.syms
        entry.init (loopTable entry loopSyms)
      = s2l "states " ++ joinSep ' ' (entry.states ++ [s2l "CHECK"]) ++ '\n' ::
        (s2l "syms " ++ joinSep ' ' entry.syms ++ '\n' ::
        (s2l "initstate " ++ entry.init ++ '\n' ::
        (s2l "finalstates " ++ joinSep ' ' [s2l "HALT"] ++ '\n' ::
        (s2l "table" ++ '\n' :: loopTable entry loopSyms)))) from rfl]
  rw [extract_serializeDef (entry.states ++ [s2l "CHECK"]) entry.syms
    [s2l "HALT"] entry.init (loopTable entry loopSyms) hst' hsy hfi hini
    (loopTable_no_char entry loopSyms '#' (Or.inl rfl) hTh hls hini)
    (loopTable_no_char entry loopSyms '\r' (Or.inr rfl) hTr hls hini)]
  have htrim : trimEnd (loopTable entry loopSyms)
      = loopTable entry loopSyms := by
    apply trimEnd_id_of_last _ 'N'
    · unfold loopTable
      rw [List.getLast?_append_of_ne_nil _ (by simp)]
      decide
    · decide
  rw [htrim]
  rfl

/-- C7 (amended): in a `loop_while` composition whose entry machine is
well-formed and whose own table rows never select the synthetic `CHECK`
state, the parsed output behaves in the check state (index
`|entry.states| + 1`) exactly as claimed: on a symbol interned from a
loop token it returns to the entry's initial state without writing and
without moving; on every other defined symbol the wildcard fallback row
(emitted after the loop row, hence only a catch-all) sends it to `HALT`
(index `0`), again writing nothing and staying put; and the final-state
set of the output is exactly `{HALT}`.  The no-`CHECK`-coverage
hypothesis on the entry rows is necessary: those rows are parsed first,
so an entry row with a `*` state selector captures the check state (see
the counterexample). -/
theorem c7_loop_while (mname : Str) (entry : Extracted)
    (loopSyms : List Str) (RC : Rules)
    (hst : ∀ t ∈ entry.states, tokOk t = true)
    (hsy : ∀ t ∈ entry.syms, tokOk t = true)
    (hini : tokOk entry.init = true)
    (hls : ∀ t ∈ loopSyms, tokOk t = true ∧ ',' ∉ t ∧ '-' ∉ t)
    (hlne : loopSyms ≠ []) (hJw : joinSep ',' loopSyms ≠ s2l "*")
    (hTh : '#' ∉ entry.table) (hTr : '\r' ∉ entry.table)
    (hndst : entry.states.Nodup) (hCH : s2l "CHECK" ∉ entry.states)
    (hHst : s2l "HALT" ∉ entry.states)
    (hndsy : entry.syms.Nodup) (hbl : s2l "_" ∉ entry.syms)
    (hinidot : strEndsWith (s2l ".") entry.init = false)
    (hnc : ∀ r ∈ tableRows (strReplace entry.table (s2l "HALT")
        (s2l "CHECK")),
      rowCoversState mname
        (buildState2idx mname (entry.states ++ [s2l "CHECK"])) r
        (entry.states.length + 1) = false)
    (hRC : parseFile mname (loopWhileText entry loopSyms) = some RC) :
    RC.finalStates = [0] ∧
    (∀ t ∈ loopSyms, ∀ σ : Nat,
      alGet (buildSym2idx entry.syms) t = some σ →
      getMove RC (entry.states.length + 1) σ
        = some ⟨RC.initialState, σ, Direction.Stay⟩) ∧
    (∀ σ : Nat, σ < entry.syms.length + 1 →
      (∀ t ∈ loopSyms, alGet (buildSym2idx entry.syms) t ≠ some σ) →
      getMove RC (entry.states.length + 1) σ
        = some ⟨0, σ, Direction.Stay⟩) := by
  have hls1 : ∀ t ∈ loopSyms, tokOk t = true := fun t ht => (hls t ht).1
  unfold parseFile at hRC
  rw [extract_loopWhile entry loopSyms hst hsy hini hls1 hTh hTr] at hRC
  rw [Option.some_bind] at hRC
  obtain ⟨hiniR, hfinR, -, -, htm⟩ := parseRules_inv mname _ RC hRC
  have hnd' : (entry.states ++ [s2l "CHECK"]).Nodup := by
    rw [List.nodup_append]
    refine ⟨hndst, List.nodup_singleton _, fun a ha hb => ?_⟩
    rw [List.mem_singleton] at hb
    exact hCH (hb ▸ ha)
  have hH' : s2l "HALT" ∉ entry.states ++ [s2l "CHECK"] := by
    intro h
    rcases List.mem_append.mp h with h | h
    · exact hHst h
    · rw [List.mem_singleton] at h
      exact absurd h (by decide)
  have hCHidx : alGet (buildState2idx mname (entry.states ++ [s2l "CHECK"]))
      (qual mname (s2l "CHECK")) = some (entry.states.length + 1) := by
    rw [alGet_buildState2idx mname _ hnd' hH']
    rw [if_neg (by decide)]
    rw [posOf?_append_self _ _ hCH]
    rfl
  have hHALTidx : alGet (buildState2idx mname (entry.states ++ [s2l "CHECK"]))
      (qual mname (s2l "HALT")) = some 0 := by
    rw [alGet_buildState2idx mname _ hnd' hH', if_pos rfl]
  have hselCHECK : expandSel
      (buildState2idx mname (entry.states ++ [s2l "CHECK"])).length
      (fun s => alGet (buildState2idx mname (entry.states ++ [s2l "CHECK"]))
        (qual mname s))
      (s2l "CHECK") = some [entry.states.length + 1] :=
    expandSel_one _ _ _ (by decide) (by decide) (by decide) _ hCHidx
  have hiniR' : alGet (buildState2idx mname (entry.states ++ [s2l "CHECK"]))
      (qual mname entry.init) = some RC.initialState := hiniR
  have hrows := tableRows_loopTable entry loopSyms hls1 hlne hini hTr
  have htm' : (tableRows (strReplace entry.table (s2l "HALT") (s2l "CHECK"))
      ++ [[s2l "CHECK", joinSep ',' loopSyms, entry.init, s2l ".", s2l "N"],
          [s2l "CHECK", s2l "*", s2l "HALT", s2l ".", s2l "N"]]).foldlM
        (procRow mname (buildState2idx mname (entry.states ++ [s2l "CHECK"]))
          (buildSym2idx entry.syms)) []
      = some RC.transitionMap := by
    rw [← hrows]
    exact htm
  rw [foldlM_append_opt] at htm'
  rcases Option.bind_eq_some.mp htm' with ⟨mA, hmA, hrest⟩
  simp only [List.foldlM_cons, List.foldlM_nil, Option.bind_eq_bind,
    Option.pure_def] at hrest
  rcases Option.bind_eq_some.mp hrest with ⟨m1, hr1, hrest2⟩
  rcases Option.bind_eq_some.mp hrest2 with ⟨m2, hr2, hm2RC⟩
  injection hm2RC with hm2RC
  have hAnone : ∀ σ : Nat, alGet mA (entry.states.length + 1, σ) = none := by
    intro σ
    exact procRows_nocover mname _ _ _ _ [] mA hmA (alGet_nil _)
      (fun r hr => rowCovers_of_state mname _ _ r _ σ (hnc r hr))
  simp only [procRow, Option.pure_def, Option.bind_eq_bind,
    Option.bind_eq_some] at hr1 hr2
  obtain ⟨sts, hsts, sys, hsys, nso, hnso, wso, hwso, hm1⟩ := hr1
  injection hm1 with hm1
  obtain ⟨sts2, hsts2, sys2, hsys2, nso2, hnso2, wso2, hwso2, hm2⟩ := hr2
  injection hm2 with hm2
  rw [hselCHECK] at hsts hsts2
  injection hsts with hsts
  injection hsts2 with hsts2
  subst hsts hsts2
  simp only [nsoOf, hinidot, Bool.false_eq_true, if_false, hiniR',
    Option.map_some'] at hnso
  injection hnso with hnso
  subst hnso
  have hwso' : wsoOf (buildSym2idx entry.syms) (s2l ".") = some none := by
    unfold wsoOf
    rw [if_pos (by decide)]
    rfl
  rw [hwso'] at hwso
  injection hwso with hwso
  subst hwso
  rw [expandSel_wild] at hsys2
  injection hsys2 with hsys2
  subst hsys2
  have hnso2' : nsoOf mname
      (buildState2idx mname (entry.states ++ [s2l "CHECK"])) (s2l "HALT")
      = some (some 0) := by
    unfold nsoOf
    rw [if_neg (by decide), hHALTidx]
    rfl
  rw [hnso2'] at hnso2
  injection hnso2 with hnso2
  subst hnso2
  rw [hwso'] at hwso2
  injection hwso2 with hwso2
  subst hwso2
  have hdir : dirFromStr (s2l "N") = Direction.Stay := by decide
  rw [hdir] at hm1 hm2
  have hsplitJ : splitChar ',' (joinSep ',' loopSyms) = loopSyms :=
    splitChar_joinSep ',' loopSyms hlne (fun t ht => (hls t ht).2.1)
  have hsys' : loopSyms.foldlM
      (fun acc s => do pure (acc ++ (← expandPiece
        (buildSym2idx entry.syms).length (joinSep ',' loopSyms)
        (fun u => alGet (buildSym2idx entry.syms) u) s))) []
      = some sys := by
    unfold expandSel at hsys
    rw [hsplitJ] at hsys
    exact hsys
  have hsysmem : ∀ σ : Nat,
      σ ∈ sys ↔ ∃ t ∈ loopSyms, alGet (buildSym2idx entry.syms) t
        = some σ := by
    intro σ
    have h := expandSel_pieces_mem (buildSym2idx entry.syms).length
      (joinSep ',' loopSyms) (fun u => alGet (buildSym2idx entry.syms) u)
      hJw loopSyms [] sys
      (fun x hx => splitOnceChar_none '-' x (hls x hx).2.2)
      hsys' σ
    simpa using h
  have hlen : (buildSym2idx entry.syms).length = entry.syms.length + 1 := by
    rw [buildSym2idx_eq entry.syms hndsy hbl]
    simp
  refine ⟨?_, ?_, ?_⟩
  · have hfin' : [s2l "HALT"].foldlM
        (fun acc f => do pure (slInsert acc
          (← alGet (buildState2idx mname (entry.states ++ [s2l "CHECK"]))
            (qual mname f)))) []
        = some RC.finalStates := hfinR
    simp only [List.foldlM_cons, List.foldlM_nil, Option.pure_def,
      Option.bind_eq_bind, hHALTidx, Option.some_bind] at hfin'
    injection hfin' with hfin'
    exact hfin'.symm
  · intro t ht σ hσ
    have hσsys : σ ∈ sys := (hsysmem σ).mpr ⟨t, ht, hσ⟩
    have h1 : alGet m1 (entry.states.length + 1, σ)
        = some ⟨RC.initialState, σ, Direction.Stay⟩ := by
      rw [← hm1]
      exact applyRow_ins _ _ _ _ _ _ mA (hAnone σ)
        (List.mem_singleton.mpr rfl) hσsys
    show alGet RC.transitionMap (entry.states.length + 1, σ) = _
    rw [← hm2RC, ← hm2]
    exact applyRow_mono _ _ _ _ _ _ _ m1 h1
  · intro σ hσlt hσno
    have hσnot : σ ∉ sys := fun hc => by
      rcases (hsysmem σ).mp hc with ⟨t, ht, hσ⟩
      exact hσno t ht hσ
    have h1 : alGet m1 (entry.states.length + 1, σ) = none := by
      rw [← hm1]
      rw [applyRow_off _ _ _ _ _ _ mA (Or.inr hσnot)]
      exact hAnone σ
    show alGet RC.transitionMap (entry.states.length + 1, σ) = _
    rw [← hm2RC, ← hm2]
    rw [applyRow_ins _ _ _ _ _ _ m1 h1 (List.mem_singleton.mpr rfl)
      (List.mem_range.mpr (by rw [hlen]; exact hσlt))]
    rfl

/-- C7, counterexample to the unconditional claim: with entry table
`q0 x HALT . N\n* * HALT . N` and loop symbol `x`, the entry's wildcard
row (with `HALT` renamed to `CHECK`) is parsed before the synthetic rows
and captures the check state: at `(CHECK, x)` the machine re-enters
`CHECK` (index 2) forever instead of jumping to the entry's initial
state (index 1), and at `(CHECK, _)` it re-enters `CHECK` instead of
halting. -/
theorem c7_loop_cex :
    (parseFile (s2l "P") (loopWhileText
        ⟨[s2l "q0"], [s2l "x"], [], s2l "q0",
          s2l "q0 x HALT . N\n* * HALT . N"⟩ [s2l "x"])).map
        (fun R => (R.initialState, getMove R 2 1, getMove R 2 0))
      = some (1, some (Move.mk 2 1 Direction.Stay),
          some (Move.mk 2 0 Direction.Stay)) ∧
    Move.mk 2 1 Direction.Stay ≠ Move.mk 1 1 Direction.Stay ∧
    Move.mk 2 0 Direction.Stay ≠ Move.mk 0 0 Direction.Stay := by
  refine ⟨by decide, by decide, by decide⟩

/-- Witness for C7: `loop_while` over the one-rule entry
`q0 a HALT . R` with loop symbol `a`; in the check state (index 2) the
machine jumps to `q0` (index 1) on `a` (index 1) and halts (`HALT`,
index 0) on the blank (index 0), each time writing the scanned symbol
back and staying put. -/
theorem c7_loop_while_witness :
    getMove
        (⟨1, [0], [(0, s2l "_"), (1, s2l "a")],
          [(s2l "_", 0), (s2l "a", 1)],
          [((1, 1), Move.mk 2 1 Direction.Right),
           ((2, 1), Move.mk 1 1 Direction.Stay),
           ((2, 0), Move.mk 0 0 Direction.Stay)]⟩ : Rules) 2 1
      = some (Move.mk 1 1 Direction.Stay) ∧
    getMove
        (⟨1, [0], [(0, s2l "_"), (1, s2l "a")],
          [(s2l "_", 0), (s2l "a", 1)],
          [((1, 1), Move.mk 2 1 Direction.Right),
           ((2, 1), Move.mk 1 1 Direction.Stay),
           ((2, 0), Move.mk 0 0 Direction.Stay)]⟩ : Rules) 2 0
      = some (Move.mk 0 0 Direction.Stay) := by
  have h := c7_loop_while (s2l "L")
    ⟨[s2l "q0"], [s2l "a"], [], s2l "q0", s2l "q0 a HALT . R"⟩
    [s2l "a"]
    ⟨1, [0], [(0, s2l "_"), (1, s2l "a")],
      [(s2l "_", 0), (s2l "a", 1)],
      [((1, 1), Move.mk 2 1 Direction.Right),
       ((2, 1), Move.mk 1 1 Direction.Stay),
       ((2, 0), Move.mk 0 0 Direction.Stay)]⟩
    (by decide) (by decide) (by decide) (by decide) (by decide) (by decide)
    (by decide) (by decide) (by decide) (by decide) (by decide) (by decide)
    (by decide) (by decide) (by decide) (by decide)
  exact ⟨h.2.1 (s2l "a") (by decide) 1 (by decide),
    h.2.2 0 (by decide) (by decide)⟩

/-! ## Claim C3: state renaming in the combinators -/

theorem splitOnceChar_append_self (c : Char) :
    ∀ (u tail : Str), c ∉ u →
    splitOnceChar c (u ++ c :: tail) = some (u, tail) := by
  intro u
  induction u with
  | nil =>
    intro tail _
    rw [List.nil_append]
    unfold splitOnceChar
    rw [if_pos rfl]
  | cons a u ih =>
    intro tail h
    rw [List.cons_append]
    unfold splitOnceChar
    rw [if_neg (fun hc => h (List.mem_cons.mpr (Or.inl hc.symm)))]
    rw [ih tail (fun hc => h (List.mem_cons_of_mem a hc))]
    rfl

theorem containsSub_eq_false_of_char (pat : Str) (c : Char) (hc : c ∈ pat) :
    ∀ s : Str, c ∉ s → containsSub s pat = false := by
  intro s
  induction s with
  | nil =>
    intro _
    unfold containsSub
    cases pat with
    | nil => simp at hc
    | cons a l => rfl
  | cons a rest ih =>
    intro hs
    unfold containsSub
    rw [Bool.or_eq_false_iff]
    refine ⟨?_, ih (fun h => hs (List.mem_cons_of_mem a h))⟩
    by_contra hpre
    rw [Bool.not_eq_false, List.isPrefixOf_iff_prefix] at hpre
    exact hs (hpre.subset hc)

theorem strReplace_id_of_char (s pat rep : Str) (c : Char) (hc : c ∈ pat)
    (hs : c ∉ s) : strReplace s pat rep = s :=
  strReplace_of_not_contains pat rep s (containsSub_eq_false_of_char pat c hc s hs)

/-- The rename the combinators aim to perform, as the spec words it
(whole-token replacement), restricted to the tokens it can actually
reach: every token except the last, which lacks a trailing delimiter. -/
def renameInner (old new : Str) : List Str → List Str
  | [] => []
  | [t] => [t]
  | t :: ts => (if t = old then new else t) :: renameInner old new ts

/-- The delimiter-suffixed replace of `merge_tokens` on a one-line,
space-separated table: every non-final token equal to the old state is
renamed, no other token is touched — provided no token has the old state
as a proper suffix (left edges are never checked, see the
counterexample). -/
theorem strReplace_tok_join (st s' : Str) (hstne : st ≠ [])
    (hstws : ' ' ∉ st) :
    ∀ toks : List Str, (∀ t ∈ toks, ' ' ∉ t) →
    (∀ t ∈ toks, ¬ st <:+ t ∨ t = st) →
    strReplace (joinSep ' ' toks) (st ++ [' ']) (s' ++ [' '])
      = joinSep ' ' (renameInner st s' toks) := by
  intro toks
  induction toks with
  | nil =>
    intro _ _
    exact strReplace_nil _ _
  | cons t rest ih =>
    intro hws hsuf
    cases rest with
    | nil =>
      rw [show joinSep ' ' [t] = t from rfl,
        show renameInner st s' [t] = [t] from rfl,
        show joinSep ' ' [t] = t from rfl]
      exact strReplace_id_of_char t _ _ ' ' (by simp)
        (hws t (List.mem_cons_self t []))
    | cons t2 r2 =>
      rw [show joinSep ' ' (t :: t2 :: r2)
          = t ++ ' ' :: joinSep ' ' (t2 :: r2) from rfl]
      have hrest := ih (fun u hu => hws u (List.mem_cons_of_mem t hu))
        (fun u hu => hsuf u (List.mem_cons_of_mem t hu))
      by_cases ht : t = st
      · subst ht
        rw [show t ++ ' ' :: joinSep ' ' (t2 :: r2)
            = (t ++ [' ']) ++ joinSep ' ' (t2 :: r2) from by simp]
        rw [strReplace_patHead _ _ _ (by simp)]
        rw [hrest]
        rw [show renameInner t s' (t :: t2 :: r2)
            = (if t = t then s' else t) :: renameInner t s' (t2 :: r2)
          from rfl]
        rw [if_pos rfl]
        rw [show joinSep ' ' (s' :: renameInner t s' (t2 :: r2))
            = s' ++ ' ' :: joinSep ' ' (renameInner t s' (t2 :: r2)) from by
          cases h2 : renameInner t s' (t2 :: r2) with
          | nil => cases t2 <;> cases r2 <;> simp [renameInner] at h2
          | cons a l => rfl]
        simp
      · have hnosuf : ¬ st <:+ t := by
          rcases hsuf t (List.mem_cons_self t _) with h | h
          · exact h
          · exact absurd h ht
        have hskip : strReplace (t ++ ' ' :: joinSep ' ' (t2 :: r2))
            (st ++ [' ']) (s' ++ [' '])
            = t ++ strReplace (' ' :: joinSep ' ' (t2 :: r2))
                (st ++ [' ']) (s' ++ [' ']) := by
          apply strReplace_skip
          intro u v huv hv hpre
          rw [List.isPrefixOf_iff_prefix] at hpre
          obtain ⟨r, hr⟩ := hpre
          rw [show (st ++ [' ']) ++ r = st ++ ' ' :: r from by simp] at hr
          have hvws : ' ' ∉ v := fun hc =>
            hws t (List.mem_cons_self t _)
              (huv ▸ List.mem_append.mpr (Or.inr hc))
          have h1 := splitOnceChar_append_self ' ' v (joinSep ' ' (t2 :: r2))
            hvws
          have h2 := splitOnceChar_append_self ' ' st r hstws
          rw [← hr] at h1
          rw [h2] at h1
          injection h1 with h1
          have hv_st : v = st := (congrArg Prod.fst h1).symm
          exact hnosuf ⟨u, by rw [← hv_st, ← huv]⟩
        rw [hskip]
        have hsepskip : strReplace (' ' :: joinSep ' ' (t2 :: r2))
            (st ++ [' ']) (s' ++ [' '])
            = ' ' :: strReplace (joinSep ' ' (t2 :: r2))
                (st ++ [' ']) (s' ++ [' ']) := by
          rw [strReplace_cons]
          rw [if_neg (by
            rintro ⟨-, hpre⟩
            rw [List.isPrefixOf_iff_prefix] at hpre
            obtain ⟨r, hr⟩ := hpre
            cases hst : st with
            | nil => exact hstne hst
            | cons a l =>
              rw [hst] at hr
              injection hr with hr1 hr2
              exact hstws (by rw [hst, ← hr1]; exact List.mem_cons_self _ _))]
        rw [hsepskip, hrest]
        rw [show renameInner st s' (t :: t2 :: r2)
            = (if t = st then s' else t) :: renameInner st s' (t2 :: r2)
          from rfl]
        rw [if_neg ht]
        rw [show joinSep ' ' (t :: renameInner st s' (t2 :: r2))
            = t ++ ' ' :: joinSep ' ' (renameInner st s' (t2 :: r2)) from by
          cases h2 : renameInner st s' (t2 :: r2) with
          | nil => cases t2 <;> cases r2 <;> simp [renameInner] at h2
          | cons a l => rfl]

theorem mem_uniquifyInitF_fst (pfx : Str) (taken : List Str) :
    ∀ (fuel : Nat) (s ini : Str) (x : Char),
    x ∈ (uniquifyInitF pfx taken fuel (s, ini)).1 →
    x ∈ pfx ∨ x = ':' ∨ x ∈ s := by
  intro fuel
  induction fuel with
  | zero =>
    intro s ini x hx
    exact Or.inr (Or.inr hx)
  | succ fuel ih =>
    intro s ini x hx
    rw [show uniquifyInitF pfx taken (fuel + 1) (s, ini)
        = if s ∈ taken then
            uniquifyInitF pfx taken fuel
              (qual pfx s, if s = ini then qual pfx ini else ini)
          else (s, ini) from rfl] at hx
    by_cases hmem : s ∈ taken
    · rw [if_pos hmem] at hx
      rcases ih (qual pfx s) _ x hx with h | h | h
      · exact Or.inl h
      · exact Or.inr (Or.inl h)
      · rcases List.mem_append.mp h with h | h
        · exact Or.inl h
        · rcases List.mem_cons.mp h with rfl | h
          · exact Or.inr (Or.inl rfl)
          · rcases List.mem_cons.mp h with rfl | h
            · exact Or.inr (Or.inl rfl)
            · exact Or.inr (Or.inr h)
    · rw [if_neg hmem] at hx
      exact Or.inr (Or.inr hx)

theorem mem_renameInner (old new : Str) :
    ∀ (toks : List Str) (t : Str),
    t ∈ renameInner old new toks → t ∈ toks ∨ t = new := by
  intro toks
  induction toks with
  | nil =>
    intro t ht
    simp [renameInner] at ht
  | cons t0 ts ih =>
    intro t ht
    cases ts with
    | nil =>
      rw [show renameInner old new [t0] = [t0] from rfl] at ht
      rw [List.mem_singleton] at ht
      exact Or.inl (ht ▸ List.mem_cons_self t0 [])
    | cons t2 r2 =>
      rw [show renameInner old new (t0 :: t2 :: r2)
          = (if t0 = old then new else t0)
            :: renameInner old new (t2 :: r2) from rfl] at ht
      rcases List.mem_cons.mp ht with h | h
      · by_cases h0 : t0 = old
        · rw [if_pos h0] at h
          exact Or.inr h
        · rw [if_neg h0] at h
          exact Or.inl (h ▸ List.mem_cons_self t0 _)
      · rcases ih t h with h | h
        · exact Or.inl (List.mem_cons_of_mem t0 h)
        · exact Or.inr h

/-- C3 (amended): `merge_tokens` renames a colliding state by rewriting
the occurrences of the state name that are immediately followed by a
space, comma or hyphen.  On a space-separated table in which no token
has the state as a proper suffix, this renames exactly the non-final
tokens equal to the state and touches nothing else; the final token
(which has no trailing delimiter) is never rewritten, and the left edge
of an occurrence is never checked, so without the no-suffix hypothesis
an unrelated identifier that merely contains the state as a suffix is
corrupted (see the counterexample, which also shows `chain` using a bare
substring replace with no delimiters at all). -/
theorem c3_merge_rename (states syms : List Str) (pfx st init : Str)
    (m2syms m2finals : List Str) (toks : List Str)
    (hstok : tokOk st = true) (hstc : ',' ∉ st) (hsth : '-' ∉ st)
    (hpfxc : ',' ∉ pfx) (hpfxh : '-' ∉ pfx)
    (htoks : ∀ t ∈ toks, ' ' ∉ t ∧ ',' ∉ t ∧ '-' ∉ t)
    (hsuf : ∀ t ∈ toks, ¬ st <:+ t ∨ t = st) :
    (mergeTokens states syms
        ⟨[st], m2syms, m2finals, init, joinSep ' ' toks⟩ pfx).2.2.1
      = joinSep ' ' (renameInner st
          (uniquifyInit pfx states st init).1 toks) := by
  have hstws : ' ' ∉ st := fun h => by
    have := tokOk_no_ws hstok ' ' h
    simp [isWsChar] at this
  have hred : (mergeTokens states syms
      ⟨[st], m2syms, m2finals, init, joinSep ' ' toks⟩ pfx).2.2.1
      = strReplace (strReplace (strReplace (joinSep ' ' toks)
          (st ++ [' ']) ((uniquifyInit pfx states st init).1 ++ [' ']))
          (st ++ [',']) ((uniquifyInit pfx states st init).1 ++ [',']))
          (st ++ ['-']) ((uniquifyInit pfx states st init).1 ++ ['-']) := rfl
  rw [hred]
  rw [strReplace_tok_join st (uniquifyInit pfx states st init).1
    (tokOk_ne_nil hstok) hstws toks (fun t ht => (htoks t ht).1) hsuf]
  have hnochar : ∀ c : Char, c ≠ ' ' → c ≠ ':' → c ∉ st → c ∉ pfx →
      (∀ t ∈ toks, c ∉ t) →
      c ∉ joinSep ' ' (renameInner st
        (uniquifyInit pfx states st init).1 toks) := by
    intro c hsp hcol hst hpfx htk hmem
    rcases mem_joinSep ' ' _ c hmem with h | ⟨t, ht, hct⟩
    · exact hsp h
    · rcases mem_renameInner st _ toks t ht with h | h
      · exact htk t h hct
      · rw [h] at hct
        rcases mem_uniquifyInitF_fst pfx states _ st init c hct with h2 | h2 | h2
        · exact hpfx h2
        · exact hcol h2
        · exact hst h2
  rw [strReplace_id_of_char _ _ _ ',' (by simp)
    (hnochar ',' (by decide) (by decide) hstc hpfxc
      (fun t ht => (htoks t ht).2.1))]
  rw [strReplace_id_of_char _ _ _ '-' (by simp)
    (hnochar '-' (by decide) (by decide) hsth hpfxh
      (fun t ht => (htoks t ht).2.2))]

/-- C3, counterexample to the unconditional claim: (i) `merge_tokens`
checks only the right delimiter, so renaming the colliding state `q0`
rewrites the embedded suffix occurrence inside the unrelated identifier
`xq0`, corrupting the table to `xP::q0 a HALT . N`; (ii) a whole-token
occurrence at the very end of the table (no trailing delimiter) is not
rewritten at all; (iii) `chain` renames with a bare substring replace
(no delimiters), producing a composed file whose table references the
undeclared identifier `xP::q0`. -/
theorem c3_rename_cex :
    (mergeTokens [s2l "q0"] []
        ⟨[s2l "q0", s2l "xq0"], [], [], s2l "q0", s2l "xq0 a HALT . N"⟩
        (s2l "P")).2.2.1 = s2l "xP::q0 a HALT . N" ∧
    (mergeTokens [s2l "q0"] []
        ⟨[s2l "q0"], [], [], s2l "q0", s2l "a b q0"⟩ (s2l "P")).2.2.1
      = s2l "a b q0" ∧
    chainText (s2l "P")
        ⟨[s2l "q0"], [s2l "a"], [], s2l "q0", s2l "q0 a HALT . N"⟩
        ⟨[s2l "q0", s2l "xq0"], [s2l "a"], [], s2l "q0",
          s2l "xq0 a HALT . N"⟩
      = s2l "states q0 P::q0 xq0\nsyms a\ninitstate q0\nfinalstates \ntable\nq0 a P::q0 . N\nxP::q0 a HALT . N" := by
  refine ⟨by decide, by decide, by decide⟩

/-- Witness for C3: merging a machine whose single state `q0` collides
with the pool `[q0]` over the table `q0 a q0` renames the leading
(delimited) occurrence to `P::q0` and leaves the trailing occurrence
untouched. -/
theorem c3_merge_rename_witness :
    (mergeTokens [s2l "q0"] []
        ⟨[s2l "q0"], [], [], s2l "q0",
          joinSep ' ' [s2l "q0", s2l "a", s2l "q0"]⟩ (s2l "P")).2.2.1
      = s2l "P::q0 a q0" := by
  have h := c3_merge_rename [s2l "q0"] [] (s2l "P") (s2l "q0") (s2l "q0")
    [] [] [s2l "q0", s2l "a", s2l "q0"]
    (by decide) (by decide) (by decide) (by decide) (by decide)
    (by decide) (by decide)
  rw [h]
  decide

/-! ## Claim C2: `chain` as sequential composition -/

theorem strReplace_selfAux (pat : Str) :
    ∀ (n : Nat) (s : Str), s.length ≤ n → strReplace s pat pat = s := by
  intro n
  induction n with
  | zero =>
    intro s hlen
    cases s with
    | nil => rfl
    | cons c r => simp at hlen
  | succ n ih =>
    intro s hlen
    cases s with
    | nil => rfl
    | cons c rest =>
      rw [strReplace_cons]
      by_cases h : ¬ pat.isEmpty ∧ pat.isPrefixOf (c :: rest)
      · rw [if_pos h]
        obtain ⟨hne, hpre⟩ := h
        rw [List.isPrefixOf_iff_prefix] at hpre
        obtain ⟨t, ht⟩ := hpre
        have hplen : 1 ≤ pat.length := by
          cases pat with
          | nil => simp [List.isEmpty] at hne
          | cons a l => simp
        have hdrop : (c :: rest).drop pat.length = t := by
          rw [← ht, List.drop_left]
        rw [hdrop]
        have htlen : t.length ≤ n := by
          have := congrArg List.length ht
          simp only [List.length_append, List.length_cons] at this hlen
          omega
        rw [ih t htlen, ht]
      · rw [if_neg h]
        rw [ih rest (by simp only [List.length_cons] at hlen; omega)]

theorem strReplace_self (s pat : Str) : strReplace s pat pat = s :=
  strReplace_selfAux pat s.length s (Nat.le_refl _)

theorem uniquify_id (pfx : Str) (taken : List Str) (s : Str)
    (h : s ∉ taken) : uniquify pfx taken s = s := by
  unfold uniquify
  rw [show uniquifyF pfx taken (taken.length + 1) s
      = if s ∈ taken then uniquifyF pfx taken taken.length (qual pfx s)
        else s from rfl]
  rw [if_neg h]

theorem chainFold_id (pfx : Str) :
    ∀ (sts pool : List Str) (T : Str), sts.Nodup →
    (∀ s ∈ sts, s ∉ pool) →
    sts.foldl
      (fun (p : List Str × Str) state =>
        let s := uniquify pfx p.1 state
        (p.1 ++ [s], strReplace p.2 state s))
      (pool, T)
      = (pool ++ sts, T) := by
  intro sts
  induction sts with
  | nil =>
    intro pool T _ _
    simp
  | cons s rest ih =>
    intro pool T hnd hdisj
    rw [List.foldl_cons]
    have hs : s ∉ pool := hdisj s (List.mem_cons_self s rest)
    show List.foldl
        (fun (p : List Str × Str) state =>
          let s := uniquify pfx p.1 state
          (p.1 ++ [s], strReplace p.2 state s))
        (pool ++ [uniquify pfx pool s], strReplace T s (uniquify pfx pool s))
        rest
      = (pool ++ s :: rest, T)
    rw [uniquify_id pfx pool s hs, strReplace_self T s]
    rw [ih (pool ++ [s]) T (List.Nodup.of_cons hnd) (by
      intro u hu hmem
      rcases List.mem_append.mp hmem with h | h
      · exact hdisj u (List.mem_cons_of_mem s hu) h
      · rw [List.mem_singleton] at h
        exact (List.nodup_cons.mp hnd).1 (h ▸ hu))]
    simp

theorem foldl_slInsert_append {κ : Type} [DecidableEq κ] :
    ∀ (l acc : List κ), ∃ r, l.foldl slInsert acc = acc ++ r := by
  intro l
  induction l with
  | nil =>
    intro acc
    exact ⟨[], by simp⟩
  | cons k l ih =>
    intro acc
    rw [List.foldl_cons]
    by_cases hk : k ∈ acc
    · rw [show slInsert acc k = acc from by unfold slInsert; rw [if_pos hk]]
      exact ih acc
    · rw [show slInsert acc k = acc ++ [k] from by
        unfold slInsert; rw [if_neg hk]]
      obtain ⟨r, hr⟩ := ih (acc ++ [k])
      exact ⟨[k] ++ r, by rw [hr]; simp⟩

theorem foldl_slInsert_nodup {κ : Type} [DecidableEq κ] :
    ∀ (l acc : List κ), acc.Nodup → (l.foldl slInsert acc).Nodup := by
  intro l
  induction l with
  | nil => exact fun acc h => h
  | cons k l ih =>
    intro acc h
    rw [List.foldl_cons]
    by_cases hk : k ∈ acc
    · rw [show slInsert acc k = acc from by unfold slInsert; rw [if_pos hk]]
      exact ih acc h
    · rw [show slInsert acc k = acc ++ [k] from by
        unfold slInsert; rw [if_neg hk]]
      refine ih (acc ++ [k]) ?_
      rw [List.nodup_append]
      refine ⟨h, List.nodup_singleton _, fun a ha hb => ?_⟩
      rw [List.mem_singleton] at hb
      exact hk (hb ▸ ha)

theorem mem_foldl_slInsert {κ : Type} [DecidableEq κ] :
    ∀ (l acc : List κ) (x : κ), x ∈ l.foldl slInsert acc →
    x ∈ acc ∨ x ∈ l := by
  intro l
  induction l with
  | nil =>
    intro acc x hx
    exact Or.inl hx
  | cons k l ih =>
    intro acc x hx
    rw [List.foldl_cons] at hx
    by_cases hk : k ∈ acc
    · rw [show slInsert acc k = acc from by
        unfold slInsert; rw [if_pos hk]] at hx
      rcases ih acc x hx with h | h
      · exact Or.inl h
      · exact Or.inr (List.mem_cons_of_mem k h)
    · rw [show slInsert acc k = acc ++ [k] from by
        unfold slInsert; rw [if_neg hk]] at hx
      rcases ih (acc ++ [k]) x hx with h | h
      · rcases List.mem_append.mp h with h | h
        · exact Or.inl h
        · rw [List.mem_singleton] at h
          exact Or.inr (h ▸ List.mem_cons_self k l)
      · exact Or.inr (List.mem_cons_of_mem k h)

theorem posOf?_append_right {α : Type} [DecidableEq α] (x : α) :
    ∀ (l1 l2 : List α), x ∉ l1 →
    posOf? x (l1 ++ l2) = (posOf? x l2).map (fun i => i + l1.length) := by
  intro l1
  induction l1 with
  | nil =>
    intro l2 _
    rw [List.nil_append]
    cases posOf? x l2 <;> simp
  | cons a l1 ih =>
    intro l2 h
    rw [List.cons_append]
    rw [show posOf? x (a :: (l1 ++ l2))
        = if a = x then some 0
          else (posOf? x (l1 ++ l2)).map (fun i => i + 1) from rfl]
    rw [if_neg (fun hc => h (List.mem_cons.mpr (Or.inl hc.symm)))]
    rw [ih l2 (fun hc => h (List.mem_cons_of_mem a hc))]
    cases posOf? x l2 with
    | none => rfl
    | some i =>
      simp only [Option.map_some', Option.map_map, List.length_cons]
      show some (i + l1.length + 1) = some (i + (l1.length + 1))
      congr 1

theorem procRows_success (mname : Str) (st2i sy2i : List (Str × Nat)) :
    ∀ (rows : List (List Str)) (m M : TMap),
    rows.foldlM (procRow mname st2i sy2i) m = some M →
    ∀ r ∈ rows, ∃ m0 m1, procRow mname st2i sy2i m0 r = some m1 := by
  intro rows
  induction rows with
  | nil =>
    intro m M _ r hr
    simp at hr
  | cons r0 rest ih =>
    intro m M h r hr
    rw [List.foldlM_cons] at h
    simp only [Option.bind_eq_bind] at h
    rcases Option.bind_eq_some.mp h with ⟨m1, h0, hrest⟩
    rcases List.mem_cons.mp hr with rfl | hr
    · exact ⟨m, m1, h0⟩
    · exact ih m1 M hrest r hr

theorem procRows_find (mname : Str) (st2i sy2i : List (Str × Nat))
    (p : Nat × Nat) :
    ∀ (rows : List (List Str)) (m M : TMap),
    rows.foldlM (procRow mname st2i sy2i) m = some M →
    alGet m p = none →
    alGet M p
      = match rows.find? (fun r => rowCovers mname st2i sy2i r p) with
        | some r => rowMove mname st2i sy2i r p
        | none => none := by
  intro rows
  induction rows with
  | nil =>
    intro m M h hnone
    simp only [List.foldlM_nil] at h
    injection h with h
    rw [List.find?_nil]
    exact h ▸ hnone
  | cons r rest ih =>
    intro m M h hnone
    rw [List.foldlM_cons] at h
    simp only [Option.bind_eq_bind] at h
    rcases Option.bind_eq_some.mp h with ⟨m1, h0, hrest⟩
    cases hc : rowCovers mname st2i sy2i r p with
    | true =>
      rw [List.find?_cons_of_pos rest hc]
      obtain ⟨hval, hsome⟩ :=
        (procRow_get mname st2i sy2i m m1 r p h0).2.1 hnone hc
      obtain ⟨v, hv⟩ := Option.isSome_iff_exists.mp hsome
      show alGet M p = rowMove mname st2i sy2i r p
      rw [hv]
      exact procRows_mono mname st2i sy2i p v rest m1 M hrest
        (by rw [hval, hv])
    | false =>
      rw [List.find?_cons_of_neg rest (by simp [hc])]
      exact ih m1 M hrest
        ((procRow_get mname st2i sy2i m m1 r p h0).2.2 hnone hc)

theorem find?_congr_mem {α : Type} (p q : α → Bool) :
    ∀ l : List α, (∀ x ∈ l, p x = q x) → l.find? p = l.find? q := by
  intro l
  induction l with
  | nil => intro _; rfl
  | cons a l ih =>
    intro h
    have ha := h a (List.mem_cons_self a l)
    cases hq : q a with
    | true =>
      rw [List.find?_cons_of_pos l (ha ▸ hq), List.find?_cons_of_pos l hq]
    | false =>
      rw [List.find?_cons_of_neg l (by simp [ha, hq]),
        List.find?_cons_of_neg l (by simp [hq])]
      exact ih (fun x hx => h x (List.mem_cons_of_mem a hx))

theorem find?_append_none {α : Type} (p : α → Bool) :
    ∀ l1 l2 : List α, l1.find? p = none →
    (l1 ++ l2).find? p = l2.find? p := by
  intro l1
  induction l1 with
  | nil => intro l2 _; rfl
  | cons a l1 ih =>
    intro l2 h
    rw [List.find?_cons] at h
    cases hp : p a with
    | true => rw [hp] at h; simp at h
    | false =>
      rw [hp] at h
      rw [List.cons_append, List.find?_cons_of_neg _ (by simp [hp])]
      exact ih l2 h

theorem find?_append_some {α : Type} (p : α → Bool) :
    ∀ (l1 l2 : List α) (x : α), l1.find? p = some x →
    (l1 ++ l2).find? p = some x := by
  intro l1
  induction l1 with
  | nil => intro l2 x h; simp at h
  | cons a l1 ih =>
    intro l2 x h
    rw [List.find?_cons] at h
    cases hp : p a with
    | true =>
      rw [hp] at h
      rw [List.cons_append, List.find?_cons_of_pos _ hp]
      exact h
    | false =>
      rw [hp] at h
      rw [List.cons_append, List.find?_cons_of_neg _ (by simp [hp])]
      exact ih l2 x h

theorem expandSel_one_inv (len : Nat) (lookup : Str → Option Nat) (x : Str)
    (sts : List Nat) (hx : splitOnceChar '-' x = none) (hne : ',' ∉ x)
    (hw : x ≠ s2l "*") (h : expandSel len lookup x = some sts) :
    ∃ i, lookup x = some i ∧ sts = [i] := by
  unfold expandSel at h
  rw [splitChar_not_mem ',' x hne, List.foldlM_cons] at h
  rw [expandPiece_plain len x lookup x hx hw] at h
  cases hv : lookup x with
  | none => rw [hv] at h; simp at h
  | some i =>
    rw [hv] at h
    simp only [Option.map_some', Option.pure_def, Option.bind_eq_bind,
      Option.some_bind, List.foldlM_nil, List.nil_append] at h
    injection h with h
    exact ⟨i, rfl, h.symm⟩

theorem chainText_of_disjoint (pfx : Str) (e1 e2 : Extracted)
    (hnd2 : e2.states.Nodup) (hdisj : ∀ s ∈ e2.states, s ∉ e1.states)
    (hinm : e2.init ∉ e1.states) :
    chainText pfx e1 e2
      = chainSerialize (e1.states ++ e2.states)
          (e2.syms.foldl slInsert e1.syms)
          (e2.finals.map
            (fun f => if strEndsWith (s2l "HALT") f then s2l "HALT" else f))
          e1.init
          (strReplace e1.table (s2l "HALT") e2.init)
          e2.table := by
  have hfold := chainFold_id pfx e2.states e1.states e2.table hnd2 hdisj
  show chainSerialize
      (e2.states.foldl
        (fun (p : List Str × Str) state =>
          let s := uniquify pfx p.1 state
          (p.1 ++ [s], strReplace p.2 state s))
        (e1.states, e2.table)).1
      (e2.syms.foldl slInsert e1.syms)
      (e2.finals.map
        (fun f => if strEndsWith (s2l "HALT") f then s2l "HALT" else f))
      e1.init
      (strReplace e1.table (s2l "HALT") (uniquify pfx e1.states e2.init))
      (e2.states.foldl
        (fun (p : List Str × Str) state =>
          let s := uniquify pfx p.1 state
          (p.1 ++ [s], strReplace p.2 state s))
        (e1.states, e2.table)).2
    = _
  rw [hfold, uniquify_id pfx e1.states e2.init hinm]

theorem last_not_ws_of_trimEnd (t : Str) (hne : t ≠ [])
    (h : trimEnd t = t) : isWsChar (t.getLast hne) = false := by
  by_contra hws
  rw [Bool.not_eq_false] at hws
  have hdecomp := List.dropLast_append_getLast hne
  have hdrop : trimEnd (t.dropLast ++ [t.getLast hne])
      = trimEnd t.dropLast := trimEnd_last_ws _ _ hws
  rw [hdecomp, h] at hdrop
  have hlen1 : (trimEnd t.dropLast).length ≤ t.dropLast.length := by
    unfold trimEnd
    rw [List.length_reverse]
    calc (t.dropLast.reverse.dropWhile isWsChar).length
        ≤ t.dropLast.reverse.length := (List.dropWhile_sublist _).length_le
      _ = t.dropLast.length := List.length_reverse _
  have hlen2 : t.dropLast.length = t.length - 1 := List.length_dropLast t
  have hpos : 1 ≤ t.length := by
    cases t with
    | nil => exact absurd rfl hne
    | cons a l => simp
  rw [← hdrop] at hlen1
  omega

theorem trimEnd_append_line (t1 t2 : Str) (hne : t2 ≠ [])
    (ht : trimEnd t2 = t2) :
    trimEnd (t1 ++ '\n' :: t2) = t1 ++ '\n' :: t2 := by
  have hlast : ('\n' :: t2).getLast? = some (t2.getLast hne) := by
    rw [show '\n' :: t2 = ['\n'] ++ t2 from rfl]
    rw [List.getLast?_append_of_ne_nil _ hne]
    exact List.getLast?_eq_getLast t2 hne
  have htr : trimEnd ('\n' :: t2) = '\n' :: t2 :=
    trimEnd_id_of_last _ _ hlast (last_not_ws_of_trimEnd t2 hne ht)
  rw [trimEnd_append t1 ('\n' :: t2), htr]
  rw [if_neg (by simp)]

theorem extract_chain (pfx : Str) (e1 e2 : Extracted)
    (hst1 : ∀ t ∈ e1.states, tokOk t = true)
    (hst2 : ∀ t ∈ e2.states, tokOk t = true)
    (hsy1 : ∀ t ∈ e1.syms, tokOk t = true)
    (hsy2 : ∀ t ∈ e2.syms, tokOk t = true)
    (hfin2 : ∀ t ∈ e2.finals, tokOk t = true)
    (hini1 : tokOk e1.init = true) (hini2 : tokOk e2.init = true)
    (hnd2 : e2.states.Nodup) (hdisj : ∀ s ∈ e2.states, s ∉ e1.states)
    (hinm : e2.init ∉ e1.states)
    (hTh1 : '#' ∉ e1.table) (hTr1 : '\r' ∉ e1.table)
    (hTh2 : '#' ∉ e2.table) (hTr2 : '\r' ∉ e2.table)
    (h2ne : e2.table ≠ []) (htrim2 : trimEnd e2.table = e2.table) :
    extractTokens (chainText pfx e1 e2)
      = some ⟨e1.states ++ e2.states,
          e2.syms.foldl slInsert e1.syms,
          (e2.finals.map
            (fun f => if strEndsWith (s2l "HALT") f then s2l "HALT"
              else f)).foldl slInsert [],
          e1.init,
          strReplace e1.table (s2l "HALT") e2.init ++ '\n' :: e2.table⟩ := by
  have hT1c : ∀ c : Char, c = '#' ∨ c = '\r' →
      c ∉ strReplace e1.table (s2l "HALT") e2.init := by
    intro c hc h
    rcases strReplace_mem_sub (s2l "HALT") e2.init e1.table c h with h | h
    · rcases hc with rfl | rfl
      · exact hTh1 h
      · exact hTr1 h
    · rcases hc with rfl | rfl
      · exact tokOk_no_hash hini2 h
      · have := tokOk_no_ws hini2 _ h
        simp [isWsChar] at this
  rw [chainText_of_disjoint pfx e1 e2 hnd2 hdisj hinm]
  rw [show chainSerialize (e1.states ++ e2.states)
        (e2.syms.foldl slInsert e1.syms)
        (e2.finals.map
          (fun f => if strEndsWith (s2l "HALT") f then s2l "HALT" else f))
        e1.init
        (strReplace e1.table (s2l "HALT") e2.init)
        e2.table
      = s2l "states " ++ joinSep ' ' (e1.states ++ e2.states) ++ '\n' ::
        (s2l "syms " ++ joinSep ' ' (e2.syms.foldl slInsert e1.syms)
          ++ '\n' ::
        (s2l "initstate " ++ e1.init ++ '\n' ::
        (s2l "finalstates " ++ joinSep ' '
            (e2.finals.map
              (fun f => if strEndsWith (s2l "HALT") f then s2l "HALT"
                else f)) ++ '\n' ::
        (s2l "table" ++ '\n' ::
          (strReplace e1.table (s2l "HALT") e2.init ++ '\n' :: e2.table)))))
    from rfl]
  rw [extract_serializeDef _ _ _ _ _
    (by
      intro t ht
      rcases List.mem_append.mp ht with ht | ht
      · exact hst1 t ht
      · exact hst2 t ht)
    (by
      intro t ht
      rcases mem_foldl_slInsert e2.syms e1.syms t ht with h | h
      · exact hsy1 t h
      · exact hsy2 t h)
    (by
      intro t ht
      rcases List.mem_map.mp ht with ⟨f, hf, hft⟩
      by_cases hh : strEndsWith (s2l "HALT") f = true
      · rw [if_pos hh] at hft
        rw [← hft]
        decide
      · rw [if_neg hh] at hft
        rw [← hft]
        exact hfin2 f hf)
    hini1
    (by
      intro h
      rcases List.mem_append.mp h with h | h
      · exact hT1c '#' (Or.inl rfl) h
      · rcases List.mem_cons.mp h with h | h
        · exact absurd h.symm (by decide)
        · exact hTh2 h)
    (by
      intro h
      rcases List.mem_append.mp h with h | h
      · exact hT1c '\r' (Or.inr rfl) h
      · rcases List.mem_cons.mp h with h | h
        · exact absurd h.symm (by decide)
        · exact hTr2 h)]
  rw [trimEnd_append_line _ _ h2ne htrim2]

/-- The row shapes for which `chain`'s textual `HALT` redirect is
token-faithful: plain (comma-, range- and wildcard-free) state selector
that is not `HALT`, a plain or wildcard symbol selector, and no `HALT`
token in the symbol, write or direction columns. -/
def c2RowOk (row : List Str) : Bool :=
  match row with
  | [t0, t1, _, t3, t4] =>
    decide (',' ∉ t0) && decide ('-' ∉ t0) && decide (t0 ≠ s2l "*") &&
    decide (t0 ≠ s2l "HALT") &&
    decide (',' ∉ t1) && decide ('-' ∉ t1) && decide (t1 ≠ s2l "HALT") &&
    decide (t3 ≠ s2l "HALT") && decide (t4 ≠ s2l "HALT")
  | _ => false

/-- The composed machine's redirect of a move of the first machine: a
transition into `HALT` (index 0) goes to the second machine's renamed
initial state instead; every other move is unchanged. -/
def c2redir (kB : Nat) (mv : Move) : Move :=
  if mv.ns = 0 then ⟨kB, mv.w, mv.d⟩ else mv

theorem c2_row_corr
    (mnameA mnameC : Str) (st2iA st2iC sy2iA sy2iC : List (Str × Nat))
    (e2init : Str) (kB : Nat)
    (hstpres : ∀ k i, alGet st2iA (qual mnameA k) = some i →
      alGet st2iC (qual mnameC k) = some i)
    (hsypres : ∀ k y, alGet sy2iA k = some y → alGet sy2iC k = some y)
    (hlen : sy2iA.length ≤ sy2iC.length)
    (hkB : alGet st2iC (qual mnameC e2init) = some kB)
    (hHA : alGet st2iA (qual mnameA (s2l "HALT")) = some 0)
    (hA1 : ∀ k i, alGet st2iA (qual mnameA k) = some i →
      k ≠ s2l "HALT" → 1 ≤ i)
    (hinidot : strEndsWith (s2l ".") e2init = false)
    (r : List Str) (hok : c2RowOk r = true)
    (m0 m1 : TMap) (hsucc : procRow mnameA st2iA sy2iA m0 r = some m1)
    (p : Nat × Nat) (hp1 : 1 ≤ p.1) (hσ : p.2 < sy2iA.length) :
    rowCovers mnameC st2iC sy2iC
        (r.map (fun t => if t = s2l "HALT" then e2init else t)) p
      = rowCovers mnameA st2iA sy2iA r p ∧
    (rowCovers mnameA st2iA sy2iA r p = true →
      rowMove mnameC st2iC sy2iC
          (r.map (fun t => if t = s2l "HALT" then e2init else t)) p
        = (rowMove mnameA st2iA sy2iA r p).map (c2redir kB)) := by
  match r with
  | [] | [_] | [_, _] | [_, _, _] | [_, _, _, _]
  | _ :: _ :: _ :: _ :: _ :: _ :: _ => simp [c2RowOk] at hok
  | [t0, t1, t2, t3, t4] =>
    simp only [c2RowOk, Bool.and_eq_true, decide_eq_true_eq] at hok
    obtain ⟨⟨⟨⟨⟨⟨⟨⟨h0c, h0h⟩, h0w⟩, h0H⟩, h1c⟩, h1h⟩, h1H⟩, h3H⟩, h4H⟩ := hok
    simp only [procRow, Option.pure_def, Option.bind_eq_bind,
      Option.bind_eq_some] at hsucc
    obtain ⟨sts, hstsA, sys, hsysA, nso, hnsoA, wso, hwsoA, -⟩ := hsucc
    obtain ⟨i0, hlook0, rfl⟩ := expandSel_one_inv st2iA.length _ t0 sts
      (splitOnceChar_none '-' t0 h0h) h0c h0w hstsA
    have hselC0 : expandSel st2iC.length
        (fun s => alGet st2iC (qual mnameC s)) t0 = some [i0] :=
      expandSel_one _ _ t0 (splitOnceChar_none '-' t0 h0h) h0c h0w i0
        (hstpres t0 i0 hlook0)
    have hmap : [t0, t1, t2, t3, t4].map
        (fun t => if t = s2l "HALT" then e2init else t)
        = [t0, t1, (if t2 = s2l "HALT" then e2init else t2), t3, t4] := by
      simp only [List.map_cons, List.map_nil]
      rw [if_neg h0H, if_neg h1H, if_neg h3H, if_neg h4H]
    rw [hmap]
    have hwsoC : wsoOf sy2iC t3 = some wso := by
      unfold wsoOf at hwsoA ⊢
      by_cases h3d : strEndsWith (s2l ".") t3 = true
      · rw [if_pos h3d] at hwsoA ⊢
        exact hwsoA
      · rw [if_neg h3d] at hwsoA ⊢
        rcases Option.map_eq_some'.mp hwsoA with ⟨y3, hy3, rfl⟩
        rw [hsypres t3 y3 hy3]
        rfl
    have hcov : rowCovers mnameC st2iC sy2iC
        [t0, t1, (if t2 = s2l "HALT" then e2init else t2), t3, t4] p
        = rowCovers mnameA st2iA sy2iA [t0, t1, t2, t3, t4] p := by
      by_cases h1w : t1 = s2l "*"
      · subst h1w
        rw [expandSel_wild] at hsysA
        injection hsysA with hsysA
        subst hsysA
        simp only [rowCovers, hselC0, hstsA, expandSel_wild]
        have hmA : p.2 ∈ List.range sy2iA.length := List.mem_range.mpr hσ
        have hmC : p.2 ∈ List.range sy2iC.length :=
          List.mem_range.mpr (Nat.lt_of_lt_of_le hσ hlen)
        rw [decide_eq_true hmA, decide_eq_true hmC]
      · obtain ⟨y1, hlook1, rfl⟩ := expandSel_one_inv sy2iA.length _ t1 sys
          (splitOnceChar_none '-' t1 h1h) h1c h1w hsysA
        have hselC1 : expandSel sy2iC.length (fun s => alGet sy2iC s) t1
            = some [y1] :=
          expandSel_one _ _ t1 (splitOnceChar_none '-' t1 h1h) h1c h1w y1
            (hsypres t1 y1 hlook1)
        simp only [rowCovers, hselC0, hstsA, hsysA, hselC1]
    refine ⟨hcov, fun _ => ?_⟩
    by_cases ht2 : t2 = s2l "HALT"
    · subst ht2
      have hite : (if s2l "HALT" = s2l "HALT" then e2init else s2l "HALT")
          = e2init := by simp
      rw [hite]
      unfold nsoOf at hnsoA
      rw [if_neg (by decide), hHA] at hnsoA
      injection hnsoA with hnsoA
      have hnsoA' : nsoOf mnameA st2iA (s2l "HALT") = some nso := by
        unfold nsoOf
        rw [if_neg (by decide), hHA, ← hnsoA]
        rfl
      have hnsoC : nsoOf mnameC st2iC e2init = some (some kB) := by
        unfold nsoOf
        rw [hinidot, hkB]
        rfl
      have hrmA : rowMove mnameA st2iA sy2iA [t0, t1, s2l "HALT", t3, t4] p
          = some ⟨nso.getD p.1, wso.getD p.2, dirFromStr t4⟩ := by
        simp only [rowMove, Option.pure_def, Option.bind_eq_bind, hnsoA',
          hwsoA, Option.some_bind]
      have hrmC : rowMove mnameC st2iC sy2iC [t0, t1, e2init, t3, t4] p
          = some ⟨(some kB).getD p.1, wso.getD p.2, dirFromStr t4⟩ := by
        simp only [rowMove, Option.pure_def, Option.bind_eq_bind, hnsoC,
          hwsoC, Option.some_bind]
      rw [hrmA, hrmC, Option.map_some', ← hnsoA]
      rfl
    · rw [if_neg ht2]
      unfold nsoOf at hnsoA
      by_cases h2d : strEndsWith (s2l ".") t2 = true
      · rw [if_pos h2d] at hnsoA
        injection hnsoA with hnsoA
        have hnsoA' : nsoOf mnameA st2iA t2 = some none := by
          unfold nsoOf
          rw [if_pos h2d]
          rfl
        have hnsoC : nsoOf mnameC st2iC t2 = some none := by
          unfold nsoOf
          rw [if_pos h2d]
          rfl
        have hrmA : rowMove mnameA st2iA sy2iA [t0, t1, t2, t3, t4] p
            = some ⟨(none : Option Nat).getD p.1, wso.getD p.2,
                dirFromStr t4⟩ := by
          simp only [rowMove, Option.pure_def, Option.bind_eq_bind, hnsoA',
            hwsoA, Option.some_bind]
        have hrmC : rowMove mnameC st2iC sy2iC [t0, t1, t2, t3, t4] p
            = some ⟨(none : Option Nat).getD p.1, wso.getD p.2,
                dirFromStr t4⟩ := by
          simp only [rowMove, Option.pure_def, Option.bind_eq_bind, hnsoC,
            hwsoC, Option.some_bind]
        rw [hrmA, hrmC, Option.map_some']
        simp only [c2redir, Option.getD_none]
        rw [if_neg (by omega)]
      · rw [if_neg h2d] at hnsoA
        rcases Option.map_eq_some'.mp hnsoA with ⟨i2, hi2, rfl⟩
        have hnsoA' : nsoOf mnameA st2iA t2 = some (some i2) := by
          unfold nsoOf
          rw [if_neg h2d, hi2]
          rfl
        have hnsoC : nsoOf mnameC st2iC t2 = some (some i2) := by
          unfold nsoOf
          rw [if_neg h2d, hstpres t2 i2 hi2]
          rfl
        have hrmA : rowMove mnameA st2iA sy2iA [t0, t1, t2, t3, t4] p
            = some ⟨(some i2).getD p.1, wso.getD p.2, dirFromStr t4⟩ := by
          simp only [rowMove, Option.pure_def, Option.bind_eq_bind, hnsoA',
            hwsoA, Option.some_bind]
        have hrmC : rowMove mnameC st2iC sy2iC [t0, t1, t2, t3, t4] p
            = some ⟨(some i2).getD p.1, wso.getD p.2, dirFromStr t4⟩ := by
          simp only [rowMove, Option.pure_def, Option.bind_eq_bind, hnsoC,
            hwsoC, Option.some_bind]
        rw [hrmA, hrmC, Option.map_some']
        simp only [c2redir, Option.getD_some]
        have hi2pos := hA1 t2 i2 hi2 ht2
        rw [if_neg (by omega)]

theorem st2i_pres (mnameA mnameC : Str) (sts1 sts2 : List Str)
    (hnd1 : sts1.Nodup) (hnd2 : sts2.Nodup)
    (hdisj : ∀ s ∈ sts2, s ∉ sts1)
    (hH1 : s2l "HALT" ∉ sts1) (hH2 : s2l "HALT" ∉ sts2)
    (k : Str) (i : Nat)
    (h : alGet (buildState2idx mnameA sts1) (qual mnameA k) = some i) :
    alGet (buildState2idx mnameC (sts1 ++ sts2)) (qual mnameC k)
      = some i := by
  have hndC : (sts1 ++ sts2).Nodup := by
    rw [List.nodup_append]
    exact ⟨hnd1, hnd2, fun a ha hb => hdisj a hb ha⟩
  have hHC : s2l "HALT" ∉ sts1 ++ sts2 := by
    intro h'
    rcases List.mem_append.mp h' with h' | h'
    exacts [hH1 h', hH2 h']
  rw [alGet_buildState2idx mnameA sts1 hnd1 hH1] at h
  rw [alGet_buildState2idx mnameC _ hndC hHC]
  by_cases hk : k = s2l "HALT"
  · rw [if_pos hk] at h ⊢
    exact h
  · rw [if_neg hk] at h ⊢
    rcases Option.map_eq_some'.mp h with ⟨i0, hi0, rfl⟩
    rw [posOf?_append_left k sts1 sts2 i0 hi0]
    rfl

theorem st2i_pos (mnameA : Str) (sts1 : List Str)
    (hnd1 : sts1.Nodup) (hH1 : s2l "HALT" ∉ sts1) (k : Str) (i : Nat)
    (h : alGet (buildState2idx mnameA sts1) (qual mnameA k) = some i)
    (hk : k ≠ s2l "HALT") : 1 ≤ i := by
  rw [alGet_buildState2idx mnameA sts1 hnd1 hH1, if_neg hk] at h
  rcases Option.map_eq_some'.mp h with ⟨i0, -, rfl⟩
  omega

theorem sy2i_pres (sy1 sy2 : List Str)
    (hnd1 : sy1.Nodup) (hbl1 : s2l "_" ∉ sy1) (hbl2 : s2l "_" ∉ sy2)
    (k : Str) (y : Nat)
    (h : alGet (buildSym2idx sy1) k = some y) :
    alGet (buildSym2idx (sy2.foldl slInsert sy1)) k = some y := by
  obtain ⟨r, hr⟩ := foldl_slInsert_append sy2 sy1
  have hndC : (sy2.foldl slInsert sy1).Nodup :=
    foldl_slInsert_nodup sy2 sy1 hnd1
  have hblC : s2l "_" ∉ sy2.foldl slInsert sy1 := by
    intro h'
    rcases mem_foldl_slInsert sy2 sy1 _ h' with h' | h'
    exacts [hbl1 h', hbl2 h']
  rw [alGet_buildSym2idx sy1 hnd1 hbl1] at h
  rw [alGet_buildSym2idx _ hndC hblC]
  by_cases hk : k = s2l "_"
  · rw [if_pos hk] at h ⊢
    exact h
  · rw [if_neg hk] at h ⊢
    rcases Option.map_eq_some'.mp h with ⟨i0, hi0, rfl⟩
    rw [hr, posOf?_append_left k sy1 r i0 hi0]
    rfl

theorem sy2i_len_le (sy1 sy2 : List Str)
    (hnd1 : sy1.Nodup) (hbl1 : s2l "_" ∉ sy1) (hbl2 : s2l "_" ∉ sy2) :
    (buildSym2idx sy1).length
      ≤ (buildSym2idx (sy2.foldl slInsert sy1)).length := by
  obtain ⟨r, hr⟩ := foldl_slInsert_append sy2 sy1
  have hndC : (sy2.foldl slInsert sy1).Nodup :=
    foldl_slInsert_nodup sy2 sy1 hnd1
  have hblC : s2l "_" ∉ sy2.foldl slInsert sy1 := by
    intro h'
    rcases mem_foldl_slInsert sy2 sy1 _ h' with h' | h'
    exacts [hbl1 h', hbl2 h']
  rw [buildSym2idx_eq sy1 hnd1 hbl1, buildSym2idx_eq _ hndC hblC, hr]
  simp

theorem sy2i_len_eq (sy1 : List Str)
    (hnd1 : sy1.Nodup) (hbl1 : s2l "_" ∉ sy1) :
    (buildSym2idx sy1).length = sy1.length + 1 := by
  rw [buildSym2idx_eq sy1 hnd1 hbl1]
  simp

/-- C2 (amended): under disjoint state pools and the cleanliness
hypotheses below, the machine produced by `chain` simulates the first
machine step for step - same tape, same head, same state indices - for
as long as the first machine's standalone run stays in its own states,
and when the standalone run takes an explicit transition *into `HALT`*,
the composed machine takes the same write and the same head move but
lands in the second machine's initial state (index
`j + |e1.states| + 1`).  This corrects the claim in one essential way:
the handoff happens only on an explicit `HALT` transition.  A run of the
first machine that halts by simply having no matching rule halts the
composed machine identically, in a first-machine state - the second
machine is never entered (see the counterexample). -/
theorem c2_chain (mnameA mnameC pfx : Str) (e1 e2 : Extracted)
    (RA RC : Rules) (j : Nat) (c0 : Config)
    (hRA : parseRules mnameA e1 = some RA)
    (hRC : parseFile mnameC (chainText pfx e1 e2) = some RC)
    (hst1 : ∀ t ∈ e1.states, tokOk t = true)
    (hst2 : ∀ t ∈ e2.states, tokOk t = true)
    (hsy1 : ∀ t ∈ e1.syms, tokOk t = true)
    (hsy2 : ∀ t ∈ e2.syms, tokOk t = true)
    (hfin2 : ∀ t ∈ e2.finals, tokOk t = true)
    (hini1 : tokOk e1.init = true) (hini2 : tokOk e2.init = true)
    (hnd1 : e1.states.Nodup) (hnd2 : e2.states.Nodup)
    (hdisj : ∀ s ∈ e2.states, s ∉ e1.states)
    (hH1 : s2l "HALT" ∉ e1.states) (hH2 : s2l "HALT" ∉ e2.states)
    (hndsy1 : e1.syms.Nodup) (hbl1 : s2l "_" ∉ e1.syms)
    (hbl2 : s2l "_" ∉ e2.syms)
    (hj : posOf? e2.init e2.states = some j)
    (hinidot2 : strEndsWith (s2l ".") e2.init = false)
    (hTh1 : '#' ∉ e1.table) (hTr1 : '\r' ∉ e1.table)
    (hTh2 : '#' ∉ e2.table) (hTr2 : '\r' ∉ e2.table)
    (h2ne : e2.table ≠ []) (htrim2 : trimEnd e2.table = e2.table)
    (hrn : tableRows (strReplace e1.table (s2l "HALT") e2.init)
      = (tableRows e1.table).map
          (List.map (fun t => if t = s2l "HALT" then e2.init else t)))
    (hrok : ∀ r ∈ tableRows e1.table, c2RowOk r = true)
    (hBrows : ∀ r ∈ tableRows e2.table, ∀ s : Nat,
      s < e1.states.length + 1 →
      rowCoversState mnameC
        (buildState2idx mnameC (e1.states ++ e2.states)) r s = false) :
    (∀ t c, runN RA c0 t = some c →
      (∀ i ci, i ≤ t → runN RA c0 i = some ci →
        1 ≤ ci.state ∧ ci.state ≤ e1.states.length ∧
        ci.tape ci.pointer ≤ e1.syms.length) →
      runN RC c0 t = some c) ∧
    (∀ t c c', runN RA c0 t = some c →
      (∀ i ci, i ≤ t → runN RA c0 i = some ci →
        1 ≤ ci.state ∧ ci.state ≤ e1.states.length ∧
        ci.tape ci.pointer ≤ e1.syms.length) →
      stepOpt RA c = some c' → c'.state = 0 →
      runN RC c0 (t + 1)
        = some ⟨c'.tape, j + e1.states.length + 1, c'.pointer⟩) := by
  have hini2mem : e2.init ∈ e2.states :=
    posOf?_mem.mp (by rw [hj]; rfl)
  have hinm : e2.init ∉ e1.states := hdisj e2.init hini2mem
  have hini2neH : e2.init ≠ s2l "HALT" := fun hc => hH2 (hc ▸ hini2mem)
  unfold parseFile at hRC
  rw [extract_chain pfx e1 e2 hst1 hst2 hsy1 hsy2 hfin2 hini1 hini2 hnd2
    hdisj hinm hTh1 hTr1 hTh2 hTr2 h2ne htrim2] at hRC
  rw [Option.some_bind] at hRC
  obtain ⟨-, -, -, -, htmA⟩ := parseRules_inv mnameA e1 RA hRA
  obtain ⟨-, -, -, -, htmC0⟩ := parseRules_inv mnameC _ RC hRC
  have hndC : (e1.states ++ e2.states).Nodup := by
    rw [List.nodup_append]
    exact ⟨hnd1, hnd2, fun a ha hb => hdisj a hb ha⟩
  have hHC : s2l "HALT" ∉ e1.states ++ e2.states := by
    intro h'
    rcases List.mem_append.mp h' with h' | h'
    exacts [hH1 h', hH2 h']
  have hT1r : '\r' ∉ strReplace e1.table (s2l "HALT") e2.init := by
    intro h
    rcases strReplace_mem_sub (s2l "HALT") e2.init e1.table '\r' h with h | h
    · exact hTr1 h
    · have := tokOk_no_ws hini2 _ h
      simp [isWsChar] at this
  have htmC : ((tableRows e1.table).map
        (List.map (fun t => if t = s2l "HALT" then e2.init else t))
      ++ tableRows e2.table).foldlM
        (procRow mnameC
          (buildState2idx mnameC (e1.states ++ e2.states))
          (buildSym2idx (e2.syms.foldl slInsert e1.syms))) []
      = some RC.transitionMap := by
    rw [← hrn, ← tableRows_append_nl _ _ hT1r]
    exact htmC0
  have hstpres : ∀ k i,
      alGet (buildState2idx mnameA e1.states) (qual mnameA k) = some i →
      alGet (buildState2idx mnameC (e1.states ++ e2.states))
        (qual mnameC k) = some i :=
    fun k i h =>
      st2i_pres mnameA mnameC e1.states e2.states hnd1 hnd2 hdisj hH1 hH2
        k i h
  have hsypres : ∀ k y, alGet (buildSym2idx e1.syms) k = some y →
      alGet (buildSym2idx (e2.syms.foldl slInsert e1.syms)) k = some y :=
    fun k y h => sy2i_pres e1.syms e2.syms hndsy1 hbl1 hbl2 k y h
  have hlen : (buildSym2idx e1.syms).length
      ≤ (buildSym2idx (e2.syms.foldl slInsert e1.syms)).length :=
    sy2i_len_le e1.syms e2.syms hndsy1 hbl1 hbl2
  have hkB : alGet (buildState2idx mnameC (e1.states ++ e2.states))
      (qual mnameC e2.init) = some (j + e1.states.length + 1) := by
    rw [alGet_buildState2idx mnameC _ hndC hHC, if_neg hini2neH]
    rw [posOf?_append_right e2.init e1.states e2.states hinm, hj]
    rfl
  have hHA : alGet (buildState2idx mnameA e1.states)
      (qual mnameA (s2l "HALT")) = some 0 := by
    rw [alGet_buildState2idx mnameA _ hnd1 hH1, if_pos rfl]
  have hA1 : ∀ k i,
      alGet (buildState2idx mnameA e1.states) (qual mnameA k) = some i →
      k ≠ s2l "HALT" → 1 ≤ i :=
    fun k i h hk => st2i_pos mnameA e1.states hnd1 hH1 k i h hk
  have hmove : ∀ s σ, 1 ≤ s → s ≤ e1.states.length →
      σ ≤ e1.syms.length →
      getMove RC s σ
        = (getMove RA s σ).map (c2redir (j + e1.states.length + 1)) := by
    intro s σ hs1 hs2 hσ
    have hσ' : σ < (buildSym2idx e1.syms).length := by
      rw [sy2i_len_eq e1.syms hndsy1 hbl1]
      omega
    have hcorr : ∀ r ∈ tableRows e1.table,
        rowCovers mnameC (buildState2idx mnameC (e1.states ++ e2.states))
            (buildSym2idx (e2.syms.foldl slInsert e1.syms))
            (r.map (fun t => if t = s2l "HALT" then e2.init else t)) (s, σ)
          = rowCovers mnameA (buildState2idx mnameA e1.states)
              (buildSym2idx e1.syms) r (s, σ) ∧
        (rowCovers mnameA (buildState2idx mnameA e1.states)
            (buildSym2idx e1.syms) r (s, σ) = true →
          rowMove mnameC (buildState2idx mnameC (e1.states ++ e2.states))
              (buildSym2idx (e2.syms.foldl slInsert e1.syms))
              (r.map (fun t => if t = s2l "HALT" then e2.init else t))
              (s, σ)
            = (rowMove mnameA (buildState2idx mnameA e1.states)
                (buildSym2idx e1.syms) r (s, σ)).map
                (c2redir (j + e1.states.length + 1))) := by
      intro r hr
      obtain ⟨m0, m1, hm⟩ := procRows_success mnameA _ _
        (tableRows e1.table) [] RA.transitionMap htmA r hr
      exact c2_row_corr mnameA mnameC _ _ _ _ e2.init
        (j + e1.states.length + 1) hstpres hsypres hlen hkB hHA hA1
        hinidot2 r (hrok r hr) m0 m1 hm (s, σ) hs1 hσ'
    have hA := procRows_find mnameA (buildState2idx mnameA e1.states)
      (buildSym2idx e1.syms) (s, σ) (tableRows e1.table) []
      RA.transitionMap htmA (alGet_nil _)
    have hC := procRows_find mnameC
      (buildState2idx mnameC (e1.states ++ e2.states))
      (buildSym2idx (e2.syms.foldl slInsert e1.syms)) (s, σ)
      ((tableRows e1.table).map
        (List.map (fun t => if t = s2l "HALT" then e2.init else t))
        ++ tableRows e2.table) [] RC.transitionMap htmC (alGet_nil _)
    have hfmap : ((tableRows e1.table).map
          (List.map (fun t => if t = s2l "HALT" then e2.init else t))).find?
          (fun r => rowCovers mnameC
            (buildState2idx mnameC (e1.states ++ e2.states))
            (buildSym2idx (e2.syms.foldl slInsert e1.syms)) r (s, σ))
        = ((tableRows e1.table).find?
            (fun r => rowCovers mnameA (buildState2idx mnameA e1.states)
              (buildSym2idx e1.syms) r (s, σ))).map
            (List.map (fun t => if t = s2l "HALT" then e2.init else t)) := by
      rw [List.find?_map]
      congr 1
      exact find?_congr_mem _ _ (tableRows e1.table)
        (fun r hr => (hcorr r hr).1)
    cases hfa : (tableRows e1.table).find?
        (fun r => rowCovers mnameA (buildState2idx mnameA e1.states)
          (buildSym2idx e1.syms) r (s, σ)) with
    | some r =>
      have hrmem := List.mem_of_find?_eq_some hfa
      have hrc0 := List.find?_some hfa
      have hrc : rowCovers mnameA (buildState2idx mnameA e1.states)
          (buildSym2idx e1.syms) r (s, σ) = true := hrc0
      have hCfind := find?_append_some
        (fun r => rowCovers mnameC
          (buildState2idx mnameC (e1.states ++ e2.states))
          (buildSym2idx (e2.syms.foldl slInsert e1.syms)) r (s, σ))
        ((tableRows e1.table).map
          (List.map (fun t => if t = s2l "HALT" then e2.init else t)))
        (tableRows e2.table)
        (r.map (fun t => if t = s2l "HALT" then e2.init else t))
        (by rw [hfmap, hfa]; rfl)
      have hCv : alGet RC.transitionMap (s, σ)
          = rowMove mnameC (buildState2idx mnameC (e1.states ++ e2.states))
              (buildSym2idx (e2.syms.foldl slInsert e1.syms))
              (r.map (fun t => if t = s2l "HALT" then e2.init else t))
              (s, σ) := by
        rw [hC, hCfind]
      have hAv : alGet RA.transitionMap (s, σ)
          = rowMove mnameA (buildState2idx mnameA e1.states)
              (buildSym2idx e1.syms) r (s, σ) := by
        rw [hA, hfa]
      show alGet RC.transitionMap (s, σ)
        = (alGet RA.transitionMap (s, σ)).map
            (c2redir (j + e1.states.length + 1))
      rw [hCv, hAv]
      exact (hcorr r hrmem).2 hrc
    | none =>
      have hCfind1 : ((tableRows e1.table).map
          (List.map (fun t => if t = s2l "HALT" then e2.init else t))).find?
          (fun r => rowCovers mnameC
            (buildState2idx mnameC (e1.states ++ e2.states))
            (buildSym2idx (e2.syms.foldl slInsert e1.syms)) r (s, σ))
          = none := by
        rw [hfmap, hfa]
        rfl
      have hCfind2 : (tableRows e2.table).find?
          (fun r => rowCovers mnameC
            (buildState2idx mnameC (e1.states ++ e2.states))
            (buildSym2idx (e2.syms.foldl slInsert e1.syms)) r (s, σ))
          = none := by
        rw [List.find?_eq_none]
        intro r2 hr2
        have := rowCovers_of_state mnameC
          (buildState2idx mnameC (e1.states ++ e2.states))
          (buildSym2idx (e2.syms.foldl slInsert e1.syms)) r2 s σ
          (hBrows r2 hr2 s (by omega))
        simp [this]
      have hCfind := find?_append_none
        (fun r => rowCovers mnameC
          (buildState2idx mnameC (e1.states ++ e2.states))
          (buildSym2idx (e2.syms.foldl slInsert e1.syms)) r (s, σ))
        ((tableRows e1.table).map
          (List.map (fun t => if t = s2l "HALT" then e2.init else t)))
        (tableRows e2.table) hCfind1
      show alGet RC.transitionMap (s, σ)
        = (alGet RA.transitionMap (s, σ)).map
            (c2redir (j + e1.states.length + 1))
      rw [hC, hCfind, hCfind2, hA, hfa]
      rfl
  have hsim : ∀ t c, runN RA c0 t = some c →
      (∀ i ci, i ≤ t → runN RA c0 i = some ci →
        1 ≤ ci.state ∧ ci.state ≤ e1.states.length ∧
        ci.tape ci.pointer ≤ e1.syms.length) →
      runN RC c0 t = some c := by
    intro t
    induction t with
    | zero =>
      intro c hrun _
      exact hrun
    | succ t ih =>
      intro c hrun hg
      rw [show runN RA c0 (t + 1) = (runN RA c0 t).bind (stepOpt RA)
        from rfl] at hrun
      rcases Option.bind_eq_some.mp hrun with ⟨ct, hct, hstep⟩
      have hC := ih ct hct
        (fun i ci hi h => hg i ci (Nat.le_succ_of_le hi) h)
      obtain ⟨h1t, h2t, h3t⟩ := hg t ct (Nat.le_succ t) hct
      have hmv := hmove ct.state (ct.tape ct.pointer) h1t h2t h3t
      rw [show runN RC c0 (t + 1) = (runN RC c0 t).bind (stepOpt RC)
        from rfl, hC, Option.some_bind]
      unfold stepOpt at hstep ⊢
      rw [hmv]
      rcases Option.map_eq_some'.mp hstep with ⟨mv, hmv0, rfl⟩
      rw [hmv0]
      simp only [Option.map_some']
      have hns : mv.ns ≠ 0 := by
        have hg1 := hg (t + 1) (applyMove ct mv) (Nat.le_refl _) (by
          rw [show runN RA c0 (t + 1) = (runN RA c0 t).bind (stepOpt RA)
            from rfl, hct, Option.some_bind]
          unfold stepOpt
          rw [hmv0]
          rfl)
        have h1 := hg1.1
        show ¬ mv.ns = 0
        have : (applyMove ct mv).state = mv.ns := rfl
        omega
      have hred : c2redir (j + e1.states.length + 1) mv = mv := by
        unfold c2redir
        rw [if_neg hns]
      rw [hred]
  refine ⟨hsim, ?_⟩
  intro t c c' hrun hg hstep hstate
  have hC := hsim t c hrun hg
  obtain ⟨h1t, h2t, h3t⟩ := hg t c (Nat.le_refl t) hrun
  have hmv := hmove c.state (c.tape c.pointer) h1t h2t h3t
  rw [show runN RC c0 (t + 1) = (runN RC c0 t).bind (stepOpt RC)
    from rfl, hC, Option.some_bind]
  unfold stepOpt at hstep ⊢
  rw [hmv]
  rcases Option.map_eq_some'.mp hstep with ⟨mv, hmv0, hc'⟩
  rw [hmv0]
  simp only [Option.map_some']
  have hns0 : mv.ns = 0 := by
    have : (applyMove c mv).state = mv.ns := rfl
    rw [← hc'] at hstate
    rw [← this]
    exact hstate
  have hred : c2redir (j + e1.states.length + 1) mv
      = ⟨j + e1.states.length + 1, mv.w, mv.d⟩ := by
    unfold c2redir
    rw [if_pos hns0]
  rw [hred, ← hc']
  rfl

/-- C2, counterexample to the unconditional claim: the first machine
`q0 a . b R` (no `HALT` transition) on input `a` writes `b`, moves
right, and then halts at `(q0, blank)` because no rule matches.  The
chained machine behaves identically - after the same two steps it has
no move either (`getMove RC 1 0 = none`), so execution never continues
in the second machine's initial state (index 2): the handoff happens
only on an explicit `HALT` transition, not whenever the first machine
halts. -/
theorem c2_chain_cex :
    ((parseRules (s2l "A") ⟨[s2l "q0"], [s2l "a", s2l "b"], [],
        s2l "q0", s2l "q0 a . b R"⟩).bind
      (fun RA => (machineFromInput RA (s2l "a")).bind
        (fun c0 => (runN RA c0 1).map (fun c => (c.state, c.pointer)))))
      = some (1, 1) ∧
    ((parseRules (s2l "A") ⟨[s2l "q0"], [s2l "a", s2l "b"], [],
        s2l "q0", s2l "q0 a . b R"⟩).bind
      (fun RA => (machineFromInput RA (s2l "a")).bind
        (fun c0 => runN RA c0 2))).isNone = true ∧
    ((parseFile (s2l "out") (chainText (s2l "B")
        ⟨[s2l "q0"], [s2l "a", s2l "b"], [], s2l "q0", s2l "q0 a . b R"⟩
        ⟨[s2l "b0"], [s2l "a"], [s2l "HALT"], s2l "b0",
          s2l "b0 a HALT . N"⟩)).bind
      (fun RC => (machineFromInput RC (s2l "a")).bind
        (fun c0 => (runN RC c0 1).map (fun c => (c.state, c.pointer)))))
      = some (1, 1) ∧
    ((parseFile (s2l "out") (chainText (s2l "B")
        ⟨[s2l "q0"], [s2l "a", s2l "b"], [], s2l "q0", s2l "q0 a . b R"⟩
        ⟨[s2l "b0"], [s2l "a"], [s2l "HALT"], s2l "b0",
          s2l "b0 a HALT . N"⟩)).bind
      (fun RC => (machineFromInput RC (s2l "a")).bind
        (fun c0 => runN RC c0 2))).isNone = true ∧
    (parseFile (s2l "out") (chainText (s2l "B")
        ⟨[s2l "q0"], [s2l "a", s2l "b"], [], s2l "q0", s2l "q0 a . b R"⟩
        ⟨[s2l "b0"], [s2l "a"], [s2l "HALT"], s2l "b0",
          s2l "b0 a HALT . N"⟩)).map (fun RC => getMove RC 1 0)
      = some none := by
  refine ⟨by decide, by decide, by decide, by decide, by decide⟩

/-- The first machine of the C2 witness: one rule `q0 a HALT . R`. -/
def c2e1w : Extracted :=
  ⟨[s2l "q0"], [s2l "a"], [], s2l "q0", s2l "q0 a HALT . R"⟩

/-- The second machine of the C2 witness. -/
def c2e2w : Extracted :=
  ⟨[s2l "b0"], [s2l "a"], [s2l "HALT"], s2l "b0", s2l "b0 a HALT . N"⟩

/-- The parse of the first witness machine. -/
def c2RAw : Rules :=
  ⟨1, [], [(0, s2l "_"), (1, s2l "a")], [(s2l "_", 0), (s2l "a", 1)],
    [((1, 1), Move.mk 0 1 Direction.Right)]⟩

/-- The parse of the chained witness machine. -/
def c2RCw : Rules :=
  ⟨1, [0], [(0, s2l "_"), (1, s2l "a")], [(s2l "_", 0), (s2l "a", 1)],
    [((1, 1), Move.mk 2 1 Direction.Right),
     ((2, 1), Move.mk 0 1 Direction.Stay)]⟩

/-- The start configuration of the C2 witness: `a` under the head. -/
def c2c0w : Config :=
  ⟨fun p => if p = 0 then 1 else 0, 1, 0⟩

/-- Witness for C2: chaining `q0 a HALT . R` with `b0 a HALT . N` and
running from `a` under the head, the composed machine's first step
writes `a` back, moves right and lands in the second machine's initial
state (index 2 = 0 + 1 + 1), exactly as the amended theorem's handoff
clause states. -/
theorem c2_chain_witness :
    (runN c2RCw c2c0w 1).map
        (fun c => (c.state, c.pointer, c.tape 0, c.tape 1))
      = some (2, 1, 1, 0) := by
  have h := (c2_chain (s2l "A") (s2l "out") (s2l "B") c2e1w c2e2w
    c2RAw c2RCw 0 c2c0w
    (by decide) (by decide) (by decide) (by decide) (by decide) (by decide)
    (by decide) (by decide) (by decide) (by decide) (by decide) (by decide)
    (by decide) (by decide) (by decide) (by decide) (by decide) (by decide)
    (by decide) (by decide) (by decide) (by decide) (by decide) (by decide)
    (by decide) (by decide) (by decide) (by decide)).2 0 c2c0w
    (applyMove c2c0w (Move.mk 0 1 Direction.Right))
    rfl
    (by
      intro i ci hi hr
      have hi0 : i = 0 := Nat.le_zero.mp hi
      subst hi0
      injection hr with hr
      subst hr
      refine ⟨by decide, by decide, by decide⟩)
    rfl
    rfl
  rw [h]
  rfl
